import Mathlib

/-!
# csvtk: field selection, `round` and `csv2json`

A shallow embedding of `cmd/round.go` and `cmd/csv2json.go`.

Conventions of the embedding.

* A CSV record is a `List String`; the reader delivers the records of a file
  in order (read errors of the reader are outside the model).
* Go `int` values are `Int`; the only arithmetic that can leave the 64-bit
  range, `f * -1`, wraps explicitly (`wrap64`).
* A Go `map[K]struct{}` is the list of its keys; only membership and
  "some key satisfies ..." are ever asked of it.  A `map[string][]int` is a
  function `String → Option (List Int)`.
* `checkError(err)` logs and exits the process: `Failure.fatal msg`.  A Go
  run-time panic (index out of range) is `Failure.panic`.
* `outfh.WriteString(s)` appends `s` to the list `out` of written chunks;
  `writer.Write(row)` appends `row` to the list of written rows.
* A Go string is a Lean `String`, that is, valid UTF-8 text; `col[1:]` drops the
  first character, which is the one-byte `-` of a negated name.
* Functions and package-level values that the two commands use but that are
  declared elsewhere (`strings.ToLower`, `reDigitals`, `reIntegers`,
  `strconv.Atoi`, `fuzzyField2Regexp`, float parsing and formatting) are the
  fields of `Env`.
-/

namespace Csvtk

/-! ## Basic types -/

/-- One CSV record. -/
abbrev Record := List String

/-- The two ways a run stops early. -/
inductive Failure where
  /-- Raised by `checkError`: the message is logged and the process exits. -/
  | fatal (msg : String)
  /-- Go run-time panic. -/
  | panic (msg : String)
  deriving DecidableEq, Repr

deriving instance DecidableEq for Except

/-- External functions and package-level values used by the commands. -/
structure Env where
  /-- Go `strings.ToLower`. -/
  toLower : String → String
  /-- Package-level `reDigitals.MatchString`. -/
  reDigitals : String → Bool
  /-- Package-level `reIntegers.MatchString`. -/
  reIntegers : String → Bool
  /-- Go `strconv.Atoi` with the error dropped (`n, _ = strconv.Atoi(c)`). -/
  atoi : String → Int
  /-- The test `fuzzyField2Regexp(pattern).MatchString(name)`. -/
  fuzzyMatch : String → String → Bool
  /-- The composition `fmt.Sprintf("%.Nf", v)` after `v, _ = strconv.ParseFloat(s, 64)`. -/
  formatFloat : Nat → String → String

/-- What `parseFields(cmd, fieldStr, ",", config.NoHeaderRow)` returned
(its fifth result is dropped by both callers). -/
structure ParsedFields where
  fields : List Int
  colnames : List String
  negativeFields : Bool
  needParseHeaderRow : Bool
  deriving DecidableEq, Repr

/-- Two's-complement wrap of a mathematical integer into the range of a Go `int` (64 bit). -/
def wrap64 (x : Int) : Int := (x + 2 ^ 63) % 2 ^ 64 - 2 ^ 63

/-! ## Field preparation (round.go 61-74, csv2json.go 99-110) -/

/-- The loop `for i, f := range fields` that fills `fields2` (and, with the same
values, `fieldsMap`): negative indices are made positive. -/
def normalizeFields (negativeFields : Bool) (fields : List Int) : List Int :=
  fields.map fun f => if negativeFields then wrap64 (f * -1) else f

/-! ## Header parsing (round.go 122-177, csv2json.go 184-245) -/

/-- The map update of the loop building `colnames2fileds`. -/
def mapSet (m : String → Option (List Int)) (k : String) (v : List Int) :
    String → Option (List Int) :=
  fun k2 => if k2 = k then some v else m k2

/-- The loop `for i, col := range record` building `colnames2fileds`; `i` is the
index of the head of the remaining columns. -/
def buildColnames2fileds :
    List String → Nat → (String → Option (List Int)) → (String → Option (List Int))
  | [], _, m => m
  | col :: rest, i, m =>
    match m col with
    | none => buildColnames2fileds rest (i + 1) (mapSet m col [(i : Int) + 1])
    | some ps => buildColnames2fileds rest (i + 1) (mapSet m col (ps ++ [(i : Int) + 1]))

/-- Go `col[1:]`; panics on the empty string.  The dropped byte is the leading `-`
of a negated name. -/
def sliceFrom1 (col : String) : Except Failure String :=
  match col.data with
  | [] => .error (.panic "slice bounds out of range [1:0]")
  | _ :: cs => .ok ⟨cs⟩

/-- Length of a map entry that may be absent (`len(colnames2fileds[col])`). -/
def lenAt (m : String → Option (List Int)) (col : String) : Nat :=
  match m col with
  | none => 0
  | some ps => ps.length

/-- The loop `for _, col := range colnames`: existence check (and, in csv2json only,
`dupCheck`, the duplicate check) of every requested name, and the keys of
`colnamesMap`.  `keys` holds the keys inserted so far. -/
def resolveColnames (dupCheck fuzzyFields negativeFields : Bool) (file : String)
    (colnames2fileds : String → Option (List Int)) :
    List String → List String → Except Failure (List String)
  | [], keys => .ok keys
  | col :: rest, keys =>
    if negativeFields then
      match sliceFrom1 col with
      | .error e => .error e
      | .ok col1 =>
        if !fuzzyFields && (colnames2fileds col1).isNone then
          .error (.fatal ("column \"" ++ col1 ++ "\" not existed in file: " ++ file))
        else if !fuzzyFields && dupCheck && decide (lenAt colnames2fileds col > 1) then
          .error (.fatal ("the selected colname is duplicated in the input data: " ++ col))
        else
          resolveColnames dupCheck fuzzyFields negativeFields file colnames2fileds rest
            (keys ++ [col1])
    else
      if !fuzzyFields && (colnames2fileds col).isNone then
        .error (.fatal ("column \"" ++ col ++ "\" not existed in file: " ++ file))
      else if !fuzzyFields && dupCheck && decide (lenAt colnames2fileds col > 1) then
        .error (.fatal ("the selected colname is duplicated in the input data: " ++ col))
      else
        resolveColnames dupCheck fuzzyFields negativeFields file colnames2fileds rest
          (keys ++ [col])

/-- The test `ok` of the loop `for _, col := range record` that collects the fields
of the named columns. -/
def colMatches (env : Env) (fuzzyFields : Bool) (colnamesMap : List String)
    (col : String) : Bool :=
  if fuzzyFields then colnamesMap.any fun p => env.fuzzyMatch p col
  else colnamesMap.contains col

/-- The loop `for _, col := range record` run when `len(fields) == 0`. -/
def fieldsOfNames (env : Env) (fuzzyFields : Bool) (colnamesMap : List String)
    (colnames2fileds : String → Option (List Int)) : List String → List Int
  | [] => []
  | col :: rest =>
    if colMatches env fuzzyFields colnamesMap col then
      (colnames2fileds col).getD [] ++
        fieldsOfNames env fuzzyFields colnamesMap colnames2fileds rest
    else
      fieldsOfNames env fuzzyFields colnamesMap colnames2fileds rest

/-- The whole `if parseHeaderRow { ... }` block up to the assignment of `fieldsMap`:
returns the new `fields` (also the keys of the new `fieldsMap`). -/
def parseHeader (env : Env) (dupCheck fuzzyFields negativeFields : Bool) (file : String)
    (colnames : List String) (fields : List Int) (record : Record) :
    Except Failure (List Int) :=
  let colnames2fileds := buildColnames2fileds record 0 (fun _ => none)
  match resolveColnames dupCheck fuzzyFields negativeFields file colnames2fileds colnames [] with
  | .error e => .error e
  | .ok colnamesMap =>
    if fields.length = 0 then
      .ok (fieldsOfNames env fuzzyFields colnamesMap colnames2fileds record)
    else
      .ok fields

/-! ## Field validation (round.go 178-200, csv2json.go 246-268) -/

/-- The loop `for f := range record` of the validation block: the positions kept,
`fs` being the indices `f` still to visit. -/
def selectFields (negativeFields : Bool) (fieldsMap : List Int) : List Nat → List Int
  | [] => []
  | f :: fs =>
    let ok := fieldsMap.contains ((f : Int) + 1)
    if negativeFields then
      if !ok then ((f : Int) + 1) :: selectFields negativeFields fieldsMap fs
      else selectFields negativeFields fieldsMap fs
    else
      if ok then ((f : Int) + 1) :: selectFields negativeFields fieldsMap fs
      else selectFields negativeFields fieldsMap fs

/-- The message of the range check. -/
def outOfRangeMessage (field : Int) (width : Nat) (file : String) : String :=
  "field (" ++ toString field ++ ") out of range (" ++ toString width ++ ") in file: " ++ file

/-- The validation block `if checkFields { ... }` up to the `no fields matched` test:
the range check of every key of `fieldsMap` (Go visits the keys in an unspecified
order; the model reports the first offending key of the list), then the new `fields`. -/
def validateFields (file : String) (negativeFields : Bool) (fieldsMap : List Int)
    (record : Record) : Except Failure (List Int) :=
  match fieldsMap.find? fun field => decide (field > (record.length : Int)) with
  | some field =>
    .error (.fatal (outOfRangeMessage field record.length file))
  | none =>
    let fields2 := selectFields negativeFields fieldsMap (List.range record.length)
    if fields2.length = 0 then
      .error (.fatal ("no fields matched in file: " ++ file))
    else
      .ok fields2

/-! ## round: the numeric-token rewrite (round.go 217-237, 261) -/

/-- Character class `[\-\+\d\.,]` of `reDigitalsCapt`. -/
def isMantissaChar (c : Char) : Bool :=
  c = '-' || c = '+' || c.isDigit || c = '.' || c = ','

/-- Character class `[\-\+\d]` of `reDigitalsCapt`. -/
def isExponentChar (c : Char) : Bool :=
  c = '-' || c = '+' || c.isDigit

/-- The first match `reDigitalsCapt.FindAllStringSubmatch(s, -1)[0]`, as the pair of its
groups 1 and 2, for the anchored pattern `^([\-\+\d\.,]*)([eE][\-\+\d]+)?$`; `none`
when there is no match.  Group 1 is the longest run of mantissa characters: the
character after it must start group 2 or end the text. -/
def reDigitalsCaptFind (s : String) : Option (String × String) :=
  let mantissa := s.data.takeWhile isMantissaChar
  match s.data.dropWhile isMantissaChar with
  | [] => some (⟨mantissa⟩, "")
  | c :: e =>
    if (c = 'e' || c = 'E') && !e.isEmpty && e.all isExponentChar then
      some (⟨mantissa⟩, ⟨c :: e⟩)
    else
      none

/-- Go `strings.IndexByte(s, c)` for a string of one-byte characters: the index of
the first `c`, or `-1`. -/
def indexByte (s : String) (c : Char) : Int :=
  if s.data.contains c then (s.data.indexOf c : Int) else -1

/-- The rewrite of one selected cell (round.go 220-237). -/
def roundCell (env : Env) (decimalWidth : Nat) (cell : String) : String :=
  match reDigitalsCaptFind cell with
  | none => cell
  | some (found1, found2) =>
    if found2 = "" then env.formatFloat decimalWidth found1
    else if found1 = "" then cell
    else if indexByte found2 '-' > 0 then env.formatFloat decimalWidth cell
    else env.formatFloat decimalWidth found1 ++ found2

/-! ## round: the record loop (round.go 106-243) -/

/-- Flags and parsed field specification of a `round` run on one file. -/
structure RoundConfig where
  file : String
  decimalWidth : Nat
  allFields : Bool
  fuzzyFields : Bool
  parsed : ParsedFields

/-- The variables of `round` that live across records, and the rows written. -/
structure RoundState where
  parseHeaderRow : Bool
  parseHeaderRow2 : Bool
  checkFields : Bool
  fields : List Int
  fieldsMap : List Int
  record2 : List String
  written : List Record
  deriving DecidableEq, Repr

/-- State before the first record (round.go 59-74 and 106-116). -/
def roundInit (cfg : RoundConfig) : RoundState :=
  let fields :=
    if cfg.parsed.fields.length > 0 then
      normalizeFields cfg.parsed.negativeFields cfg.parsed.fields
    else cfg.parsed.fields
  { parseHeaderRow := cfg.parsed.needParseHeaderRow
    parseHeaderRow2 := cfg.parsed.needParseHeaderRow
    checkFields := true
    fields := fields
    fieldsMap := fields
    record2 := []
    written := [] }

/-- The loop `for f := range record` that fills `record2` (round.go 217-240); `f` is
the index of the head of the remaining cells. -/
def roundCells (env : Env) (cfg : RoundConfig) (fieldsMap : List Int) :
    List String → Nat → List String → Except Failure (List String)
  | [], _, record2 => .ok record2
  | cell :: rest, f, record2 =>
    if f < record2.length then
      let v :=
        if fieldsMap.contains ((f : Int) + 1) || cfg.allFields then
          roundCell env cfg.decimalWidth cell
        else cell
      roundCells env cfg fieldsMap rest (f + 1) (record2.set f v)
    else
      .error (.panic ("index out of range [" ++ toString f ++ "] with length " ++
        toString record2.length))

/-- The header block of the loop body (round.go 122-177). -/
def roundHeaderPhase (env : Env) (cfg : RoundConfig) (st : RoundState) (record : Record) :
    Except Failure RoundState :=
  if st.parseHeaderRow then
    match parseHeader env false cfg.fuzzyFields cfg.parsed.negativeFields cfg.file
        cfg.parsed.colnames st.fields record with
    | .error e => .error e
    | .ok fields => .ok { st with fields := fields, fieldsMap := fields, parseHeaderRow := false }
  else .ok st

/-- The validation block of the loop body (round.go 178-209). -/
def roundCheckPhase (cfg : RoundConfig) (st : RoundState) (record : Record) :
    Except Failure RoundState :=
  if st.checkFields then
    match validateFields cfg.file cfg.parsed.negativeFields st.fieldsMap record with
    | .error e => .error e
    | .ok fields2 =>
      .ok { st with fields := fields2, fieldsMap := fields2,
                    record2 := List.replicate record.length "", checkFields := false }
  else .ok st

/-- The rest of the loop body (round.go 211-241): the header row is written as it is,
a data row is copied to `record2`, its selected cells rewritten, and `record2` written. -/
def roundWritePhase (env : Env) (cfg : RoundConfig) (st : RoundState) (record : Record) :
    Except Failure RoundState :=
  if st.parseHeaderRow2 then
    .ok { st with written := st.written ++ [record], parseHeaderRow2 := false }
  else
    match roundCells env cfg st.fieldsMap record 0 st.record2 with
    | .error e => .error e
    | .ok record2 => .ok { st with record2 := record2, written := st.written ++ [record2] }

/-- One iteration of `for _, record := range chunk.Data` (round.go 121-242). -/
def roundStep (env : Env) (cfg : RoundConfig) (st : RoundState) (record : Record) :
    Except Failure RoundState :=
  match roundHeaderPhase env cfg st record with
  | .error e => .error e
  | .ok st1 =>
    match roundCheckPhase cfg st1 record with
    | .error e => .error e
    | .ok st2 => roundWritePhase env cfg st2 record

/-- The record loop: the state reached, and the failure that stopped the run, if any
(the state is then the one before the failing record). -/
def roundLoop (env : Env) (cfg : RoundConfig) :
    RoundState → List Record → RoundState × Option Failure
  | st, [] => (st, none)
  | st, record :: rest =>
    match roundStep env cfg st record with
    | .error e => (st, some e)
    | .ok st1 => roundLoop env cfg st1 rest

/-- A `round` run over the records of one file. -/
def roundRun (env : Env) (cfg : RoundConfig) (records : List Record) :
    RoundState × Option Failure :=
  roundLoop env cfg (roundInit cfg) records

/-! ## csv2json: values (csv2json.go 365-392) -/

/-- Function `unescapeJSONField` (csv2json.go 365-374): the runes of `s` in order, a
backslash put before every double quote. -/
def unescapeJSONField (s : String) : String :=
  ⟨s.data.foldl (fun s2 r => if r = '"' then (s2 ++ ['\\']) ++ [r] else s2 ++ [r]) []⟩

/-- Function `processJSONValue` (csv2json.go 376-392): the `switch` on the lower-cased
value, then the numeric test, then the quoted value. -/
def processJSONValue (env : Env) (val : String) (blanks : Bool) (parseNum : Bool) : String :=
  let lower := env.toLower val
  if lower = "true" then "true"
  else if lower = "false" then "false"
  else if lower = "" || lower = "na" || lower = "n/a" || lower = "none" || lower = "null"
      || lower = "." then
    if blanks then "\"\"" else "null"
  else if parseNum && env.reDigitals val then val
  else "\"" ++ val ++ "\""

/-! ## csv2json: flags (csv2json.go 50-122) -/

/-- Flags and parsed key specification of a `csv2json` run.  `parsed` is what
`parseFields` returns for `fieldStr`; it is read only when `fieldStr` is not empty. -/
structure Csv2jsonConfig where
  file : String
  NoHeaderRow : Bool
  blanks : Bool
  parseNumFlags : List String
  indent : String
  fieldStr : String
  parsed : ParsedFields

/-- The loop over `_parseNumCols` (csv2json.go 57-73): `parseNumAll` and the keys of
`parseNumCols`; `cols` holds the keys inserted so far. -/
def parseNumLoop (env : Env) : List String → List Int → Except Failure (Bool × List Int)
  | [], cols => .ok (false, cols)
  | c0 :: rest, cols =>
    let c := env.toLower c0
    if c = "a" || c = "all" then .ok (true, cols)
    else if env.reIntegers c then
      let n := env.atoi c
      if n < 1 then .error (.fatal ("positive column index needed: " ++ c))
      else parseNumLoop env rest (cols ++ [n])
    else .error (.fatal ("positive column index needed: " ++ c))

/-- The flag `keyed := fieldStr != ""`. -/
def Csv2jsonConfig.keyed (cfg : Csv2jsonConfig) : Bool := cfg.fieldStr != ""

/-- The string `LF`: a line feed when the indent is not empty (csv2json.go 77-82). -/
def Csv2jsonConfig.LF (cfg : Csv2jsonConfig) : String := if cfg.indent != "" then "\n" else ""

/-- The string `SEP`: a blank when the indent is not empty (csv2json.go 77-82). -/
def Csv2jsonConfig.SEP (cfg : Csv2jsonConfig) : String := if cfg.indent != "" then " " else ""

/-- The variable `colnames` of csv2json: set by `parseFields` only in a keyed run. -/
def Csv2jsonConfig.colnames (cfg : Csv2jsonConfig) : List String :=
  if cfg.keyed then cfg.parsed.colnames else []

/-- The variable `negativeFields` of csv2json: set by `parseFields` only in a keyed run. -/
def Csv2jsonConfig.negativeFields (cfg : Csv2jsonConfig) : Bool :=
  cfg.keyed && cfg.parsed.negativeFields

/-- The key block (csv2json.go 92-122): the initial `fields` (also the keys of
`fieldsMap`) and `parseHeaderRow`. -/
def csv2jsonKey (cfg : Csv2jsonConfig) : Except Failure (List Int × Bool) :=
  if cfg.keyed then
    if cfg.parsed.fields.length > 0 then
      if cfg.parsed.fields.length > 1 then
        .error (.fatal "invalid value of flag -k/--key: only ONE field allowed")
      else if cfg.parsed.negativeFields then
        .error (.fatal "invalid value of flag -k/--key: negative field not allowed")
      else
        .ok (normalizeFields cfg.parsed.negativeFields cfg.parsed.fields,
             cfg.parsed.needParseHeaderRow)
    else
      if cfg.parsed.colnames.length > 1 then
        .error (.fatal "invalid value of flag -k/--key: only ONE field allowed")
      else if cfg.parsed.negativeFields then
        .error (.fatal "invalid value of flag -k/--key: negative field not allowed")
      else
        .ok (cfg.parsed.fields, cfg.parsed.needParseHeaderRow)
  else if !cfg.NoHeaderRow then .ok ([], true)
  else .ok ([], false)

/-! ## csv2json: the record loop (csv2json.go 155-351) -/

/-- The variables of `csv2json` that live across records, the chunks written to the
output and the warnings logged. -/
structure Csv2jsonState where
  parseHeaderRow : Bool
  checkFields : Bool
  fields : List Int
  fieldsMap : List Int
  HeaderRow : Record
  keysMaps : List String
  first : Bool
  line : Nat
  parseNum : Bool
  out : List String
  warnings : List String
  deriving DecidableEq, Repr

/-- Go `record[i]` for an `int` index: a panic when the index is out of range. -/
def indexRecord (record : Record) (i : Int) : Except Failure String :=
  if 0 ≤ i then
    match record[i.toNat]? with
    | some v => .ok v
    | none => .error (.panic ("index out of range [" ++ toString i ++ "] with length " ++
        toString record.length))
  else .error (.panic ("index out of range [" ++ toString i ++ "]"))

/-- The loop `for i, f = range fields { items[i] = record[f-1] }` (csv2json.go 274-276). -/
def fillItems (record : Record) : List Int → Except Failure (List String)
  | [] => .ok []
  | f :: fs =>
    match indexRecord record (f - 1) with
    | .error e => .error e
    | .ok v =>
      match fillItems record fs with
      | .error e => .error e
      | .ok items => .ok (v :: items)

/-- The update of `parseNum` at the head of both column loops (csv2json.go 300-306 and
325-331); `parseNum0` is constantly true. -/
def nextParseNum (parseNumAll : Bool) (parseNumCols : List Int) (i : Nat) (parseNum : Bool) :
    Bool :=
  if parseNumAll then true
  else if parseNumCols.contains ((i : Int) + 1) then true
  else parseNum

/-- What a column loop leaves behind: the chunks written, `parseNum`, and the panic that
stopped it, if any. -/
structure Emitted where
  out : List String
  parseNum : Bool
  failure : Option Failure
  deriving DecidableEq, Repr

/-- The loop `for i, col = range HeaderRow` of header mode (csv2json.go 299-315); `i` is
the index of the head of the remaining header columns. -/
def objectColumns (env : Env) (cfg : Csv2jsonConfig) (parseNumAll : Bool)
    (parseNumCols : List Int) (record : Record) :
    List String → Nat → Bool → List String → Emitted
  | [], _, parseNum, out => ⟨out, parseNum, none⟩
  | col :: rest, i, parseNum, out =>
    let parseNum1 := nextParseNum parseNumAll parseNumCols i parseNum
    match indexRecord record i with
    | .error e => ⟨out, parseNum1, some e⟩
    | .ok cell =>
      let pair := cfg.indent ++ cfg.indent ++ "\"" ++ unescapeJSONField col ++ "\":" ++ cfg.SEP ++
        processJSONValue env cell cfg.blanks parseNum1
      let chunk :=
        if (i : Int) < (record.length : Int) - 1 then pair ++ "," ++ cfg.LF else pair ++ cfg.LF
      objectColumns env cfg parseNumAll parseNumCols record rest (i + 1) false (out ++ [chunk])

/-- The loop `for i, col = range record` of no-header mode (csv2json.go 324-340); `i` is
the index of the head of the remaining cells and `len` is `len(record)`.  `parseNum` is
updated as in header mode and then not used. -/
def arrayColumns (cfg : Csv2jsonConfig) (parseNumAll : Bool) (parseNumCols : List Int)
    (len : Nat) : List String → Nat → Bool → List String → Emitted
  | [], _, parseNum, out => ⟨out, parseNum, none⟩
  | col :: rest, i, parseNum, out =>
    let _parseNum1 := nextParseNum parseNumAll parseNumCols i parseNum
    let item := cfg.indent ++ cfg.indent ++ "\"" ++ unescapeJSONField col ++ "\""
    let chunk :=
      if (i : Int) < (len : Int) - 1 then item ++ "," ++ cfg.LF else item ++ cfg.LF
    arrayColumns cfg parseNumAll parseNumCols len rest (i + 1) false (out ++ [chunk])

/-- The element of one data row (csv2json.go 287-342), written after the chunks `out`:
the separator unless the element is the first, then the object or the array. -/
def emitElement (env : Env) (cfg : Csv2jsonConfig) (parseNumAll : Bool)
    (parseNumCols : List Int) (HeaderRow : Record) (key : String) (first : Bool)
    (parseNum : Bool) (record : Record) (out : List String) : Emitted :=
  let out1 := if first then out else out ++ ["," ++ cfg.LF]
  if !cfg.NoHeaderRow then
    let out2 :=
      if cfg.keyed then
        out1 ++ [cfg.indent ++ "\"" ++ key ++ "\":" ++ cfg.SEP ++ "\x7b" ++ cfg.LF]
      else out1 ++ [cfg.indent ++ "\x7b" ++ cfg.LF]
    match objectColumns env cfg parseNumAll parseNumCols record HeaderRow 0 parseNum out2 with
    | ⟨out3, parseNum3, some e⟩ => ⟨out3, parseNum3, some e⟩
    | ⟨out3, parseNum3, none⟩ => ⟨out3 ++ [cfg.indent ++ "\x7d"], parseNum3, none⟩
  else
    let out2 :=
      if cfg.keyed then
        out1 ++ [cfg.indent ++ "\"" ++ key ++ "\":" ++ cfg.SEP ++ "[" ++ cfg.LF]
      else out1 ++ [cfg.indent ++ "[" ++ cfg.LF]
    match arrayColumns cfg parseNumAll parseNumCols record.length record 0 parseNum out2 with
    | ⟨out3, parseNum3, some e⟩ => ⟨out3, parseNum3, some e⟩
    | ⟨out3, parseNum3, none⟩ => ⟨out3 ++ [cfg.indent ++ "]"], parseNum3, none⟩

/-- The header block of the loop body (csv2json.go 184-245), ending in `continue`. -/
def csv2jsonHeaderPhase (env : Env) (cfg : Csv2jsonConfig) (st : Csv2jsonState)
    (record : Record) : Csv2jsonState × Option Failure :=
  match parseHeader env true false cfg.negativeFields cfg.file cfg.colnames st.fields
      record with
  | .error e => (st, some e)
  | .ok fields =>
    ({ st with fields := fields, fieldsMap := fields, parseHeaderRow := false,
               HeaderRow := record }, none)

/-- The validation block of the loop body (csv2json.go 246-272). -/
def csv2jsonCheckPhase (cfg : Csv2jsonConfig) (st : Csv2jsonState) (record : Record) :
    Except Failure Csv2jsonState :=
  if st.checkFields then
    match validateFields cfg.file cfg.negativeFields st.fieldsMap record with
    | .error e => .error e
    | .ok fields2 => .ok { st with fields := fields2, checkFields := false }
  else .ok st

/-- The rest of the loop body (csv2json.go 274-342): the items of the selected fields,
the test of the key, and the element. -/
def csv2jsonEmitPhase (env : Env) (cfg : Csv2jsonConfig) (parseNumAll : Bool)
    (parseNumCols : List Int) (st1 : Csv2jsonState) (record : Record) :
    Csv2jsonState × Option Failure :=
  match fillItems record st1.fields with
  | .error e => (st1, some e)
  | .ok items =>
    if cfg.keyed then
      match items with
      | [] => (st1, some (.panic "index out of range [0] with length 0"))
      | key :: _ =>
        if st1.keysMaps.contains key then
          ({ st1 with warnings := st1.warnings ++
              ["ignore record with duplicated key (" ++ key ++ ") at line " ++
                toString st1.line] }, none)
        else
          let em := emitElement env cfg parseNumAll parseNumCols st1.HeaderRow key
            st1.first st1.parseNum record st1.out
          ({ st1 with keysMaps := st1.keysMaps ++ [key], first := false,
                      parseNum := em.parseNum, out := em.out }, em.failure)
    else
      let em := emitElement env cfg parseNumAll parseNumCols st1.HeaderRow ""
        st1.first st1.parseNum record st1.out
      ({ st1 with first := false, parseNum := em.parseNum, out := em.out }, em.failure)

/-- One iteration of `for _, record := range chunk.Data` (csv2json.go 182-343): the state
reached, and the failure that stopped the run, if any. -/
def csv2jsonStep (env : Env) (cfg : Csv2jsonConfig) (parseNumAll : Bool)
    (parseNumCols : List Int) (st0 : Csv2jsonState) (record : Record) :
    Csv2jsonState × Option Failure :=
  let st := { st0 with line := st0.line + 1 }
  if st.parseHeaderRow then csv2jsonHeaderPhase env cfg st record
  else
    match csv2jsonCheckPhase cfg st record with
    | .error e => (st, some e)
    | .ok st1 => csv2jsonEmitPhase env cfg parseNumAll parseNumCols st1 record

/-- The record loop of csv2json. -/
def csv2jsonLoop (env : Env) (cfg : Csv2jsonConfig) (parseNumAll : Bool)
    (parseNumCols : List Int) : Csv2jsonState → List Record → Csv2jsonState × Option Failure
  | st, [] => (st, none)
  | st, record :: rest =>
    match csv2jsonStep env cfg parseNumAll parseNumCols st record with
    | (st1, some e) => (st1, some e)
    | (st1, none) => csv2jsonLoop env cfg parseNumAll parseNumCols st1 rest

/-- State before the first record (csv2json.go 155-178), the opening bracket written. -/
def csv2jsonInit (cfg : Csv2jsonConfig) (parseNumAll : Bool) (fields : List Int)
    (parseHeaderRow : Bool) : Csv2jsonState :=
  { parseHeaderRow := parseHeaderRow
    checkFields := cfg.keyed
    fields := fields
    fieldsMap := fields
    HeaderRow := []
    keysMaps := []
    first := true
    line := 0
    parseNum := parseNumAll
    out := [if cfg.keyed then "\x7b" else "[", cfg.LF]
    warnings := [] }

/-- What a run leaves behind: the chunks written to the output, in order, the warnings
logged, and the failure that stopped the run, if any. -/
structure Csv2jsonResult where
  out : List String
  warnings : List String
  failure : Option Failure
  deriving DecidableEq, Repr

/-- A `csv2json` run (csv2json.go 41-354).  `input` is `none` when opening the file
reports `xopen.ErrNoContent`, and the records of the file otherwise. -/
def csv2jsonRun (env : Env) (cfg : Csv2jsonConfig) (input : Option (List Record)) :
    Csv2jsonResult :=
  match parseNumLoop env cfg.parseNumFlags [] with
  | .error e => ⟨[], [], some e⟩
  | .ok (parseNumAll, parseNumCols) =>
    match csv2jsonKey cfg with
    | .error e => ⟨[], [], some e⟩
    | .ok (fields, parseHeaderRow) =>
      match input with
      | none =>
        ⟨[if cfg.keyed then "\x7b" else "[", if cfg.keyed then "\x7d\n" else "]\n"],
         ["csvtk csv2json: skipping empty input file: " ++ cfg.file], none⟩
      | some records =>
        match csv2jsonLoop env cfg parseNumAll parseNumCols
            (csv2jsonInit cfg parseNumAll fields parseHeaderRow) records with
        | (st, some e) => ⟨st.out, st.warnings, some e⟩
        | (st, none) =>
          ⟨st.out ++ [cfg.LF, if cfg.keyed then "\x7d\n" else "]\n"], st.warnings, none⟩

/-- The text of the output: the chunks written, concatenated. -/
def Csv2jsonResult.text (r : Csv2jsonResult) : String := String.join r.out

/-! ## Go float parsing and formatting, as `round` uses them

`strconv.ParseFloat(s, 64)` returns the float64 nearest to the decimal number `s`
(ties to even), `±Inf` beyond the float64 range, and `0` on a syntax error
(`fvalue, _ = ...` drops the error).  `fmt.Sprintf("%.Nf", v)` prints the exact value
of `v` rounded to `N` decimals (ties to even).  `round` passes only strings made of
signs, digits, dots, commas and `e`/`E`; on those the model below is exact (the
spellings of infinity and NaN, hexadecimal floats and underscores cannot occur). -/

/-- A float64 value that `strconv.ParseFloat` can return on a decimal string: the finite
value `(-1)^neg * mant * 2^exp2`, or an infinity. -/
inductive GoFloat where
  | finite (neg : Bool) (mant : Nat) (exp2 : Int)
  | inf (neg : Bool)
  deriving DecidableEq, Repr

/-- The digits-and-dot part of `readFloat`: scans digits and at most one dot.  Arguments:
the text left, whether a dot was seen, whether a digit was seen, the integer spelled by
the digits so far, and the number of digits after the dot.  Returns `sawdigits`, the
integer, the number of digits after the dot, and the text left. -/
def scanMantissa : List Char → Bool → Bool → Nat → Nat → Bool × Nat × Nat × List Char
  | [], _, sawdigits, mant, frac => (sawdigits, mant, frac, [])
  | c :: cs, sawdot, sawdigits, mant, frac =>
    if c = '.' then
      if sawdot then (sawdigits, mant, frac, c :: cs)
      else scanMantissa cs true sawdigits mant frac
    else if c.isDigit then
      scanMantissa cs sawdot true (10 * mant + (c.toNat - '0'.toNat))
        (if sawdot then frac + 1 else frac)
    else (sawdigits, mant, frac, c :: cs)

/-- The exponent digits of `readFloat`: `e = e*10 + digit` while `e < 10000`; `none` when
a character is not a digit. -/
def scanExponent : List Char → Nat → Option Nat
  | [], e => some e
  | c :: cs, e =>
    if c.isDigit then scanExponent cs (if e < 10000 then e * 10 + (c.toNat - '0'.toNat) else e)
    else none

/-- The text after the mantissa in `readFloat`: nothing, or `e`/`E`, an optional sign and
at least one digit, up to the end of the string.  Returns the decimal exponent, `none`
on a syntax error. -/
def readExponent : List Char → Option Int
  | [] => some 0
  | c :: cs =>
    if c = 'e' || c = 'E' then
      match cs with
      | [] => none
      | s :: ds =>
        if s = '+' then
          (if ds.isEmpty then none else (scanExponent ds 0).map fun e => (e : Int))
        else if s = '-' then
          (if ds.isEmpty then none else (scanExponent ds 0).map fun e => -(e : Int))
        else (scanExponent (s :: ds) 0).map fun e => (e : Int)
    else none

/-- The decimal number spelled by a string, as `readFloat` reads it: sign, integer `mant`
and decimal exponent `exp10`, for the value `(-1)^neg * mant * 10^exp10`; `none` on a
syntax error. -/
def readFloat (s : String) : Option (Bool × Nat × Int) :=
  let (neg, body) :=
    match s.data with
    | '+' :: cs => (false, cs)
    | '-' :: cs => (true, cs)
    | cs => (false, cs)
  match scanMantissa body false false 0 0 with
  | (sawdigits, mant, frac, rest) =>
    if sawdigits then
      match readExponent rest with
      | some e => some (neg, mant, e - (frac : Int))
      | none => none
    else none

/-- Floor of the binary logarithm, by halving, `fuel` bounding the number of steps. -/
def log2Fuel : Nat → Nat → Nat
  | 0, _ => 0
  | fuel + 1, n => if n < 2 then 0 else log2Fuel fuel (n / 2) + 1

/-- Floor of the binary logarithm of a positive number (`0` for `0`). -/
def ilog2 (n : Nat) : Nat := log2Fuel n n

/-- The quotient `a / b` rounded to the nearest integer, ties to even. -/
def roundDivHalfEven (a b : Nat) : Nat :=
  let q := a / b
  let r := a % b
  if 2 * r > b || (2 * r = b && q % 2 = 1) then q + 1 else q

/-- The float64 nearest to the positive rational `num / den` (ties to even), with its
sign `neg`. -/
def nearestFloat64 (neg : Bool) (num den : Nat) : GoFloat :=
  let k0 : Int := (ilog2 num : Int) - (ilog2 den : Int)
  -- `k` is the floor of the binary logarithm of `num / den`
  let k : Int :=
    if (if 0 ≤ k0 then decide (den * 2 ^ k0.toNat ≤ num)
        else decide (den ≤ num * 2 ^ (-k0).toNat))
    then k0 else k0 - 1
  if 1024 ≤ k then .inf neg
  else
    let e : Int := max (k - 52) (-1074)
    let m : Nat :=
      if 0 ≤ e then roundDivHalfEven num (den * 2 ^ e.toNat)
      else roundDivHalfEven (num * 2 ^ (-e).toNat) den
    if e = 971 ∧ m = 2 ^ 53 then .inf neg else .finite neg m e

/-- Number of decimal digits of a number. -/
def decimalLength (n : Nat) : Nat := (Nat.toDigits 10 n).length

/-- Go `strconv.ParseFloat(s, 64)` with the error dropped: the nearest float64 of the
decimal number `s`, an infinity when it is out of range, `0` when `s` is not a number. -/
def parseFloat (s : String) : GoFloat :=
  match readFloat s with
  | none => .finite false 0 0
  | some (neg, mant, exp10) =>
    if mant = 0 then .finite neg 0 0
    -- at least `10^309`, more than the largest float64
    else if 310 ≤ exp10 + (decimalLength mant : Int) then .inf neg
    -- below `10^(-330)`, less than half the smallest float64
    else if exp10 + (decimalLength mant : Int) ≤ -330 then .finite neg 0 0
    else if 0 ≤ exp10 then nearestFloat64 neg (mant * 10 ^ exp10.toNat) 1
    else nearestFloat64 neg mant (10 ^ (-exp10).toNat)

/-- A number in decimal, padded with zeros on the left to `width` digits. -/
def padZeros (width : Nat) (n : Nat) : String :=
  ⟨List.replicate (width - decimalLength n) '0' ++ Nat.toDigits 10 n⟩

/-- Go `fmt.Sprintf("%.Nf", v)`, `N` being `prec`: the exact value of `v` rounded to
`prec` decimals, ties to even; the sign of a negative number stays, also when the digits
are all zero. -/
def sprintfFixed (prec : Nat) : GoFloat → String
  | .inf neg => if neg then "-Inf" else "+Inf"
  | .finite neg mant exp2 =>
    let scaled : Nat :=
      if 0 ≤ exp2 then mant * 2 ^ exp2.toNat * 10 ^ prec
      else roundDivHalfEven (mant * 10 ^ prec) (2 ^ (-exp2).toNat)
    let whole := toString (scaled / 10 ^ prec)
    let digits := if prec = 0 then whole else whole ++ "." ++ padZeros prec (scaled % 10 ^ prec)
    if neg then "-" ++ digits else digits

/-- The composition `fmt.Sprintf("%.Nf", fvalue)` after
`fvalue, _ = strconv.ParseFloat(s, 64)` of round.go. -/
def goFormatFloat (decimalWidth : Nat) (s : String) : String :=
  sprintfFixed decimalWidth (parseFloat s)

/-! ## A reference environment for evaluating the model on concrete inputs -/

/-- Lower-casing of the ASCII letters; agrees with Go `strings.ToLower` on ASCII text. -/
def asciiToLower (s : String) : String := ⟨s.data.map Char.toLower⟩

/-- Glob matching of a pattern against a name: `*` stands for any run of characters,
every other character for itself. -/
def globMatch : List Char → List Char → Bool
  | [], s => s.isEmpty
  | p :: ps, s =>
    if p = '*' then s.tails.any fun t => globMatch ps t
    else
      match s with
      | [] => false
      | c :: cs => p = c && globMatch ps cs

/-- Modelled from the spec: `fuzzyField2Regexp`, which this repository declares outside
the three source files; the spec describes a fuzzy pattern as "a name token containing
wildcard markers, compiled into a match predicate (anchored substring/glob semantics)". -/
def fuzzyField2Regexp (pattern : String) (name : String) : Bool :=
  globMatch pattern.data name.data

/-- Modelled from the spec: `reDigitals`, declared outside the three source files; the
spec speaks of "numeric-looking strings", and the sibling pattern `reDigitalsCapt` of
round.go fixes what a numeric token is. -/
def reDigitalsModel (s : String) : Bool :=
  match reDigitalsCaptFind s with
  | none => false
  | some (found1, _) => found1.data.any Char.isDigit

/-- Modelled from the spec: `reIntegers`, declared outside the three source files; the
flag it guards asks for a "positive column index". -/
def reIntegersModel (s : String) : Bool :=
  !s.data.isEmpty && s.data.all Char.isDigit

/-- Decimal value of a string of digits, `0` when it is not one (the dropped error). -/
def atoiModel (s : String) : Int :=
  if reIntegersModel s then
    (s.data.foldl (fun n c => 10 * n + (c.toNat - '0'.toNat)) 0 : Nat)
  else 0

/-- The environment used to evaluate the model on concrete inputs: ASCII lower-casing,
the patterns modelled from the spec, and the model of Go float parsing and formatting. -/
def refEnv : Env where
  toLower := asciiToLower
  reDigitals := reDigitalsModel
  reIntegers := reIntegersModel
  atoi := atoiModel
  fuzzyMatch := fuzzyField2Regexp
  formatFloat := goFormatFloat

/-! ## Notions used in the statements: field selection -/

/-- The positions `1, ..., w` of a row of width `w`, ascending. -/
def positions (w : Nat) : List Int := (List.range w).map fun (f : Nat) => (f : Int) + 1

/-- The 1-based positions of the columns of `record` whose content satisfies `pred`,
ascending. -/
def positionsWhere (pred : String → Bool) (record : Record) : List Int :=
  (positions record.length).filter fun p =>
    match record[(p - 1).toNat]? with
    | some col => pred col
    | none => false

/-- Positions of the columns named `col` among `record`, whose head has index `i`. -/
def occurrences (col : String) : List String → Nat → List Int
  | [], _ => []
  | c :: rest, i =>
    if c = col then ((i : Int) + 1) :: occurrences col rest (i + 1)
    else occurrences col rest (i + 1)

/-- How `parseFields` hands over a requested name: with the leading `-` when the
specification is negated. -/
def requestedAs (negativeFields : Bool) (name : String) : String :=
  if negativeFields then "-" ++ name else name

/-! ## Notions used in the statements: the output of csv2json, row by row -/

/-- Whether the column of 0-based index `i` is flagged for numeric parsing: `all` was
given, or `i + 1` is a key of `parseNumCols`. -/
def numericColumn (parseNumAll : Bool) (parseNumCols : List Int) (i : Nat) : Bool :=
  parseNumAll || parseNumCols.contains ((i : Int) + 1)

/-- The `"name": value` lines of an object, for the header columns `cols` whose head has
index `i`: the value of column `i` is the normalised cell `record[i]`, parsed as a number
only when column `i` is flagged; a comma follows unless `i` is the last index of the
record. -/
def objectChunks (env : Env) (cfg : Csv2jsonConfig) (parseNumAll : Bool)
    (parseNumCols : List Int) (record : Record) : List String → Nat → List String
  | [], _ => []
  | col :: rest, i =>
    let pair := cfg.indent ++ cfg.indent ++ "\"" ++ unescapeJSONField col ++ "\":" ++ cfg.SEP ++
      processJSONValue env ((record[i]?).getD "") cfg.blanks
        (numericColumn parseNumAll parseNumCols i)
    (if (i : Int) < (record.length : Int) - 1 then pair ++ "," ++ cfg.LF else pair ++ cfg.LF) ::
      objectChunks env cfg parseNumAll parseNumCols record rest (i + 1)

/-- The lines of an array, for the cells `cells` whose head has index `i`: every cell
quoted, its double quotes escaped. -/
def arrayChunks (cfg : Csv2jsonConfig) (len : Nat) : List String → Nat → List String
  | [], _ => []
  | col :: rest, i =>
    let item := cfg.indent ++ cfg.indent ++ "\"" ++ unescapeJSONField col ++ "\""
    (if (i : Int) < (len : Int) - 1 then item ++ "," ++ cfg.LF else item ++ cfg.LF) ::
      arrayChunks cfg len rest (i + 1)

/-- The chunks of the element of one data row: opening line, columns, closing bracket. -/
def elementChunks (env : Env) (cfg : Csv2jsonConfig) (parseNumAll : Bool)
    (parseNumCols : List Int) (HeaderRow : Record) (key : String) (record : Record) :
    List String :=
  if !cfg.NoHeaderRow then
    [if cfg.keyed then cfg.indent ++ "\"" ++ key ++ "\":" ++ cfg.SEP ++ "\x7b" ++ cfg.LF
     else cfg.indent ++ "\x7b" ++ cfg.LF] ++
      objectChunks env cfg parseNumAll parseNumCols record HeaderRow 0 ++
      [cfg.indent ++ "\x7d"]
  else
    [if cfg.keyed then cfg.indent ++ "\"" ++ key ++ "\":" ++ cfg.SEP ++ "[" ++ cfg.LF
     else cfg.indent ++ "[" ++ cfg.LF] ++
      arrayChunks cfg record.length record 0 ++
      [cfg.indent ++ "]"]

/-- Elements in sequence, the chunk `sep` before each one except, when `first` holds,
the first. -/
def appendElements (sep : String) : Bool → List (List String) → List String
  | _, [] => []
  | first, e :: es => (if first then e else sep :: e) ++ appendElements sep false es

/-- The value of field `k` (1-based) of a record. -/
def keyCell (k : Int) (record : Record) : String := (record[(k - 1).toNat]?).getD ""

/-- The rows kept by a scan that remembers the keys seen: a row is kept when its key
has not been seen. -/
def keepFirst (key : Record → String) : List String → List Record → List Record
  | _, [] => []
  | seen, r :: rs =>
    if seen.contains (key r) then keepFirst key seen rs
    else r :: keepFirst key (seen ++ [key r]) rs

/-- The rows `rows[j]` such that no earlier row `rows[i]`, `i < j`, has the same key, in
the order of the input. -/
def firstOccurrences (key : Record → String) (rows : List Record) : List Record :=
  (List.range rows.length).filterMap fun j =>
    match rows[j]? with
    | some r => if (rows.take j).all (fun r0 => key r0 != key r) then some r else none
    | none => none

/-- The runes written for one rune of the input: a double quote gets a backslash before
it, every other rune is written as it is. -/
def escapeRune (r : Char) : List Char := if r = '"' then ['\\', '"'] else [r]

/-- The selection that the validation block computes for a row of width `w`: the positions
of `1..w` that are keys of `fieldsMap`, or, under negation, those that are not. -/
def finalSelection (negativeFields : Bool) (fieldsMap : List Int) (w : Nat) : List Int :=
  (positions w).filter fun p =>
    if negativeFields then !fieldsMap.contains p else fieldsMap.contains p

/-- A data row as `round` is meant to write it: the cells of `cells`, whose head has index
`f`, each selected cell (position `f + 1` a key of `fieldsMap`, or all fields asked for)
rewritten by `roundCell`, every other cell as it is. -/
def rewriteRow (env : Env) (cfg : RoundConfig) (fieldsMap : List Int) :
    List String → Nat → List String
  | [], _ => []
  | cell :: rest, f =>
    (if fieldsMap.contains ((f : Int) + 1) || cfg.allFields then
        roundCell env cfg.decimalWidth cell
      else cell) :: rewriteRow env cfg fieldsMap rest (f + 1)

/-- The properties of a resolved field list for a row of width `w`: not empty, strictly
ascending, hence free of duplicates, and made of positions of `1..w`. -/
def SortedSet (l : List Int) (w : Nat) : Prop :=
  l ≠ [] ∧ l.Pairwise (· < ·) ∧ l.Nodup ∧ ∀ p ∈ l, 1 ≤ p ∧ p ≤ (w : Int)

/-- Whether a string holds neither a space nor a newline. -/
def noBlank (s : String) : Bool := s.data.all fun c => c != ' ' && c != '\n'

/-- The output buffer of `round` after a data row of at most its width: the cells of the
row, the selected ones rewritten, then the cells that the buffer held beyond the width
of the row. -/
def fillBuffer (env : Env) (cfg : RoundConfig) (fieldsMap : List Int)
    (buffer row : List String) : List String :=
  rewriteRow env cfg fieldsMap row 0 ++ buffer.drop row.length

/-- The rows written for the data rows `rows`, the buffer holding `buffer` before the
first of them: each row is written as the buffer it leaves behind, which is the buffer
the next row starts from. -/
def writtenRows (env : Env) (cfg : RoundConfig) (fieldsMap : List Int) :
    List String → List Record → List Record
  | _, [] => []
  | buffer, row :: rest =>
    fillBuffer env cfg fieldsMap buffer row ::
      writtenRows env cfg fieldsMap (fillBuffer env cfg fieldsMap buffer row) rest

/-! # Properties -/

/-! ## Field validation -/

theorem mem_positions {w : Nat} {p : Int} : p ∈ positions w ↔ 1 ≤ p ∧ p ≤ (w : Int) := by
  unfold positions
  simp only [List.mem_map, List.mem_range]
  constructor
  · rintro ⟨f, hf, rfl⟩
    omega
  · rintro ⟨h1, h2⟩
    exact ⟨(p - 1).toNat, by omega, by omega⟩

theorem positions_pairwise (w : Nat) : (positions w).Pairwise (· < ·) := by
  unfold positions
  rw [List.pairwise_map]
  exact (List.pairwise_lt_range w).imp (by intro a b h; omega)

theorem selectFields_eq_filter (negativeFields : Bool) (fieldsMap : List Int) (fs : List Nat) :
    selectFields negativeFields fieldsMap fs =
      (fs.map fun (f : Nat) => (f : Int) + 1).filter fun p =>
        if negativeFields then !fieldsMap.contains p else fieldsMap.contains p := by
  induction fs with
  | nil => rfl
  | cons f fs ih =>
    cases negativeFields <;> by_cases h : fieldsMap.contains ((f : Int) + 1) = true <;>
      simp_all [selectFields]

theorem find_out_of_range_none (fieldsMap : List Int) (w : Nat)
    (h : ∀ s ∈ fieldsMap, s ≤ (w : Int)) :
    fieldsMap.find? (fun field => decide (field > (w : Int))) = none := by
  rw [List.find?_eq_none]
  intro s hs
  have := h s hs
  simp
  omega

theorem wrap64_of_range (x : Int) (h1 : -(2 : Int) ^ 63 ≤ x) (h2 : x < (2 : Int) ^ 63) :
    wrap64 x = x := by
  unfold wrap64
  rw [Int.emod_eq_of_lt (by omega) (by omega)]
  omega

theorem normalizeFields_negated (S : List Int) (w : Int) (hw : w < (2 : Int) ^ 63)
    (hS : ∀ s ∈ S, 1 ≤ s ∧ s ≤ w) :
    normalizeFields true (S.map fun s => -s) = S := by
  unfold normalizeFields
  rw [List.map_map]
  conv_rhs => rw [← List.map_id S]
  apply List.map_congr_left
  intro s hs
  obtain ⟨h1, h2⟩ := hS s hs
  simp only [Function.comp, if_true, id]
  rw [wrap64_of_range _ (by omega) (by omega)]
  omega

/-- C1. Negated selection yields the ascending complement: for a row of any width `W`
and any set `S` of excluded positions, all in `1..W` and not covering `1..W`, field
validation with `negativeFields = true` succeeds with exactly the positions of `1..W`
outside `S`, in strictly ascending order; `S = {2,4}`, `W = 5` gives `[1,3,5]`.  The
same list is what `round` computes from the negative indices `-s`, `s` in `S`, that
`parseFields` hands over (`W` being the length of a Go slice, below `2^63`). -/
theorem validateFields_negated_complement (file : String) (record : Record) (S : List Int)
    (hS : ∀ s ∈ S, 1 ≤ s ∧ s ≤ (record.length : Int))
    (hne : ∃ p : Int, (1 ≤ p ∧ p ≤ (record.length : Int)) ∧ p ∉ S) :
    validateFields file true S record
        = .ok ((positions record.length).filter fun p => decide (p ∉ S))
      ∧ ((positions record.length).filter fun p => decide (p ∉ S)).Pairwise (· < ·)
      ∧ (∀ p : Int, p ∈ (positions record.length).filter (fun p => decide (p ∉ S))
            ↔ (1 ≤ p ∧ p ≤ (record.length : Int)) ∧ p ∉ S)
      ∧ validateFields file true [2, 4] ["a", "b", "c", "d", "e"] = .ok [1, 3, 5]
      ∧ (∀ cfg : RoundConfig, (record.length : Int) < 2 ^ 63 →
          cfg.parsed.fields = S.map (fun s => -s) → cfg.parsed.negativeFields = true →
          roundCheckPhase cfg (roundInit cfg) record =
            .ok { roundInit cfg with
                  fields := (positions record.length).filter fun p => decide (p ∉ S)
                  fieldsMap := (positions record.length).filter fun p => decide (p ∉ S)
                  record2 := List.replicate record.length ""
                  checkFields := false }) := by
  have hmem : ∀ p : Int, p ∈ (positions record.length).filter (fun p => decide (p ∉ S))
      ↔ (1 ≤ p ∧ p ≤ (record.length : Int)) ∧ p ∉ S := by
    intro p
    simp [List.mem_filter, mem_positions]
  have hex : validateFields file true [2, 4] ["a", "b", "c", "d", "e"] = .ok [1, 3, 5] := by
    rfl
  have hval : ∀ file : String, validateFields file true S record
      = .ok ((positions record.length).filter fun p => decide (p ∉ S)) := by
    intro file
    unfold validateFields
    rw [find_out_of_range_none S record.length (fun s hs => (hS s hs).2)]
    simp only [selectFields_eq_filter, if_true]
    have hfil : (List.filter (fun p => !S.contains p)
        (List.map (fun f : Nat => (f : Int) + 1) (List.range record.length)))
        = (positions record.length).filter fun p => decide (p ∉ S) := by
      unfold positions
      apply List.filter_congr
      intro p _
      simp
    rw [hfil]
    obtain ⟨p, hp, hpS⟩ := hne
    have hin := (hmem p).2 ⟨hp, hpS⟩
    have hlen : ((positions record.length).filter fun p => decide (p ∉ S)).length ≠ 0 := by
      intro h0
      rw [List.length_eq_zero] at h0
      rw [h0] at hin
      exact absurd hin (List.not_mem_nil _)
    simp only [hlen, if_false]
  refine ⟨hval file, (positions_pairwise _).filter _, hmem, hex, ?_⟩
  intro cfg hW hfields hneg
  have hnorm := normalizeFields_negated S record.length hW hS
  have hmap : (roundInit cfg).fieldsMap = S := by
    unfold roundInit
    simp only [hfields, hneg, hnorm]
    split
    · rfl
    · rename_i hlen
      have : S = [] := by
        cases S with
        | nil => rfl
        | cons a t => simp at hlen
      simp [this]
  unfold roundCheckPhase
  have hck : (roundInit cfg).checkFields = true := rfl
  simp only [hck, if_true, hmap, hneg, hval cfg.file]

theorem validateFields_negated_complement_witness :
    validateFields "a.csv" true [2] ["x", "y", "z"] = .ok [1, 3] :=
  (validateFields_negated_complement "a.csv" ["x", "y", "z"] [2]
    (by decide) ⟨1, by decide⟩).1

/-! ## Header parsing -/

theorem buildColnames2fileds_apply (record : List String) (i : Nat)
    (m : String → Option (List Int)) (col : String) :
    buildColnames2fileds record i m col =
      if occurrences col record i = [] then m col
      else some ((m col).getD [] ++ occurrences col record i) := by
  induction record generalizing i m with
  | nil => simp [buildColnames2fileds, occurrences]
  | cons c rest ih =>
    unfold buildColnames2fileds
    by_cases hc : c = col
    · subst hc
      cases hm : m c <;> simp [ih, mapSet, occurrences]
    · have hc2 : ¬ col = c := fun h => hc h.symm
      cases hm : m c <;> simp [ih, mapSet, occurrences, hc, hc2]

theorem mem_occurrences {col : String} {record : List String} {i : Nat} {p : Int} :
    p ∈ occurrences col record i ↔
      ∃ j : Nat, record[j]? = some col ∧ p = (i : Int) + j + 1 := by
  induction record generalizing i with
  | nil => simp [occurrences]
  | cons c rest ih =>
    unfold occurrences
    constructor
    · intro h
      by_cases hc : c = col
      · rw [if_pos hc] at h
        rcases List.mem_cons.1 h with h | h
        · exact ⟨0, by simp [hc], by simp [h]⟩
        · obtain ⟨j, hj, hp⟩ := ih.1 h
          exact ⟨j + 1, by simpa using hj, by push_cast at hp ⊢; omega⟩
      · rw [if_neg hc] at h
        obtain ⟨j, hj, hp⟩ := ih.1 h
        exact ⟨j + 1, by simpa using hj, by push_cast at hp ⊢; omega⟩
    · rintro ⟨j, hj, hp⟩
      cases j with
      | zero =>
        simp at hj
        rw [if_pos hj]
        simp [hp]
      | succ j =>
        have : p ∈ occurrences col rest (i + 1) :=
          ih.2 ⟨j, by simpa using hj, by push_cast at hp ⊢; omega⟩
        split
        · exact List.mem_cons_of_mem _ this
        · exact this

theorem occurrences_eq_nil {col : String} {record : List String} {i : Nat} :
    occurrences col record i = [] ↔ col ∉ record := by
  induction record generalizing i with
  | nil => simp [occurrences]
  | cons c rest ih =>
    unfold occurrences
    by_cases hc : c = col
    · simp [hc]
    · have hc2 : ¬ col = c := fun h => hc h.symm
      simp [hc, hc2, ih]

/-- The map `colnames2fileds` built from a header row. -/
theorem colnames2fileds_isNone (record : List String) (col : String) :
    (buildColnames2fileds record 0 (fun _ => none) col).isNone = true ↔ col ∉ record := by
  rw [buildColnames2fileds_apply]
  by_cases h : occurrences col record 0 = []
  · simp [h, occurrences_eq_nil.1 h]
  · have hin : col ∈ record := by
      by_contra hh
      exact h (occurrences_eq_nil.2 hh)
    simp [h, hin]

theorem colnames2fileds_getD (record : List String) (col : String) :
    (buildColnames2fileds record 0 (fun _ => none) col).getD [] = occurrences col record 0 := by
  rw [buildColnames2fileds_apply]
  by_cases h : occurrences col record 0 = [] <;> simp [h]

theorem mem_fieldsOfNames (env : Env) (fuzzyFields : Bool) (keys : List String)
    (record : List String) (rest : List String) (p : Int) :
    p ∈ fieldsOfNames env fuzzyFields keys (buildColnames2fileds record 0 (fun _ => none)) rest
      ↔ ∃ col ∈ rest, colMatches env fuzzyFields keys col = true ∧
          p ∈ occurrences col record 0 := by
  induction rest with
  | nil => simp [fieldsOfNames]
  | cons c rest ih =>
    unfold fieldsOfNames
    by_cases hc : colMatches env fuzzyFields keys c = true
    · rw [if_pos hc, List.mem_append, ih, colnames2fileds_getD]
      constructor
      · rintro (h | ⟨col, hcol, hm, hp⟩)
        · exact ⟨c, List.mem_cons_self _ _, hc, h⟩
        · exact ⟨col, List.mem_cons_of_mem _ hcol, hm, hp⟩
      · rintro ⟨col, hcol, hm, hp⟩
        rcases List.mem_cons.1 hcol with h | h
        · subst h; exact Or.inl hp
        · exact Or.inr ⟨col, h, hm, hp⟩
    · rw [if_neg hc, ih]
      constructor
      · rintro ⟨col, hcol, hm, hp⟩
        exact ⟨col, List.mem_cons_of_mem _ hcol, hm, hp⟩
      · rintro ⟨col, hcol, hm, hp⟩
        rcases List.mem_cons.1 hcol with h | h
        · subst h; exact absurd hm hc
        · exact ⟨col, h, hm, hp⟩

theorem mem_positionsWhere {pred : String → Bool} {record : Record} {p : Int} :
    p ∈ positionsWhere pred record ↔
      ∃ j : Nat, ∃ col, record[j]? = some col ∧ pred col = true ∧ p = (j : Int) + 1 := by
  unfold positionsWhere
  rw [List.mem_filter, mem_positions]
  constructor
  · rintro ⟨⟨h1, h2⟩, h3⟩
    cases hr : record[(p - 1).toNat]? with
    | none =>
      rw [hr] at h3
      exact absurd h3 (by simp)
    | some col =>
      rw [hr] at h3
      exact ⟨(p - 1).toNat, col, hr, h3, by omega⟩
  · rintro ⟨j, col, hj, hp, rfl⟩
    have hlt : j < record.length := by
      by_contra hge
      rw [List.getElem?_eq_none (by omega)] at hj
      exact absurd hj (by simp)
    refine ⟨⟨by omega, by omega⟩, ?_⟩
    have : ((j : Int) + 1 - 1).toNat = j := by omega
    simp [this, hj, hp]

/-- The fields collected from the names of a header row are the positions of the
matching columns (possibly repeated and out of order when names repeat). -/
theorem mem_fieldsOfNames_header (env : Env) (fuzzyFields : Bool) (keys : List String)
    (record : Record) (p : Int) :
    p ∈ fieldsOfNames env fuzzyFields keys (buildColnames2fileds record 0 (fun _ => none)) record
      ↔ p ∈ positionsWhere (colMatches env fuzzyFields keys) record := by
  rw [mem_fieldsOfNames, mem_positionsWhere]
  constructor
  · rintro ⟨col, _, hm, hp⟩
    obtain ⟨j, hj, hp⟩ := mem_occurrences.1 hp
    exact ⟨j, col, hj, hm, by simpa using hp⟩
  · rintro ⟨j, col, hj, hm, hp⟩
    exact ⟨col, List.getElem?_mem hj, hm, mem_occurrences.2 ⟨j, hj, by simpa using hp⟩⟩

/-! ## round: resolution of names -/

theorem resolveColnames_fuzzy (dupCheck : Bool) (file : String)
    (c2f : String → Option (List Int)) (colnames keys : List String) :
    resolveColnames dupCheck true false file c2f colnames keys = .ok (keys ++ colnames) := by
  induction colnames generalizing keys with
  | nil => simp [resolveColnames]
  | cons c rest ih => simp [resolveColnames, ih]

theorem resolveColnames_present (file : String) (c2f : String → Option (List Int))
    (colnames keys : List String) (h : ∀ c ∈ colnames, (c2f c).isNone = false) :
    resolveColnames false false false file c2f colnames keys = .ok (keys ++ colnames) := by
  induction colnames generalizing keys with
  | nil => simp [resolveColnames]
  | cons c rest ih =>
    have hc := h c (List.mem_cons_self _ _)
    have hrest := ih (keys ++ [c]) (fun x hx => h x (List.mem_cons_of_mem _ hx))
    simp [resolveColnames, hc, hrest]

theorem validateFields_positive (file : String) (fieldsMap : List Int) (record : Record)
    (h : ∀ s ∈ fieldsMap, s ≤ (record.length : Int)) :
    validateFields file false fieldsMap record =
      if ((positions record.length).filter fun p => fieldsMap.contains p) = [] then
        .error (.fatal ("no fields matched in file: " ++ file))
      else .ok ((positions record.length).filter fun p => fieldsMap.contains p) := by
  unfold validateFields
  rw [find_out_of_range_none fieldsMap record.length h]
  simp only [selectFields_eq_filter, List.length_eq_zero]
  rfl

/-- The first record of a `round` run whose fields are given by name (`names`, not
negated, accepted by the existence check): the run stops with `no fields matched` when
no column matches, and otherwise selects the ascending positions of the matching
columns, allocates the output buffer and writes the header row as it is. -/
theorem roundStep_names (env : Env) (cfg : RoundConfig) (names : List String) (header : Record)
    (hp : cfg.parsed = ⟨[], names, false, true⟩)
    (hres : resolveColnames false cfg.fuzzyFields false cfg.file
      (buildColnames2fileds header 0 (fun _ => none)) names [] = .ok names) :
    roundStep env cfg (roundInit cfg) header =
      if positionsWhere (colMatches env cfg.fuzzyFields names) header = [] then
        .error (.fatal ("no fields matched in file: " ++ cfg.file))
      else
        .ok { parseHeaderRow := false
              parseHeaderRow2 := false
              checkFields := false
              fields := positionsWhere (colMatches env cfg.fuzzyFields names) header
              fieldsMap := positionsWhere (colMatches env cfg.fuzzyFields names) header
              record2 := List.replicate header.length ""
              written := [header] } := by
  have hfil : ((positions header.length).filter fun p =>
        (fieldsOfNames env cfg.fuzzyFields names
          (buildColnames2fileds header 0 (fun _ => none)) header).contains p)
      = positionsWhere (colMatches env cfg.fuzzyFields names) header := by
    unfold positionsWhere
    apply List.filter_congr
    intro p hp
    rw [Bool.eq_iff_iff]
    have hc : ∀ l : List Int, l.contains p = true ↔ p ∈ l := fun l => by simp
    rw [hc, mem_fieldsOfNames_header]
    unfold positionsWhere
    rw [List.mem_filter]
    exact ⟨fun h => h.2, fun h => ⟨hp, h⟩⟩
  have hle : ∀ s ∈ fieldsOfNames env cfg.fuzzyFields names
      (buildColnames2fileds header 0 (fun _ => none)) header, s ≤ (header.length : Int) := by
    intro s hs
    rw [mem_fieldsOfNames_header] at hs
    exact (mem_positions.1 (List.mem_filter.1 hs).1).2
  unfold roundStep roundHeaderPhase roundInit
  simp only [hp, List.length_nil, gt_iff_lt, lt_self_iff_false, if_false, if_true]
  unfold parseHeader
  simp only [hres, List.length_nil, if_true]
  unfold roundCheckPhase
  simp only [hp, if_true, validateFields_positive _ _ _ hle, hfil]
  by_cases hnil : positionsWhere (colMatches env cfg.fuzzyFields names) header = []
  · simp [hnil]
  · simp [hnil, roundWritePhase]

theorem positionsWhere_pairwise (pred : String → Bool) (record : Record) :
    (positionsWhere pred record).Pairwise (· < ·) :=
  (positions_pairwise _).filter _

theorem positionsWhere_congr {pred1 pred2 : String → Bool} (record : Record)
    (h : ∀ col ∈ record, pred1 col = pred2 col) :
    positionsWhere pred1 record = positionsWhere pred2 record := by
  unfold positionsWhere
  apply List.filter_congr
  intro p _
  cases hr : record[(p - 1).toNat]? with
  | none => rfl
  | some col => exact h col (List.getElem?_mem hr)

theorem positionsWhere_ne_nil {pred : String → Bool} {record : Record} {col : String}
    (hin : col ∈ record) (hp : pred col = true) : positionsWhere pred record ≠ [] := by
  obtain ⟨j, hj⟩ := List.mem_iff_getElem?.1 hin
  have : ((j : Int) + 1) ∈ positionsWhere pred record :=
    mem_positionsWhere.2 ⟨j, col, hj, hp, rfl⟩
  intro h0
  rw [h0] at this
  exact absurd this (List.not_mem_nil _)

/-- C2. Name resolution follows header order: for every header row `header` (its names
distinct or not) and every non-fuzzy, non-negated, non-empty list `names` of names that
all occur in the header, the first record of the `round` run succeeds and the resolved
field list is the list of 1-based positions `i + 1` with `header[i]` in `names`, strictly
ascending; a list `names2` with the same members in another order resolves to the very
same state. -/
theorem round_names_follow_header_order (env : Env) (cfg : RoundConfig)
    (names : List String) (header : Record)
    (hp : cfg.parsed = ⟨[], names, false, true⟩) (hf : cfg.fuzzyFields = false)
    (hne : names ≠ []) (hsub : ∀ n ∈ names, n ∈ header) :
    roundStep env cfg (roundInit cfg) header =
        .ok { parseHeaderRow := false
              parseHeaderRow2 := false
              checkFields := false
              fields := positionsWhere (fun col => decide (col ∈ names)) header
              fieldsMap := positionsWhere (fun col => decide (col ∈ names)) header
              record2 := List.replicate header.length ""
              written := [header] }
      ∧ (positionsWhere (fun col => decide (col ∈ names)) header).Pairwise (· < ·)
      ∧ (∀ p : Int, p ∈ positionsWhere (fun col => decide (col ∈ names)) header ↔
          ∃ i : Nat, ∃ col, header[i]? = some col ∧ col ∈ names ∧ p = (i : Int) + 1)
      ∧ (∀ (cfg2 : RoundConfig) (names2 : List String),
          cfg2.parsed = ⟨[], names2, false, true⟩ → cfg2.fuzzyFields = false →
          (∀ n, n ∈ names2 ↔ n ∈ names) →
          roundStep env cfg2 (roundInit cfg2) header =
            roundStep env cfg (roundInit cfg) header) := by
  have key : ∀ (cfg1 : RoundConfig) (names1 : List String),
      cfg1.parsed = ⟨[], names1, false, true⟩ → cfg1.fuzzyFields = false →
      (∀ n, n ∈ names1 ↔ n ∈ names) →
      roundStep env cfg1 (roundInit cfg1) header =
        .ok { parseHeaderRow := false
              parseHeaderRow2 := false
              checkFields := false
              fields := positionsWhere (fun col => decide (col ∈ names)) header
              fieldsMap := positionsWhere (fun col => decide (col ∈ names)) header
              record2 := List.replicate header.length ""
              written := [header] } := by
    intro cfg1 names1 hp1 hf1 hmem
    have hres : resolveColnames false cfg1.fuzzyFields false cfg1.file
        (buildColnames2fileds header 0 (fun _ => none)) names1 [] = .ok names1 := by
      rw [hf1, resolveColnames_present]
      · simp
      · intro c hc
        have hin : c ∈ header := hsub c ((hmem c).1 hc)
        cases hn : (buildColnames2fileds header 0 (fun _ => none) c).isNone with
        | false => rfl
        | true => exact absurd hin ((colnames2fileds_isNone header c).1 hn)
    have hpred : positionsWhere (colMatches env cfg1.fuzzyFields names1) header
        = positionsWhere (fun col => decide (col ∈ names)) header := by
      apply positionsWhere_congr
      intro col _
      rw [Bool.eq_iff_iff]
      simp [colMatches, hf1, hmem]
    rw [roundStep_names env cfg1 names1 header hp1 hres, hpred]
    obtain ⟨n, hn⟩ := List.exists_mem_of_ne_nil names hne
    have hnn : positionsWhere (fun col => decide (col ∈ names)) header ≠ [] :=
      positionsWhere_ne_nil (hsub n hn) (by simpa using hn)
    simp [hnn]
  refine ⟨key cfg names hp hf (fun _ => Iff.rfl), positionsWhere_pairwise _ _, ?_, ?_⟩
  · intro p
    rw [mem_positionsWhere]
    simp
  · intro cfg2 names2 hp2 hf2 hmem
    rw [key cfg2 names2 hp2 hf2 hmem, key cfg names hp hf (fun _ => Iff.rfl)]

theorem round_names_follow_header_order_witness :
    roundStep refEnv ⟨"data.csv", 2, false, false, ⟨[], ["c", "a"], false, true⟩⟩
        (roundInit ⟨"data.csv", 2, false, false, ⟨[], ["c", "a"], false, true⟩⟩)
        ["a", "b", "c"] =
      .ok { parseHeaderRow := false
            parseHeaderRow2 := false
            checkFields := false
            fields := [1, 3]
            fieldsMap := [1, 3]
            record2 := ["", "", ""]
            written := [["a", "b", "c"]] } :=
  (round_names_follow_header_order refEnv
    ⟨"data.csv", 2, false, false, ⟨[], ["c", "a"], false, true⟩⟩ ["c", "a"] ["a", "b", "c"]
    rfl rfl (by decide) (by decide)).1

/-- C3. Fuzzy resolution selects, in header order, every column matched by any pattern:
for every header row and every list of fuzzy patterns, the list that the validation loop
of `round` computes from the fields collected on the header row is the strictly ascending
list of the positions whose column name matches at least one pattern; `round` goes on
with that list as its resolved fields, unless the list is empty, in which case the run
stops with `no fields matched`.  The outcome does not depend on the order of the
patterns, and the pattern `*_id` against `[user_id, name, order_id]` resolves to
`[1, 3]`. -/
theorem round_fuzzy_resolution (env : Env) (cfg : RoundConfig) (patterns : List String)
    (header : Record)
    (hp : cfg.parsed = ⟨[], patterns, false, true⟩) (hf : cfg.fuzzyFields = true) :
    selectFields false
          (fieldsOfNames env true patterns (buildColnames2fileds header 0 (fun _ => none))
            header)
          (List.range header.length) =
        positionsWhere (fun col => patterns.any fun p => env.fuzzyMatch p col) header
      ∧ roundStep env cfg (roundInit cfg) header =
        (if positionsWhere (fun col => patterns.any fun p => env.fuzzyMatch p col) header = []
          then .error (.fatal ("no fields matched in file: " ++ cfg.file))
          else
            .ok { parseHeaderRow := false
                  parseHeaderRow2 := false
                  checkFields := false
                  fields :=
                    positionsWhere (fun col => patterns.any fun p => env.fuzzyMatch p col) header
                  fieldsMap :=
                    positionsWhere (fun col => patterns.any fun p => env.fuzzyMatch p col) header
                  record2 := List.replicate header.length ""
                  written := [header] })
      ∧ (positionsWhere (fun col => patterns.any fun p => env.fuzzyMatch p col) header).Pairwise
          (· < ·)
      ∧ (∀ q : Int,
          q ∈ positionsWhere (fun col => patterns.any fun p => env.fuzzyMatch p col) header ↔
          ∃ i : Nat, ∃ col, header[i]? = some col ∧
            (∃ p ∈ patterns, env.fuzzyMatch p col = true) ∧ q = (i : Int) + 1)
      ∧ (∀ (cfg2 : RoundConfig) (patterns2 : List String),
          cfg2.parsed = ⟨[], patterns2, false, true⟩ → cfg2.fuzzyFields = true →
          cfg2.file = cfg.file → (∀ p, p ∈ patterns2 ↔ p ∈ patterns) →
          roundStep env cfg2 (roundInit cfg2) header =
            roundStep env cfg (roundInit cfg) header)
      ∧ roundStep refEnv ⟨"data.csv", 2, false, true, ⟨[], ["*_id"], false, true⟩⟩
          (roundInit ⟨"data.csv", 2, false, true, ⟨[], ["*_id"], false, true⟩⟩)
          ["user_id", "name", "order_id"] =
        .ok { parseHeaderRow := false
              parseHeaderRow2 := false
              checkFields := false
              fields := [1, 3]
              fieldsMap := [1, 3]
              record2 := ["", "", ""]
              written := [["user_id", "name", "order_id"]] } := by
  have key : ∀ (cfg1 : RoundConfig) (patterns1 : List String),
      cfg1.parsed = ⟨[], patterns1, false, true⟩ → cfg1.fuzzyFields = true →
      cfg1.file = cfg.file → (∀ p, p ∈ patterns1 ↔ p ∈ patterns) →
      roundStep env cfg1 (roundInit cfg1) header =
        (if positionsWhere (fun col => patterns.any fun p => env.fuzzyMatch p col) header = []
          then .error (.fatal ("no fields matched in file: " ++ cfg.file))
          else
            .ok { parseHeaderRow := false
                  parseHeaderRow2 := false
                  checkFields := false
                  fields :=
                    positionsWhere (fun col => patterns.any fun p => env.fuzzyMatch p col) header
                  fieldsMap :=
                    positionsWhere (fun col => patterns.any fun p => env.fuzzyMatch p col) header
                  record2 := List.replicate header.length ""
                  written := [header] }) := by
    intro cfg1 patterns1 hp1 hf1 hfile hmem
    have hres : resolveColnames false cfg1.fuzzyFields false cfg1.file
        (buildColnames2fileds header 0 (fun _ => none)) patterns1 [] = .ok patterns1 := by
      rw [hf1, resolveColnames_fuzzy]
      simp
    have hpred : positionsWhere (colMatches env cfg1.fuzzyFields patterns1) header
        = positionsWhere (fun col => patterns.any fun p => env.fuzzyMatch p col) header := by
      apply positionsWhere_congr
      intro col _
      rw [Bool.eq_iff_iff]
      simp [colMatches, hf1, hmem]
    rw [roundStep_names env cfg1 patterns1 header hp1 hres, hpred, hfile]
  refine ⟨?_, key cfg patterns hp hf rfl (fun _ => Iff.rfl), positionsWhere_pairwise _ _, ?_,
    ?_, by decide⟩
  · rw [selectFields_eq_filter]
    unfold positionsWhere positions
    apply List.filter_congr
    intro q hq
    simp only [Bool.false_eq_true, if_false]
    rw [Bool.eq_iff_iff]
    have hc : ∀ l : List Int, l.contains q = true ↔ q ∈ l := fun l => by simp
    rw [hc, mem_fieldsOfNames_header]
    unfold positionsWhere
    rw [List.mem_filter]
    simp only [colMatches, if_true]
    exact ⟨fun h => h.2, fun h => ⟨hq, h⟩⟩
  · intro q
    rw [mem_positionsWhere]
    simp
  · intro cfg2 patterns2 hp2 hf2 hfile hmem
    rw [key cfg2 patterns2 hp2 hf2 hfile hmem, key cfg patterns hp hf rfl (fun _ => Iff.rfl)]

theorem round_fuzzy_resolution_witness :
    roundStep refEnv ⟨"data.csv", 2, false, true, ⟨[], ["id*", "*me"], false, true⟩⟩
        (roundInit ⟨"data.csv", 2, false, true, ⟨[], ["id*", "*me"], false, true⟩⟩)
        ["id1", "x", "name", "id2"] =
      .ok { parseHeaderRow := false
            parseHeaderRow2 := false
            checkFields := false
            fields := [1, 3, 4]
            fieldsMap := [1, 3, 4]
            record2 := ["", "", "", ""]
            written := [["id1", "x", "name", "id2"]] } :=
  (round_fuzzy_resolution refEnv
    ⟨"data.csv", 2, false, true, ⟨[], ["id*", "*me"], false, true⟩⟩ ["id*", "*me"]
    ["id1", "x", "name", "id2"] rfl rfl).2.1

/-! ## Missing columns -/

theorem sliceFrom1_requestedAs (name : String) :
    sliceFrom1 (requestedAs true name) = .ok name := by
  simp [requestedAs, sliceFrom1, String.data_append]

/-- The existence check stops at the first requested name that the header lacks. -/
theorem resolveColnames_missing (dupCheck negativeFields : Bool) (file : String)
    (c2f : String → Option (List Int)) (before : List String) (c : String)
    (after keys : List String)
    (hdup : dupCheck = true → before = [])
    (hbefore : ∀ n ∈ before, (c2f n).isNone = false) (hc : (c2f c).isNone = true) :
    resolveColnames dupCheck false negativeFields file c2f
        ((before ++ c :: after).map (requestedAs negativeFields)) keys =
      .error (.fatal ("column \"" ++ c ++ "\" not existed in file: " ++ file)) := by
  induction before generalizing keys with
  | nil =>
    cases negativeFields
    · simp [resolveColnames, requestedAs, hc]
    · simp only [List.nil_append, List.map_cons, resolveColnames, sliceFrom1_requestedAs]
      simp [hc]
  | cons n rest ih =>
    have hd : dupCheck = false := by
      cases dupCheck
      · rfl
      · exact absurd (hdup rfl) (by simp)
    subst hd
    have hn := hbefore n (List.mem_cons_self _ _)
    have hrest := fun keys => ih keys (by intro h; exact absurd h (by simp))
      (fun x hx => hbefore x (List.mem_cons_of_mem _ hx))
    cases negativeFields
    · simp only [List.cons_append, List.map_cons, resolveColnames, requestedAs]
      simp [hn]
      simpa [requestedAs] using hrest (keys ++ [n])
    · simp only [List.cons_append, List.map_cons, resolveColnames, sliceFrom1_requestedAs]
      simp [hn]
      simpa using hrest (keys ++ [n])

/-- C4 (as amended). A missing column is fatal: for every header row and every non-fuzzy
list of requested names, the first of which to be absent from the header being `c`,
header resolution fails with `column "c" not existed in file: <file>`.  In `round` the
run stops there with nothing written; in `csv2json` (whose key is a single name) the
opening bracket and the line feed that follows it have been written before the header is
read, and nothing else. -/
theorem missing_column_is_fatal (env : Env) (c : String) (header : Record)
    (rest : List Record) (hc : c ∉ header) :
    (∀ (cfg : RoundConfig) (before after : List String),
        cfg.fuzzyFields = false → cfg.parsed.needParseHeaderRow = true →
        cfg.parsed.colnames =
          (before ++ c :: after).map (requestedAs cfg.parsed.negativeFields) →
        (∀ n ∈ before, n ∈ header) →
        roundRun env cfg (header :: rest) =
            (roundInit cfg,
              some (.fatal ("column \"" ++ c ++ "\" not existed in file: " ++ cfg.file)))
          ∧ (roundInit cfg).written = [])
      ∧ (∀ (cfg : Csv2jsonConfig) (pn : Bool × List Int),
        cfg.fieldStr ≠ "" → cfg.parsed = ⟨[], [c], false, true⟩ →
        parseNumLoop env cfg.parseNumFlags [] = .ok pn →
        csv2jsonRun env cfg (some (header :: rest)) =
          ⟨["\x7b", cfg.LF], [],
            some (.fatal ("column \"" ++ c ++ "\" not existed in file: " ++ cfg.file))⟩) := by
  have hnone : (buildColnames2fileds header 0 (fun _ => none) c).isNone = true :=
    (colnames2fileds_isNone header c).2 hc
  constructor
  · intro cfg before after hf hn hcol hbefore
    refine ⟨?_, rfl⟩
    have hres := resolveColnames_missing false cfg.parsed.negativeFields cfg.file
      (buildColnames2fileds header 0 (fun _ => none)) before c after []
      (by intro h; exact absurd h (by simp))
      (fun n hn => by
        cases hx : (buildColnames2fileds header 0 (fun _ => none) n).isNone with
        | false => rfl
        | true => exact absurd (hbefore n hn) ((colnames2fileds_isNone header n).1 hx))
      hnone
    simp only [roundRun, roundLoop, roundStep, roundHeaderPhase, roundInit, hn, if_true,
      parseHeader, hf, hcol, hres]
  · intro cfg pn hk hp hpn
    have hres := resolveColnames_missing true false cfg.file
      (buildColnames2fileds header 0 (fun _ => none)) [] c [] [] (fun _ => rfl)
      (by simp) hnone
    have hkeyed : cfg.keyed = true := by simp [Csv2jsonConfig.keyed, hk]
    simp only [List.nil_append, List.map_cons, List.map_nil, requestedAs, Bool.false_eq_true,
      if_false] at hres
    obtain ⟨pnAll, pnCols⟩ := pn
    simp [csv2jsonRun, hpn, csv2jsonKey, hkeyed, hp, csv2jsonLoop, csv2jsonStep,
      csv2jsonHeaderPhase, csv2jsonCheckPhase, csv2jsonEmitPhase, csv2jsonInit,
      parseHeader, Csv2jsonConfig.negativeFields, Csv2jsonConfig.colnames, hres]

theorem missing_column_is_fatal_witness :
    roundRun refEnv ⟨"data.csv", 2, false, false, ⟨[], ["a", "zip"], false, true⟩⟩
        [["a", "b"], ["1", "2"]] =
      (roundInit ⟨"data.csv", 2, false, false, ⟨[], ["a", "zip"], false, true⟩⟩,
        some (.fatal "column \"zip\" not existed in file: data.csv")) :=
  ((missing_column_is_fatal refEnv "zip" ["a", "b"] [["1", "2"]] (by decide)).1
    ⟨"data.csv", 2, false, false, ⟨[], ["a", "zip"], false, true⟩⟩ ["a"] [] rfl rfl rfl
    (by decide)).1

/-- C4, counterexample to the claim as stated: a keyed `csv2json` run whose key names a
column that the header lacks fails with the `not existed` error after the opening
bracket and the line feed have been written to the output. -/
theorem csv2json_missing_column_output_not_empty :
    csv2jsonRun refEnv
        ⟨"data.csv", false, false, [], "  ", "zip", ⟨[], ["zip"], false, true⟩⟩
        (some [["a", "b"], ["1", "2"]]) =
      ⟨["\x7b", "\n"], [], some (.fatal "column \"zip\" not existed in file: data.csv")⟩ := by
  decide

/-! ## Short rows -/

theorem validateFields_out_of_range (file : String) (negativeFields : Bool)
    (fieldsMap : List Int) (record : Record)
    (h : ∃ f ∈ fieldsMap, f > (record.length : Int)) :
    ∃ f ∈ fieldsMap, f > (record.length : Int) ∧
      validateFields file negativeFields fieldsMap record =
        .error (.fatal (outOfRangeMessage f record.length file)) := by
  cases hfind : fieldsMap.find? (fun field => decide (field > (record.length : Int))) with
  | none =>
    obtain ⟨f, hf, hgt⟩ := h
    have := List.find?_eq_none.1 hfind f hf
    simp at this
    omega
  | some f =>
    refine ⟨f, List.mem_of_find?_eq_some hfind, ?_, ?_⟩
    · simpa using List.find?_some hfind
    · simp [validateFields, hfind]

theorem resolveColnames_nil (dupCheck fuzzyFields negativeFields : Bool) (file : String)
    (c2f : String → Option (List Int)) (keys : List String) :
    resolveColnames dupCheck fuzzyFields negativeFields file c2f [] keys = .ok keys := by
  simp [resolveColnames]

/-- C5 (as amended). A short row is a fatal error on the row where the fields are
validated, the first record `round` reads for a file and the first data row of a keyed
`csv2json` run.  However the fields were given, by index or by name (the positions then
being those the header block resolved), if that row has fewer cells than the largest
resolved position, the run stops there with the fatal
`field (f) out of range (w) in file: <file>` error, naming the file, a resolved position
`f` that exceeds the width, and the width `w`; `round` has written no row, `csv2json`
only its opening bracket and line feed.  The validation clears `checkFields`, and with
`checkFields` clear a row is not validated. -/
theorem short_validated_row_is_fatal (env : Env) (first : Record) (rest : List Record) :
    (∀ (cfg : RoundConfig) (sth : RoundState),
        roundHeaderPhase env cfg (roundInit cfg) first = .ok sth →
        (∃ f ∈ sth.fieldsMap, f > (first.length : Int)) →
        ∃ f ∈ sth.fieldsMap, f > (first.length : Int) ∧
          roundRun env cfg (first :: rest) =
            (roundInit cfg, some (.fatal (outOfRangeMessage f first.length cfg.file)))
          ∧ (roundInit cfg).written = [])
      ∧ (∀ (cfg : Csv2jsonConfig) (pn : Bool × List Int) (fields : List Int),
        cfg.fieldStr ≠ "" → parseNumLoop env cfg.parseNumFlags [] = .ok pn →
        csv2jsonKey cfg = .ok (fields, false) →
        (∃ f ∈ fields, f > (first.length : Int)) →
        ∃ f ∈ fields, f > (first.length : Int) ∧
          csv2jsonRun env cfg (some (first :: rest)) =
            ⟨["\x7b", cfg.LF], [],
              some (.fatal (outOfRangeMessage f first.length cfg.file))⟩)
      ∧ (∀ (cfg : Csv2jsonConfig) (pn : Bool × List Int) (fields resolved : List Int)
          (header : Record),
        cfg.fieldStr ≠ "" → parseNumLoop env cfg.parseNumFlags [] = .ok pn →
        csv2jsonKey cfg = .ok (fields, true) →
        parseHeader env true false cfg.negativeFields cfg.file cfg.colnames fields header =
          .ok resolved →
        (∃ f ∈ resolved, f > (first.length : Int)) →
        ∃ f ∈ resolved, f > (first.length : Int) ∧
          csv2jsonRun env cfg (some (header :: first :: rest)) =
            ⟨["\x7b", cfg.LF], [],
              some (.fatal (outOfRangeMessage f first.length cfg.file))⟩)
      ∧ (∀ (cfg : RoundConfig), cfg.parsed.colnames = [] →
        (∃ f ∈ (roundInit cfg).fieldsMap, f > (first.length : Int)) →
        ∃ f ∈ (roundInit cfg).fieldsMap, f > (first.length : Int) ∧
          roundRun env cfg (first :: rest) =
            (roundInit cfg, some (.fatal (outOfRangeMessage f first.length cfg.file)))
          ∧ (roundInit cfg).written = [])
      ∧ (∀ (cfg : Csv2jsonConfig) (pn : Bool × List Int) (k : Int) (need : Bool)
          (header : Record),
        cfg.fieldStr ≠ "" → cfg.parsed = ⟨[k], [], false, need⟩ →
        parseNumLoop env cfg.parseNumFlags [] = .ok pn →
        k > (first.length : Int) →
        csv2jsonRun env cfg (some ((if need then [header] else []) ++ first :: rest)) =
          ⟨["\x7b", cfg.LF], [],
            some (.fatal (outOfRangeMessage k first.length cfg.file))⟩)
      ∧ (∀ (cfg : RoundConfig) (st st1 : RoundState) (record : Record),
          (roundCheckPhase cfg st record = .ok st1 → st1.checkFields = false)
          ∧ (st.checkFields = false → roundCheckPhase cfg st record = .ok st))
      ∧ (∀ (cfg : Csv2jsonConfig) (st st1 : Csv2jsonState) (record : Record),
          (csv2jsonCheckPhase cfg st record = .ok st1 → st1.checkFields = false)
          ∧ (st.checkFields = false → csv2jsonCheckPhase cfg st record = .ok st)) := by
  refine ⟨?_, ?_, ?_, ?_, ?_, ?_, ?_⟩
  · intro cfg sth hhead hex
    obtain ⟨f, hf, hgt, hval⟩ :=
      validateFields_out_of_range cfg.file cfg.parsed.negativeFields sth.fieldsMap first hex
    refine ⟨f, hf, hgt, ?_, rfl⟩
    have hck : sth.checkFields = true := by
      unfold roundHeaderPhase at hhead
      split at hhead
      · split at hhead
        · simp at hhead
        · simp only [Except.ok.injEq] at hhead
          subst hhead
          rfl
      · simp only [Except.ok.injEq] at hhead
        subst hhead
        rfl
    simp only [roundRun, roundLoop, roundStep, hhead, roundCheckPhase, hck, if_true, hval]
  · intro cfg pn fields hk hpn hkey hex
    have hkeyed : cfg.keyed = true := by simp [Csv2jsonConfig.keyed, hk]
    obtain ⟨pnAll, pnCols⟩ := pn
    obtain ⟨f, hf, hgt, hval⟩ :=
      validateFields_out_of_range cfg.file cfg.negativeFields fields first hex
    refine ⟨f, hf, hgt, ?_⟩
    simp [csv2jsonRun, hpn, hkey, hkeyed, csv2jsonLoop, csv2jsonStep, csv2jsonCheckPhase,
      csv2jsonInit, hval]
  · intro cfg pn fields resolved header hk hpn hkey hres hex
    have hkeyed : cfg.keyed = true := by simp [Csv2jsonConfig.keyed, hk]
    obtain ⟨pnAll, pnCols⟩ := pn
    obtain ⟨f, hf, hgt, hval⟩ :=
      validateFields_out_of_range cfg.file cfg.negativeFields resolved first hex
    refine ⟨f, hf, hgt, ?_⟩
    simp [csv2jsonRun, hpn, hkey, hkeyed, csv2jsonLoop, csv2jsonStep, csv2jsonHeaderPhase,
      csv2jsonCheckPhase, csv2jsonInit, hres, hval]
  · intro cfg hcol hex
    obtain ⟨f, hf, hgt, hval⟩ :=
      validateFields_out_of_range cfg.file cfg.parsed.negativeFields
        (roundInit cfg).fieldsMap first hex
    refine ⟨f, hf, hgt, ?_, rfl⟩
    have hlen : (roundInit cfg).fields.length ≠ 0 := by
      intro h0
      have hnil : (roundInit cfg).fieldsMap = [] := List.length_eq_zero.1 h0
      rw [hnil] at hf
      exact absurd hf (List.not_mem_nil _)
    have hhead : roundHeaderPhase env cfg (roundInit cfg) first = .ok
        { roundInit cfg with parseHeaderRow := false } := by
      unfold roundHeaderPhase
      cases hph : (roundInit cfg).parseHeaderRow with
      | false =>
        have : roundInit cfg = { roundInit cfg with parseHeaderRow := false } := by
          conv => lhs; rw [show roundInit cfg = { roundInit cfg with
            parseHeaderRow := (roundInit cfg).parseHeaderRow } from rfl, hph]
        simpa using this
      | true =>
        simp only [if_true, parseHeader, hcol, resolveColnames_nil, hlen, if_false]
        rfl
    simp only [roundRun, roundLoop, roundStep, hhead, roundCheckPhase]
    have hck : (roundInit cfg).checkFields = true := rfl
    simp only [hck, if_true, hval]
  · intro cfg pn k need header hk hp hpn hgt
    have hkeyed : cfg.keyed = true := by simp [Csv2jsonConfig.keyed, hk]
    obtain ⟨pnAll, pnCols⟩ := pn
    have hfind : List.find? (fun field => decide (field > (first.length : Int))) [k] = some k := by
      simp [List.find?, hgt]
    cases need
    · simp [csv2jsonRun, hpn, csv2jsonKey, hkeyed, hp, csv2jsonLoop, csv2jsonStep,
        csv2jsonHeaderPhase, csv2jsonCheckPhase, csv2jsonEmitPhase, csv2jsonInit,
        Csv2jsonConfig.negativeFields, normalizeFields, validateFields, hfind]
    · simp [csv2jsonRun, hpn, csv2jsonKey, hkeyed, hp, csv2jsonLoop, csv2jsonStep,
        csv2jsonHeaderPhase, csv2jsonCheckPhase, csv2jsonEmitPhase, csv2jsonInit,
        Csv2jsonConfig.negativeFields, Csv2jsonConfig.colnames, normalizeFields,
        validateFields, hfind, parseHeader, resolveColnames]
  · intro cfg st st1 record
    constructor
    · intro h
      unfold roundCheckPhase at h
      cases hc : st.checkFields with
      | false =>
        rw [hc] at h
        simp only [Bool.false_eq_true, if_false, Except.ok.injEq] at h
        rw [← h, hc]
      | true =>
        rw [hc] at h
        simp only [if_true] at h
        split at h
        · simp at h
        · simp only [Except.ok.injEq] at h
          rw [← h]
    · intro hc
      simp [roundCheckPhase, hc]
  · intro cfg st st1 record
    constructor
    · intro h
      unfold csv2jsonCheckPhase at h
      cases hc : st.checkFields with
      | false =>
        rw [hc] at h
        simp only [Bool.false_eq_true, if_false, Except.ok.injEq] at h
        rw [← h, hc]
      | true =>
        rw [hc] at h
        simp only [if_true] at h
        split at h
        · simp at h
        · simp only [Except.ok.injEq] at h
          rw [← h]
    · intro hc
      simp [csv2jsonCheckPhase, hc]

theorem short_validated_row_is_fatal_witness :
    csv2jsonRun refEnv ⟨"data.csv", false, false, [], "", "h2", ⟨[], ["h2"], false, true⟩⟩
        (some (["h1", "h2"] :: ["a"] :: [["c", "d"]])) =
      ⟨["\x7b", ""], [], some (.fatal "field (2) out of range (1) in file: data.csv")⟩ := by
  obtain ⟨f, hf, _, hrun⟩ := (short_validated_row_is_fatal refEnv ["a"] [["c", "d"]]).2.2.1
    ⟨"data.csv", false, false, [], "", "h2", ⟨[], ["h2"], false, true⟩⟩ (false, []) [] [2]
    ["h1", "h2"] (by decide) rfl rfl (by decide) ⟨2, by decide, by decide⟩
  have hf2 : f = 2 := by simpa using hf
  subst hf2
  exact hrun

/-- C5, counterexample to the claim as stated: `round -f 2` on a file without header row
whose second row has a single cell.  The second row is not rejected: it is written with
the width of the first row, its second cell being the one left in the buffer by the row
before. -/
theorem round_later_short_row_is_padded :
    roundRun refEnv ⟨"data.csv", 2, false, false, ⟨[2], [], false, false⟩⟩
        [["a", "b"], ["c"]] =
      ({ parseHeaderRow := false
         parseHeaderRow2 := false
         checkFields := false
         fields := [2]
         fieldsMap := [2]
         record2 := ["c", "b"]
         written := [["a", "b"], ["c", "b"]] }, none) := by
  decide

/-! ## csv2json: value normalisation -/

/-- C7. Null normalisation: for every string `val` whose lower-cased form is one of `""`,
`na`, `n/a`, `none`, `null`, `.`, and whatever `parseNum` is, `processJSONValue` returns
the text `null` when `blanks` is false and the two-character empty JSON string when
`blanks` is true; for every `val` whose lower-cased form is `true` or `false` it returns
that lower-cased word, unquoted, whatever `blanks` and `parseNum` are.  Holds for every
lower-casing function, Go `strings.ToLower` included. -/
theorem processJSONValue_null_and_boolean (env : Env) (val : String)
    (blanks parseNum : Bool) :
    (env.toLower val ∈ ["", "na", "n/a", "none", "null", "."] →
        processJSONValue env val blanks parseNum = if blanks then "\"\"" else "null")
      ∧ (env.toLower val = "true" ∨ env.toLower val = "false" →
        processJSONValue env val blanks parseNum = env.toLower val) := by
  constructor
  · intro h
    simp only [List.mem_cons, List.mem_singleton, List.not_mem_nil, or_false] at h
    unfold processJSONValue
    rcases h with h | h | h | h | h | h <;> simp [h]
  · intro h
    unfold processJSONValue
    rcases h with h | h <;> simp [h]

theorem processJSONValue_null_and_boolean_witness :
    processJSONValue refEnv "N/A" false true = "null"
      ∧ processJSONValue refEnv "N/A" true true = "\"\""
      ∧ processJSONValue refEnv "TRUE" true true = "true" :=
  ⟨(processJSONValue_null_and_boolean refEnv "N/A" false true).1 (by decide),
   (processJSONValue_null_and_boolean refEnv "N/A" true true).1 (by decide),
   (processJSONValue_null_and_boolean refEnv "TRUE" true true).2 (Or.inl (by decide))⟩

/-! ## csv2json: the elements written -/

theorem indexRecord_of_lt (record : Record) (i : Nat) (h : i < record.length) :
    indexRecord record (i : Int) = .ok ((record[i]?).getD "") := by
  unfold indexRecord
  have h0 : (0 : Int) ≤ (i : Int) := by omega
  simp [h0, List.getElem?_eq_getElem h]

theorem nextParseNum_of_invariant (parseNumAll : Bool) (parseNumCols : List Int) (i : Nat)
    (parseNum : Bool) (h : parseNum = true → parseNumAll = true) :
    nextParseNum parseNumAll parseNumCols i parseNum =
      numericColumn parseNumAll parseNumCols i := by
  unfold nextParseNum numericColumn
  cases parseNumAll <;> cases hc : parseNumCols.contains ((i : Int) + 1) <;>
    cases parseNum <;> simp_all

/-- The column loop of header mode on a record at least as wide as the header: it writes
the lines `objectChunks`, does not fail, and leaves `parseNum` false (untouched when the
header is empty). -/
theorem objectColumns_eq (env : Env) (cfg : Csv2jsonConfig) (parseNumAll : Bool)
    (parseNumCols : List Int) (record : Record) (cols : List String) (i : Nat)
    (parseNum : Bool) (out : List String)
    (hinv : parseNum = true → parseNumAll = true)
    (hw : i + cols.length ≤ record.length) :
    objectColumns env cfg parseNumAll parseNumCols record cols i parseNum out =
      ⟨out ++ objectChunks env cfg parseNumAll parseNumCols record cols i,
        if cols.length = 0 then parseNum else false, none⟩ := by
  induction cols generalizing i parseNum out with
  | nil => simp [objectColumns, objectChunks]
  | cons col rest ih =>
    have hi : i < record.length := by simp at hw; omega
    have hrest := ih (i + 1) false
      (out ++ [if (i : Int) < (record.length : Int) - 1 then
        cfg.indent ++ cfg.indent ++ "\"" ++ unescapeJSONField col ++ "\":" ++ cfg.SEP ++
          processJSONValue env ((record[i]?).getD "") cfg.blanks
            (numericColumn parseNumAll parseNumCols i) ++ "," ++ cfg.LF
        else cfg.indent ++ cfg.indent ++ "\"" ++ unescapeJSONField col ++ "\":" ++ cfg.SEP ++
          processJSONValue env ((record[i]?).getD "") cfg.blanks
            (numericColumn parseNumAll parseNumCols i) ++ cfg.LF])
      (by simp) (by simp at hw ⊢; omega)
    unfold objectColumns
    simp only [indexRecord_of_lt record i hi,
      nextParseNum_of_invariant parseNumAll parseNumCols i parseNum hinv]
    rw [hrest]
    simp [objectChunks]

theorem arrayColumns_eq (cfg : Csv2jsonConfig) (parseNumAll : Bool)
    (parseNumCols : List Int) (len : Nat) (cells : List String) (i : Nat)
    (parseNum : Bool) (out : List String) :
    arrayColumns cfg parseNumAll parseNumCols len cells i parseNum out =
      ⟨out ++ arrayChunks cfg len cells i,
        if cells.length = 0 then parseNum else false, none⟩ := by
  induction cells generalizing i parseNum out with
  | nil => simp [arrayColumns, arrayChunks]
  | cons col rest ih =>
    unfold arrayColumns
    simp only [ih]
    simp [arrayChunks]

/-- One element: after the chunks already written come the separator (unless the element
is the first) and the chunks `elementChunks`; nothing fails, and `parseNum` is left set
only if it was set before. -/
theorem emitElement_eq (env : Env) (cfg : Csv2jsonConfig) (parseNumAll : Bool)
    (parseNumCols : List Int) (HeaderRow : Record) (key : String) (first parseNum : Bool)
    (record : Record) (out : List String)
    (hinv : parseNum = true → parseNumAll = true)
    (hw : cfg.NoHeaderRow = false → HeaderRow.length ≤ record.length) :
    ∃ parseNum2 : Bool, (parseNum2 = true → parseNumAll = true) ∧
      emitElement env cfg parseNumAll parseNumCols HeaderRow key first parseNum record out =
        ⟨out ++ appendElements ("," ++ cfg.LF) first
            [elementChunks env cfg parseNumAll parseNumCols HeaderRow key record],
          parseNum2, none⟩ := by
  cases hH : cfg.NoHeaderRow with
  | false =>
    refine ⟨if HeaderRow.length = 0 then parseNum else false, ?_, ?_⟩
    · split
      · exact hinv
      · simp
    · unfold emitElement elementChunks
      simp only [hH, Bool.not_false, if_true]
      rw [objectColumns_eq env cfg parseNumAll parseNumCols record HeaderRow 0 parseNum _ hinv
        (by simpa using hw hH)]
      cases first <;> cases cfg.keyed <;> simp [appendElements]
  | true =>
    refine ⟨if record.length = 0 then parseNum else false, ?_, ?_⟩
    · split
      · exact hinv
      · simp
    · unfold emitElement elementChunks
      simp only [hH, Bool.not_true, if_false]
      rw [arrayColumns_eq]
      cases first <;> cases cfg.keyed <;> simp [appendElements]

/-! ## csv2json: rows kept in a keyed run -/

theorem keepFirst_eq_filterMap (key : Record → String) (seen : List String)
    (rows : List Record) :
    keepFirst key seen rows =
      (List.range rows.length).filterMap fun j =>
        match rows[j]? with
        | some r =>
          if (!seen.contains (key r)) && (rows.take j).all (fun r0 => key r0 != key r)
          then some r else none
        | none => none := by
  induction rows generalizing seen with
  | nil => simp [keepFirst]
  | cons r rs ih =>
    rw [List.length_cons, List.range_succ_eq_map, List.filterMap_cons, List.filterMap_map]
    unfold keepFirst
    by_cases hs : seen.contains (key r) = true
    · have hs1 : key r ∈ seen := by simpa using hs
      rw [if_pos hs]
      simp only [hs, List.getElem?_cons_zero, List.take_zero, List.all_nil,
        Bool.not_true, Bool.false_and, Bool.false_eq_true, if_false]
      rw [ih seen]
      apply List.filterMap_congr
      intro j _
      simp only [Function.comp, List.getElem?_cons_succ, List.take_succ_cons, List.all_cons]
      cases hj : rs[j]? with
      | none => rfl
      | some r2 =>
        by_cases hs2 : key r2 ∈ seen
        · simp [hs2]
        · have hne : ¬ key r = key r2 := by
            intro heq
            rw [heq] at hs1
            exact hs2 hs1
          simp [hs2, hne]
    · have hs1 : key r ∉ seen := by simpa using hs
      have hs0 : seen.contains (key r) = false := by
        cases h : seen.contains (key r)
        · rfl
        · exact absurd h hs
      rw [if_neg hs]
      simp only [hs0, List.getElem?_cons_zero, List.take_zero,
        List.all_nil, Bool.not_false, Bool.true_and, if_true]
      rw [ih (seen ++ [key r])]
      congr 1
      apply List.filterMap_congr
      intro j _
      simp only [Function.comp, List.getElem?_cons_succ, List.take_succ_cons, List.all_cons]
      cases hj : rs[j]? with
      | none => rfl
      | some r2 =>
        by_cases hs2 : key r2 ∈ seen
        · simp [hs2]
        · by_cases he : key r = key r2
          · simp [hs2, he]
          · have he2 : ¬ key r2 = key r := fun h => he h.symm
            simp [hs2, he, he2]

theorem keepFirst_eq_firstOccurrences (key : Record → String) (rows : List Record) :
    keepFirst key [] rows = firstOccurrences key rows := by
  rw [keepFirst_eq_filterMap]
  unfold firstOccurrences
  simp

theorem keepFirst_keys_nodup (key : Record → String) (seen : List String)
    (rows : List Record) :
    ((keepFirst key seen rows).map key).Nodup ∧
      ∀ r ∈ keepFirst key seen rows, key r ∉ seen := by
  induction rows generalizing seen with
  | nil => simp [keepFirst]
  | cons r rs ih =>
    unfold keepFirst
    by_cases hs : seen.contains (key r) = true
    · rw [if_pos hs]
      exact ih seen
    · have hs1 : key r ∉ seen := by simpa using hs
      rw [if_neg hs]
      obtain ⟨hn, hnot⟩ := ih (seen ++ [key r])
      refine ⟨?_, ?_⟩
      · rw [List.map_cons, List.nodup_cons]
        refine ⟨?_, hn⟩
        intro hmem
        obtain ⟨r2, hr2, heq⟩ := List.mem_map.1 hmem
        exact hnot r2 hr2 (by simp [heq])
      · intro r2 h
        rcases List.mem_cons.1 h with h | h
        · subst h
          exact hs1
        · intro hin
          exact hnot r2 h (by simp [hin])

theorem positions_nodup (w : Nat) : (positions w).Nodup :=
  (positions_pairwise w).imp (fun h => ne_of_lt h)

theorem validateFields_single (file : String) (k : Int) (record : Record)
    (hk : 1 ≤ k) (hkw : k ≤ (record.length : Int)) :
    validateFields file false [k] record = .ok [k] := by
  rw [validateFields_positive file [k] record (by simpa using hkw)]
  have hfil : ((positions record.length).filter fun p => [k].contains p) = [k] := by
    have h1 : ((positions record.length).filter fun p => [k].contains p)
        = (positions record.length).filter fun p => decide (p = k) := by
      apply List.filter_congr
      intro p _
      simp
    rw [h1, List.filter_eq, List.count_eq_one_of_mem (positions_nodup _)
      (mem_positions.2 ⟨hk, hkw⟩)]
    rfl
  rw [hfil]
  rfl

theorem fillItems_single (k : Int) (record : Record)
    (hk : 1 ≤ k) (hkw : k ≤ (record.length : Int)) :
    fillItems record [k] = .ok [keyCell k record] := by
  have h0 : (0 : Int) ≤ k - 1 := by omega
  have hlt : (k - 1).toNat < record.length := by omega
  unfold fillItems indexRecord keyCell
  rw [if_pos h0, List.getElem?_eq_getElem hlt]
  rfl

theorem appendElements_cons (sep : String) (first : Bool) (e : List String)
    (es : List (List String)) :
    appendElements sep first (e :: es) =
      appendElements sep first [e] ++ appendElements sep false es := by
  simp [appendElements]

/-- One data row of a keyed run whose key is field `k`, on a row that has field `k` and
is at least as wide as the header: the row is dropped with a warning when its key has
been seen, and its element is written otherwise; the run goes on. -/
theorem csv2jsonStep_keyed (env : Env) (cfg : Csv2jsonConfig) (parseNumAll : Bool)
    (parseNumCols : List Int) (k : Int) (st : Csv2jsonState) (record : Record)
    (hkeyed : cfg.keyed = true) (hneg : cfg.parsed.negativeFields = false)
    (hph : st.parseHeaderRow = false) (hf : st.fields = [k]) (hfm : st.fieldsMap = [k])
    (hk : 1 ≤ k) (hkw : k ≤ (record.length : Int))
    (hw : cfg.NoHeaderRow = false → st.HeaderRow.length ≤ record.length)
    (hinv : st.parseNum = true → parseNumAll = true) :
    ∃ st2, csv2jsonStep env cfg parseNumAll parseNumCols st record = (st2, none) ∧
      st2.parseHeaderRow = false ∧ st2.fields = [k] ∧ st2.fieldsMap = [k] ∧
      st2.HeaderRow = st.HeaderRow ∧ (st2.parseNum = true → parseNumAll = true) ∧
      (if st.keysMaps.contains (keyCell k record) then
          st2.keysMaps = st.keysMaps ∧ st2.first = st.first ∧ st2.out = st.out ∧
            st2.warnings.length = st.warnings.length + 1
        else
          st2.keysMaps = st.keysMaps ++ [keyCell k record] ∧ st2.first = false ∧
            st2.out = st.out ++ appendElements ("," ++ cfg.LF) st.first
              [elementChunks env cfg parseNumAll parseNumCols st.HeaderRow
                (keyCell k record) record] ∧
            st2.warnings = st.warnings) := by
  obtain ⟨ph, cf, fields, fm, H, km, first, line, pnum, out, warns⟩ := st
  simp only at hph hf hfm hw hinv
  subst hph hf hfm
  have hnegf : cfg.negativeFields = false := by simp [Csv2jsonConfig.negativeFields, hneg]
  obtain ⟨p2, hp2, hem⟩ := emitElement_eq env cfg parseNumAll parseNumCols H
    (keyCell k record) first pnum record out hinv hw
  by_cases hmem : keyCell k record ∈ km
  · have hseen : km.contains (keyCell k record) = true := by simpa using hmem
    cases cf <;>
      simp [csv2jsonStep, csv2jsonHeaderPhase, csv2jsonCheckPhase, csv2jsonEmitPhase, hnegf,
        validateFields_single cfg.file k record hk hkw, fillItems_single k record hk hkw,
        hkeyed, hmem] <;> exact hinv
  · have hseen0 : km.contains (keyCell k record) = false := by
      cases h : km.contains (keyCell k record)
      · rfl
      · exact absurd (by simpa using h) hmem
    cases cf <;>
      simp [csv2jsonStep, csv2jsonHeaderPhase, csv2jsonCheckPhase, csv2jsonEmitPhase, hnegf,
        validateFields_single cfg.file k record hk hkw, fillItems_single k record hk hkw,
        hkeyed, hmem, hem] <;> exact hp2

/-- The data rows of a keyed run whose key is field `k`, all having field `k` and being at
least as wide as the header: the run does not fail, and the elements written are those of
the rows whose key has not been seen, in order; every other row adds a warning. -/
theorem csv2jsonLoop_keyed (env : Env) (cfg : Csv2jsonConfig) (parseNumAll : Bool)
    (parseNumCols : List Int) (k : Int) (H : Record)
    (hkeyed : cfg.keyed = true) (hneg : cfg.parsed.negativeFields = false) (hk : 1 ≤ k)
    (rows : List Record) (st : Csv2jsonState)
    (hrows : ∀ r ∈ rows, k ≤ (r.length : Int) ∧
      (cfg.NoHeaderRow = false → H.length ≤ r.length))
    (hph : st.parseHeaderRow = false) (hf : st.fields = [k]) (hfm : st.fieldsMap = [k])
    (hH : st.HeaderRow = H) (hinv : st.parseNum = true → parseNumAll = true) :
    ∃ st2, csv2jsonLoop env cfg parseNumAll parseNumCols st rows = (st2, none) ∧
      st2.out = st.out ++ appendElements ("," ++ cfg.LF) st.first
        ((keepFirst (keyCell k) st.keysMaps rows).map fun r =>
          elementChunks env cfg parseNumAll parseNumCols H (keyCell k r) r) ∧
      st2.warnings.length + (keepFirst (keyCell k) st.keysMaps rows).length =
        st.warnings.length + rows.length := by
  induction rows generalizing st with
  | nil => exact ⟨st, rfl, by simp [keepFirst, appendElements], by simp [keepFirst]⟩
  | cons r rs ih =>
    obtain ⟨hkw, hw⟩ := hrows r (List.mem_cons_self _ _)
    obtain ⟨st1, hstep, h1, h2, h3, h4, h5, h6⟩ :=
      csv2jsonStep_keyed env cfg parseNumAll parseNumCols k st r hkeyed hneg hph hf hfm hk hkw
        (by rw [hH]; exact hw) hinv
    obtain ⟨st2, hloop, hout, hwarn⟩ := ih st1
      (fun x hx => hrows x (List.mem_cons_of_mem _ hx)) h1 h2 h3 (by rw [h4, hH]) h5
    refine ⟨st2, ?_, ?_, ?_⟩
    · simp only [csv2jsonLoop, hstep, hloop]
    · by_cases hseen : st.keysMaps.contains (keyCell k r) = true
      · have hkf : keepFirst (keyCell k) st.keysMaps (r :: rs)
            = keepFirst (keyCell k) st.keysMaps rs := by
          conv_lhs => rw [keepFirst]
          rw [if_pos hseen]
        rw [if_pos hseen] at h6
        obtain ⟨hkm, hfirst, ho, _⟩ := h6
        rw [hout, hkm, hfirst, ho, hkf]
      · have hkf : keepFirst (keyCell k) st.keysMaps (r :: rs)
            = r :: keepFirst (keyCell k) (st.keysMaps ++ [keyCell k r]) rs := by
          conv_lhs => rw [keepFirst]
          rw [if_neg hseen]
        rw [if_neg hseen] at h6
        obtain ⟨hkm, hfirst, ho, _⟩ := h6
        rw [hout, hkm, hfirst, ho, hkf, hH]
        simp [appendElements]
    · by_cases hseen : st.keysMaps.contains (keyCell k r) = true
      · have hkf : keepFirst (keyCell k) st.keysMaps (r :: rs)
            = keepFirst (keyCell k) st.keysMaps rs := by
          conv_lhs => rw [keepFirst]
          rw [if_pos hseen]
        rw [if_pos hseen] at h6
        obtain ⟨hkm, _, _, hw1⟩ := h6
        rw [hkm, hw1] at hwarn
        rw [hkf, List.length_cons]
        omega
      · have hkf : keepFirst (keyCell k) st.keysMaps (r :: rs)
            = r :: keepFirst (keyCell k) (st.keysMaps ++ [keyCell k r]) rs := by
          conv_lhs => rw [keepFirst]
          rw [if_neg hseen]
        rw [if_neg hseen] at h6
        obtain ⟨hkm, _, _, hw1⟩ := h6
        rw [hkm, hw1] at hwarn
        rw [hkf, List.length_cons, List.length_cons]
        omega

theorem mem_firstOccurrences {key : Record → String} {rows : List Record} {r : Record} :
    r ∈ firstOccurrences key rows ↔
      ∃ j : Nat, rows[j]? = some r ∧ ∀ r0 ∈ rows.take j, key r0 ≠ key r := by
  unfold firstOccurrences
  rw [List.mem_filterMap]
  constructor
  · rintro ⟨j, _, hj⟩
    cases hr : rows[j]? with
    | none => simp [hr] at hj
    | some r1 =>
      rw [hr] at hj
      by_cases hall : ((rows.take j).all fun r0 => key r0 != key r1) = true
      · simp only [hall, if_true, Option.some.injEq] at hj
        subst hj
        exact ⟨j, hr, by simpa using hall⟩
      · simp [hall] at hj
  · rintro ⟨j, hj, hall⟩
    have hlt : j < rows.length := by
      by_contra hge
      rw [List.getElem?_eq_none (by omega)] at hj
      exact absurd hj (by simp)
    refine ⟨j, List.mem_range.2 hlt, ?_⟩
    have hall2 : ((rows.take j).all fun r0 => key r0 != key r) = true := by simpa using hall
    simp only [hj, hall2, if_true]

theorem occurrences_length (col : String) (record : List String) (i : Nat) :
    (occurrences col record i).length = record.count col := by
  induction record generalizing i with
  | nil => rfl
  | cons c rest ih =>
    unfold occurrences
    by_cases hc : c = col
    · subst hc
      simp [ih]
    · have hc2 : (c == col) = false := by simpa using hc
      rw [if_neg hc, ih, List.count_cons, hc2]
      simp

theorem fieldsOfNames_single (env : Env) (c : String) (c2f : String → Option (List Int))
    (rest : List String) :
    fieldsOfNames env false [c] c2f rest =
      (List.replicate (rest.count c) ((c2f c).getD [])).flatten := by
  induction rest with
  | nil => rfl
  | cons x xs ih =>
    unfold fieldsOfNames
    by_cases hx : x = c
    · subst hx
      simp [colMatches, ih, List.replicate_succ]
    · have hx2 : (x == c) = false := by simpa using hx
      have hm : colMatches env false [c] x = false := by
        simp [colMatches, hx]
      rw [hm, List.count_cons, hx2]
      simpa using ih

/-- The header block of a run keyed by the name `c`, which the header row carries exactly
once, at position `k`: the key resolves to the single field `k`. -/
theorem parseHeader_key_name (env : Env) (file : String) (c : String) (header : Record)
    (k : Int) (hcount : header.count c = 1) (hk : 1 ≤ k)
    (hat : header[(k - 1).toNat]? = some c) :
    parseHeader env true false false file [c] [] header = .ok [k] := by
  have hocc : occurrences c header 0 = [k] := by
    have hlen : (occurrences c header 0).length = 1 := by
      rw [occurrences_length, hcount]
    have hmem : k ∈ occurrences c header 0 :=
      mem_occurrences.2 ⟨(k - 1).toNat, hat, by omega⟩
    match hl : occurrences c header 0, hlen, hmem with
    | [x], _, hmem =>
      rw [List.mem_singleton] at hmem
      rw [hmem]
  have hin : c ∈ header := List.getElem?_mem hat
  have hnone : (buildColnames2fileds header 0 (fun _ => none) c).isNone = false := by
    cases hn : (buildColnames2fileds header 0 (fun _ => none) c).isNone with
    | false => rfl
    | true => exact absurd hin ((colnames2fileds_isNone header c).1 hn)
  have hget := colnames2fileds_getD header c
  have hlenAt : lenAt (buildColnames2fileds header 0 (fun _ => none)) c = 1 := by
    unfold lenAt
    cases hb : buildColnames2fileds header 0 (fun _ => none) c with
    | none => simp [hb] at hnone
    | some ps =>
      rw [hb] at hget
      simp only [Option.getD_some] at hget
      simp [hget, hocc]
  unfold parseHeader
  simp only [resolveColnames, hnone, hlenAt, List.length_nil, if_true]
  simp [fieldsOfNames_single, hcount, hget, hocc]

/-- C6. Keyed csv2json keeps the first row of each key: in a run keyed by field `k`
(given by its index, or by the name of a column that the header carries once, at position
`k`), on data rows that all have field `k` and are at least as wide as the header, an
element is written for a data row if and only if no earlier data row has the same value
in field `k`: the output is the opening bracket, the elements of exactly those rows
(`firstOccurrences`), in input order and separated by commas, and the closing bracket.
The outer keys written are pairwise distinct, every other row is dropped with one warning,
and the run does not fail. -/
theorem csv2json_keyed_keeps_first_row (env : Env) (cfg : Csv2jsonConfig)
    (pn : Bool × List Int) (k : Int) (need : Bool) (header : Record) (rows : List Record)
    (hkey : cfg.fieldStr ≠ "")
    (hp : cfg.parsed = ⟨[k], [], false, need⟩ ∨
      ∃ c, cfg.parsed = ⟨[], [c], false, need⟩ ∧ need = true ∧ header.count c = 1 ∧
        header[(k - 1).toNat]? = some c)
    (hpn : parseNumLoop env cfg.parseNumFlags [] = .ok pn) (hk : 1 ≤ k)
    (hrows : ∀ r ∈ rows, k ≤ (r.length : Int) ∧
      (cfg.NoHeaderRow = false → need = true → header.length ≤ r.length)) :
    (csv2jsonRun env cfg (some ((if need then [header] else []) ++ rows))).failure = none
      ∧ (csv2jsonRun env cfg (some ((if need then [header] else []) ++ rows))).out =
          ["\x7b", cfg.LF] ++
            appendElements ("," ++ cfg.LF) true
              ((firstOccurrences (keyCell k) rows).map fun r =>
                elementChunks env cfg pn.1 pn.2 (if need then header else []) (keyCell k r) r)
            ++ [cfg.LF, "\x7d\n"]
      ∧ (∀ r, r ∈ firstOccurrences (keyCell k) rows ↔
          ∃ j : Nat, rows[j]? = some r ∧ ∀ r0 ∈ rows.take j, keyCell k r0 ≠ keyCell k r)
      ∧ ((firstOccurrences (keyCell k) rows).map (keyCell k)).Nodup
      ∧ (csv2jsonRun env cfg (some ((if need then [header] else []) ++ rows))).warnings.length
          + (firstOccurrences (keyCell k) rows).length = rows.length := by
  obtain ⟨pnAll, pnCols⟩ := pn
  have hkeyed : cfg.keyed = true := by simp [Csv2jsonConfig.keyed, hkey]
  have hneg : cfg.parsed.negativeFields = false := by
    rcases hp with hp | ⟨c, hp, _⟩ <;> rw [hp]
  have hnodup := (keepFirst_keys_nodup (keyCell k) [] rows).1
  rw [keepFirst_eq_firstOccurrences] at hnodup
  -- the key block, and the state in which the first data row is read
  have hstart : ∃ fields0 st0, csv2jsonKey cfg = .ok (fields0, need)
      ∧ csv2jsonLoop env cfg pnAll pnCols
        (csv2jsonInit cfg pnAll fields0 need) ((if need then [header] else []) ++ rows)
        = csv2jsonLoop env cfg pnAll pnCols st0 rows
      ∧ st0.parseHeaderRow = false ∧ st0.fields = [k] ∧ st0.fieldsMap = [k]
      ∧ st0.HeaderRow = (if need then header else [])
      ∧ (st0.parseNum = true → pnAll = true)
      ∧ st0.out = ["\x7b", cfg.LF] ∧ st0.first = true ∧ st0.keysMaps = []
      ∧ st0.warnings = [] := by
    rcases hp with hp | ⟨c, hp, hneed, hcount, hat⟩
    · have hkeyres : csv2jsonKey cfg = .ok ([k], need) := by
        simp [csv2jsonKey, hkeyed, hp, normalizeFields]
      cases need
      · exact ⟨[k], csv2jsonInit cfg pnAll [k] false, hkeyres, rfl, rfl, rfl, rfl, rfl,
          by simp [csv2jsonInit], by simp [csv2jsonInit, hkeyed], rfl, rfl, rfl⟩
      · refine ⟨[k], { csv2jsonInit cfg pnAll [k] true with
            line := 1, parseHeaderRow := false, HeaderRow := header }, hkeyres, ?_, rfl, rfl,
          rfl, rfl, by simp [csv2jsonInit], by simp [csv2jsonInit, hkeyed], rfl, rfl, rfl⟩
        simp [csv2jsonLoop, csv2jsonStep, csv2jsonHeaderPhase, csv2jsonInit, parseHeader,
          Csv2jsonConfig.colnames, hp, resolveColnames]
    · subst hneed
      have hkeyres : csv2jsonKey cfg = .ok ([], true) := by
        simp [csv2jsonKey, hkeyed, hp]
      have hhead := parseHeader_key_name env cfg.file c header k hcount hk hat
      refine ⟨[], { csv2jsonInit cfg pnAll [] true with
          line := 1, parseHeaderRow := false, HeaderRow := header, fields := [k],
          fieldsMap := [k] }, hkeyres, ?_, rfl, rfl,
        rfl, rfl, by simp [csv2jsonInit], by simp [csv2jsonInit, hkeyed], rfl, rfl, rfl⟩
      simp [csv2jsonLoop, csv2jsonStep, csv2jsonHeaderPhase, csv2jsonInit,
        Csv2jsonConfig.colnames, Csv2jsonConfig.negativeFields, hkeyed, hp, hhead]
  obtain ⟨fields0, st0, hkeyres, hst0, h1, h2, h3, h4, h5, h6, h7, h8, h9⟩ := hstart
  obtain ⟨st2, hloop, hout, hwarn⟩ := csv2jsonLoop_keyed env cfg pnAll pnCols k
    (if need then header else []) hkeyed hneg hk rows st0
    (fun r hr => ⟨(hrows r hr).1, fun hH => by
      cases need
      · simp
      · simpa using (hrows r hr).2 hH rfl⟩) h1 h2 h3 h4 h5
  rw [h6, h7, h8, keepFirst_eq_firstOccurrences] at hout
  rw [h8, h9, keepFirst_eq_firstOccurrences] at hwarn
  have hrun : csv2jsonRun env cfg (some ((if need then [header] else []) ++ rows)) =
      ⟨st2.out ++ [cfg.LF, "\x7d\n"], st2.warnings, none⟩ := by
    simp only [csv2jsonRun, hpn, hkeyres, hst0, hloop, hkeyed, if_true]
  rw [hrun]
  refine ⟨rfl, ?_, fun r => mem_firstOccurrences, hnodup, ?_⟩
  · simp only [hout]
  · simpa using hwarn

theorem csv2json_keyed_keeps_first_row_witness :
    (csv2jsonRun refEnv ⟨"data.csv", false, false, [], "", "id", ⟨[], ["id"], false, true⟩⟩
        (some ((if true then [["id", "v"]] else []) ++
          [["a", "1"], ["b", "2"], ["a", "3"]]))).out =
      ["\x7b", "", "\"a\":\x7b", "\"id\":\"a\",", "\"v\":\"1\"", "\x7d", ",",
        "\"b\":\x7b", "\"id\":\"b\",", "\"v\":\"2\"", "\x7d", "", "\x7d\n"] :=
  (csv2json_keyed_keeps_first_row refEnv
    ⟨"data.csv", false, false, [], "", "id", ⟨[], ["id"], false, true⟩⟩ (false, []) 1 true
    ["id", "v"] [["a", "1"], ["b", "2"], ["a", "3"]] (by decide)
    (Or.inr ⟨"id", rfl, rfl, by decide, by decide⟩) rfl (by decide) (by decide)).2.1

/-! ## csv2json: numeric parsing -/

theorem processJSONValue_not_numeric (env : Env) (val : String) (blanks : Bool) :
    processJSONValue env val blanks false ∈
      ["true", "false", "null", "\"\"", "\"" ++ val ++ "\""] := by
  unfold processJSONValue
  simp only [Bool.false_and, Bool.false_eq_true, if_false]
  by_cases h1 : env.toLower val = "true"
  · simp [h1]
  · by_cases h2 : env.toLower val = "false"
    · simp [h2]
    · rw [if_neg h1, if_neg h2]
      split
      · cases blanks <;> simp
      · simp

/-- The keys of `parseNumCols` when neither `a` nor `all` was given: the numbers the
flags denote, in order. -/
theorem parseNumLoop_cols (env : Env) (flags : List String) (acc cols : List Int)
    (h : parseNumLoop env flags acc = .ok (false, cols)) :
    cols = acc ++ flags.map fun c => env.atoi (env.toLower c) := by
  induction flags generalizing acc with
  | nil =>
    simp [parseNumLoop] at h
    simp [h]
  | cons c rest ih =>
    unfold parseNumLoop at h
    simp only at h
    split_ifs at h with h1 h2 h3
    · simp at h
    · have := ih _ h
      simp [this]

theorem objectChunks_getElem? (env : Env) (cfg : Csv2jsonConfig) (parseNumAll : Bool)
    (parseNumCols : List Int) (record : Record) (cols : List String) (i0 j : Nat)
    (col : String) (h : cols[j]? = some col) :
    (objectChunks env cfg parseNumAll parseNumCols record cols i0)[j]? =
      some (if ((i0 + j : Nat) : Int) < (record.length : Int) - 1 then
        cfg.indent ++ cfg.indent ++ "\"" ++ unescapeJSONField col ++ "\":" ++ cfg.SEP ++
          processJSONValue env ((record[i0 + j]?).getD "") cfg.blanks
            (numericColumn parseNumAll parseNumCols (i0 + j)) ++ "," ++ cfg.LF
      else
        cfg.indent ++ cfg.indent ++ "\"" ++ unescapeJSONField col ++ "\":" ++ cfg.SEP ++
          processJSONValue env ((record[i0 + j]?).getD "") cfg.blanks
            (numericColumn parseNumAll parseNumCols (i0 + j)) ++ cfg.LF) := by
  induction cols generalizing i0 j with
  | nil => simp at h
  | cons c rest ih =>
    cases j with
    | zero =>
      simp at h
      subst h
      simp [objectChunks]
    | succ j =>
      have hj : rest[j]? = some col := by simpa using h
      have := ih (i0 + 1) j hj
      have he : i0 + 1 + j = i0 + (j + 1) := by omega
      rw [he] at this
      simpa [objectChunks] using this

theorem objectChunks_length (env : Env) (cfg : Csv2jsonConfig) (parseNumAll : Bool)
    (parseNumCols : List Int) (record : Record) (cols : List String) (i0 : Nat) :
    (objectChunks env cfg parseNumAll parseNumCols record cols i0).length = cols.length := by
  induction cols generalizing i0 with
  | nil => rfl
  | cons c rest ih => simp [objectChunks, ih]

theorem objectColumns_parseNum (env : Env) (cfg : Csv2jsonConfig) (parseNumAll : Bool)
    (parseNumCols : List Int) (record : Record) (cols : List String) (i : Nat)
    (parseNum : Bool) (out : List String) (hinv : parseNum = true → parseNumAll = true)
    (o : List String) (p : Bool)
    (hok : objectColumns env cfg parseNumAll parseNumCols record cols i parseNum out
      = ⟨o, p, none⟩) :
    p = true → parseNumAll = true := by
  induction cols generalizing i parseNum out with
  | nil =>
    simp only [objectColumns, Emitted.mk.injEq] at hok
    rw [← hok.2.1]
    exact hinv
  | cons c rest ih =>
    unfold objectColumns at hok
    cases hidx : indexRecord record (i : Int) with
    | error e => simp [hidx] at hok
    | ok cell =>
      simp only [hidx] at hok
      exact ih _ false _ (by simp) hok

theorem emitElement_parseNum (env : Env) (cfg : Csv2jsonConfig) (parseNumAll : Bool)
    (parseNumCols : List Int) (HeaderRow : Record) (key : String) (first parseNum : Bool)
    (record : Record) (out : List String) (hinv : parseNum = true → parseNumAll = true)
    (hok : (emitElement env cfg parseNumAll parseNumCols HeaderRow key first parseNum record
      out).failure = none) :
    (emitElement env cfg parseNumAll parseNumCols HeaderRow key first parseNum record
      out).parseNum = true → parseNumAll = true := by
  cases hH : cfg.NoHeaderRow with
  | false =>
    simp only [emitElement, hH, Bool.not_false, if_true] at hok ⊢
    split at hok
    · simp at hok
    · rename_i o p heq
      exact objectColumns_parseNum env cfg parseNumAll parseNumCols record HeaderRow 0
        parseNum _ hinv o p heq
  | true =>
    simp only [emitElement, hH, Bool.not_true, Bool.false_eq_true, if_false, arrayColumns_eq]
    intro h
    by_cases hr : record.length = 0
    · rw [if_pos hr] at h
      exact hinv h
    · rw [if_neg hr] at h
      exact absurd h (by simp)

theorem csv2jsonCheckPhase_parseNum (cfg : Csv2jsonConfig) (st st1 : Csv2jsonState)
    (record : Record) (h : csv2jsonCheckPhase cfg st record = .ok st1) :
    st1.parseNum = st.parseNum := by
  unfold csv2jsonCheckPhase at h
  split at h
  · split at h
    · simp at h
    · simp only [Except.ok.injEq] at h
      rw [← h]
  · simp only [Except.ok.injEq] at h
    rw [← h]

theorem csv2jsonEmitPhase_parseNum (env : Env) (cfg : Csv2jsonConfig) (parseNumAll : Bool)
    (parseNumCols : List Int) (st1 st2 : Csv2jsonState) (record : Record)
    (hinv : st1.parseNum = true → parseNumAll = true)
    (h : csv2jsonEmitPhase env cfg parseNumAll parseNumCols st1 record = (st2, none)) :
    st2.parseNum = true → parseNumAll = true := by
  unfold csv2jsonEmitPhase at h
  split at h
  · simp at h
  · split at h
    · split at h
      · simp at h
      · split at h
        · simp only [Prod.mk.injEq, and_true] at h
          rw [← h]
          exact hinv
        · simp only [Prod.mk.injEq] at h
          rw [← h.1]
          exact emitElement_parseNum env cfg parseNumAll parseNumCols _ _ _ _ _ _ hinv h.2
    · simp only [Prod.mk.injEq] at h
      rw [← h.1]
      exact emitElement_parseNum env cfg parseNumAll parseNumCols _ _ _ _ _ _ hinv h.2

/-- A record that the loop completes leaves `parseNum` set only if `all` was given. -/
theorem csv2jsonStep_parseNum (env : Env) (cfg : Csv2jsonConfig) (parseNumAll : Bool)
    (parseNumCols : List Int) (st st2 : Csv2jsonState) (record : Record)
    (hinv : st.parseNum = true → parseNumAll = true)
    (hstep : csv2jsonStep env cfg parseNumAll parseNumCols st record = (st2, none)) :
    st2.parseNum = true → parseNumAll = true := by
  unfold csv2jsonStep at hstep
  simp only at hstep
  split at hstep
  · unfold csv2jsonHeaderPhase at hstep
    split at hstep
    · simp at hstep
    · simp only [Prod.mk.injEq, and_true] at hstep
      rw [← hstep]
      exact hinv
  · split at hstep
    · simp at hstep
    · rename_i st1 hck
      have h1 := csv2jsonCheckPhase_parseNum cfg _ st1 record hck
      exact csv2jsonEmitPhase_parseNum env cfg parseNumAll parseNumCols st1 st2 record
        (by rw [h1]; exact hinv) hstep

/-- C8. Numbers are unquoted only in flagged columns.  Let the `--parse-num` flags be
accepted with neither `a` nor `all` among them.  In header (object) mode, for every data
row at least as wide as the header and every column `i + 1` that no flag denotes, the
column loop, entered with the numeric flag clear, writes for that column the line
`"name": v` where `v` is `true`, `false`, `null`, `""` or the cell wrapped in double
quotes.  The numeric flag is clear before the first record and clear again after every
record the loop completes, so it is never carried to the next column or the next row. -/
theorem csv2json_numbers_only_in_flagged_columns (env : Env) (cfg : Csv2jsonConfig)
    (parseNumCols : List Int)
    (hpn : parseNumLoop env cfg.parseNumFlags [] = .ok (false, parseNumCols)) :
    (∀ (HeaderRow record : Record) (out : List String) (i : Nat) (col cell : String),
        HeaderRow.length ≤ record.length →
        HeaderRow[i]? = some col → record[i]? = some cell →
        (∀ c ∈ cfg.parseNumFlags, env.atoi (env.toLower c) ≠ (i : Int) + 1) →
        ∃ chunks : List String,
          objectColumns env cfg false parseNumCols record HeaderRow 0 false out =
            ⟨out ++ chunks, false, none⟩
          ∧ chunks.length = HeaderRow.length
          ∧ ∃ v ∈ ["true", "false", "null", "\"\"", "\"" ++ cell ++ "\""],
              chunks[i]? = some (if (i : Int) < (record.length : Int) - 1 then
                cfg.indent ++ cfg.indent ++ "\"" ++ unescapeJSONField col ++ "\":" ++ cfg.SEP ++
                  v ++ "," ++ cfg.LF
              else
                cfg.indent ++ cfg.indent ++ "\"" ++ unescapeJSONField col ++ "\":" ++ cfg.SEP ++
                  v ++ cfg.LF))
      ∧ (∀ (fields : List Int) (parseHeaderRow : Bool),
          (csv2jsonInit cfg false fields parseHeaderRow).parseNum = false)
      ∧ (∀ (st st2 : Csv2jsonState) (record : Record), st.parseNum = false →
          csv2jsonStep env cfg false parseNumCols st record = (st2, none) →
          st2.parseNum = false) := by
  refine ⟨?_, fun _ _ => rfl, ?_⟩
  · intro HeaderRow record out i col cell hw hcol hcell hflags
    have hcols : parseNumCols = cfg.parseNumFlags.map fun c => env.atoi (env.toLower c) := by
      simpa using parseNumLoop_cols env cfg.parseNumFlags [] parseNumCols hpn
    have hnum : numericColumn false parseNumCols i = false := by
      unfold numericColumn
      rw [Bool.false_or, hcols]
      cases hc : (cfg.parseNumFlags.map fun c => env.atoi (env.toLower c)).contains
          ((i : Int) + 1) with
      | false => rfl
      | true =>
        have hmem : ((i : Int) + 1) ∈
            cfg.parseNumFlags.map fun c => env.atoi (env.toLower c) := by
          simpa using hc
        obtain ⟨c, hcin, hceq⟩ := List.mem_map.1 hmem
        exact absurd hceq (hflags c hcin)
    have hlen0 : HeaderRow.length ≠ 0 := by
      intro h0
      rw [List.length_eq_zero] at h0
      rw [h0] at hcol
      simp at hcol
    refine ⟨objectChunks env cfg false parseNumCols record HeaderRow 0, ?_,
      objectChunks_length _ _ _ _ _ _ _,
      processJSONValue env cell cfg.blanks false,
      processJSONValue_not_numeric env cell cfg.blanks, ?_⟩
    · rw [objectColumns_eq env cfg false parseNumCols record HeaderRow 0 false out (by simp)
        (by simpa using hw)]
      simp [hlen0]
    · have := objectChunks_getElem? env cfg false parseNumCols record HeaderRow 0 i col hcol
      simp only [Nat.zero_add, hnum, hcell, Option.getD_some] at this
      exact this
  · intro st st2 record hst hstep
    have h := csv2jsonStep_parseNum env cfg false parseNumCols st st2 record
      (by rw [hst]; simp) hstep
    cases hp : st2.parseNum with
    | false => rfl
    | true => exact absurd (h hp) (by simp)

theorem csv2json_numbers_only_in_flagged_columns_witness :
    ∃ chunks : List String,
      objectColumns refEnv ⟨"data.csv", false, false, ["2"], "", "", ⟨[], [], false, false⟩⟩
          false [2] ["7", "8"] ["a", "b"] 0 false [] = ⟨[] ++ chunks, false, none⟩
        ∧ chunks.length = ["a", "b"].length
        ∧ ∃ v ∈ ["true", "false", "null", "\"\"", "\"" ++ "7" ++ "\""],
            chunks[0]? = some (if ((0 : Nat) : Int) < ((["7", "8"] : Record).length : Int) - 1
              then "" ++ "" ++ "\"" ++ unescapeJSONField "a" ++ "\":" ++ "" ++ v ++ "," ++ ""
              else "" ++ "" ++ "\"" ++ unescapeJSONField "a" ++ "\":" ++ "" ++ v ++ "") :=
  (csv2json_numbers_only_in_flagged_columns refEnv
    ⟨"data.csv", false, false, ["2"], "", "", ⟨[], [], false, false⟩⟩ [2] (by decide)).1
    ["a", "b"] ["7", "8"] [] 0 "a" "7" (by decide) rfl rfl (by decide)

/-! ## csv2json: where the two modes differ -/

/-- C9, evaluation at the failing input.  Header mode, empty indent, header row `[a]`,
data row with the single cell `x"y`: the value is written as `"x"y"`, its inner quote
not escaped, so the text of the output is `[{"a":"x"y"}]`.  In no-header mode the same
cell is written as `"x\"y"`. -/
theorem csv2json_object_value_quote_not_escaped :
    csv2jsonRun refEnv ⟨"data.csv", false, false, [], "", "", ⟨[], [], false, false⟩⟩
        (some [["a"], ["x\"y"]]) =
      ⟨["[", "", "\x7b", "\"a\":\"x\"y\"", "\x7d", "", "]\n"], [], none⟩
    ∧ csv2jsonRun refEnv ⟨"data.csv", true, false, [], "", "", ⟨[], [], false, false⟩⟩
        (some [["x\"y"]]) =
      ⟨["[", "", "[", "\"x\\\"y\"", "]", "", "]\n"], [], none⟩ := by
  decide

/-- C10, evaluation at the failing input.  No-header mode, empty indent, `--parse-num 3`,
one row `[true, NA, 12]`: every cell is written as a quoted string, `"true"`, `"NA"`,
`"12"`, with or without the blanks flag.  In header mode the cells `true` and `NA` of the
same kind of row are written as `true` and `null`. -/
theorem csv2json_array_values_not_normalised :
    csv2jsonRun refEnv ⟨"data.csv", true, false, ["3"], "", "", ⟨[], [], false, false⟩⟩
        (some [["true", "NA", "12"]]) =
      ⟨["[", "", "[", "\"true\",", "\"NA\",", "\"12\"", "]", "", "]\n"], [], none⟩
    ∧ csv2jsonRun refEnv ⟨"data.csv", true, true, ["3"], "", "", ⟨[], [], false, false⟩⟩
        (some [["true", "NA", "12"]]) =
      ⟨["[", "", "[", "\"true\",", "\"NA\",", "\"12\"", "]", "", "]\n"], [], none⟩
    ∧ csv2jsonRun refEnv ⟨"data.csv", false, false, ["3"], "", "", ⟨[], [], false, false⟩⟩
        (some [["a", "b"], ["true", "NA"]]) =
      ⟨["[", "", "\x7b", "\"a\":true,", "\"b\":null", "\x7d", "", "]\n"], [], none⟩ := by
  decide

/-! ## round: the rewrite of a cell -/

/-- C11. Rounding to 2 decimals gives the documented results: with decimal width 2 a
selected cell `3.14159` becomes `3.14`, a selected cell `1.5e-10` becomes `0.00` (the
whole value is reformatted, the exponent disappears) and a selected cell `2.5e+10`
becomes `2.50e+10` (mantissa rounded, exponent suffix kept); so `round -n 2 -f 1,2,3` on
the row of these three cells writes the row `3.14`, `0.00`, `2.50e+10`. -/
theorem round_two_decimals_examples :
    roundCell refEnv 2 "3.14159" = "3.14"
      ∧ roundCell refEnv 2 "1.5e-10" = "0.00"
      ∧ roundCell refEnv 2 "2.5e+10" = "2.50e+10"
      ∧ (roundRun refEnv ⟨"data.csv", 2, false, false, ⟨[1, 2, 3], [], false, false⟩⟩
          [["3.14159", "1.5e-10", "2.5e+10"]]).1.written = [["3.14", "0.00", "2.50e+10"]]
      ∧ (roundRun refEnv ⟨"data.csv", 2, false, false, ⟨[1, 2, 3], [], false, false⟩⟩
          [["3.14159", "1.5e-10", "2.5e+10"]]).2 = none := by
  decide

theorem indexByte_pos_iff (e : String) (c : Char) (rest : List Char) (he : e.data = c :: rest)
    (hc : c ≠ '-') : indexByte e '-' > 0 ↔ '-' ∈ rest := by
  unfold indexByte
  rw [he]
  by_cases hin : '-' ∈ rest
  · have h1 : (c :: rest).contains '-' = true := by simp [hin]
    have h2 : (c :: rest).indexOf '-' = rest.indexOf '-' + 1 := by
      rw [List.indexOf_cons_ne _ hc]
    simp only [h1, if_true, h2, hin, iff_true]
    omega
  · have h1 : (c :: rest).contains '-' = false := by
      simp [hin, Ne.symm hc]
    simp only [h1, Bool.false_eq_true, if_false, hin, iff_false]
    omega

/-- What a match of the numeric-token pattern with an exponent looks like: the cell is
the mantissa followed by the suffix, the mantissa is made of mantissa characters, and the
suffix is `e` or `E` followed by at least one sign or digit. -/
theorem reDigitalsCaptFind_exponent (cell m e : String)
    (hfind : reDigitalsCaptFind cell = some (m, e)) (he : e ≠ "") :
    cell = m ++ e ∧ (∀ c ∈ m.data, isMantissaChar c = true) ∧
      ∃ c rest, e.data = c :: rest ∧ (c = 'e' ∨ c = 'E') ∧ rest ≠ [] ∧
        ∀ x ∈ rest, isExponentChar x = true := by
  unfold reDigitalsCaptFind at hfind
  simp only at hfind
  split at hfind
  · simp only [Option.some.injEq, Prod.mk.injEq] at hfind
    exact absurd hfind.2.symm he
  · rename_i c rest hdrop
    split at hfind
    · rename_i hcond
      simp only [Option.some.injEq, Prod.mk.injEq] at hfind
      obtain ⟨hm, hee⟩ := hfind
      subst hm hee
      simp only [Bool.and_eq_true, Bool.or_eq_true, decide_eq_true_eq, Bool.not_eq_true',
        List.all_eq_true] at hcond
      refine ⟨?_, ?_, c, rest, rfl, hcond.1.1, ?_, hcond.2⟩
      · apply String.ext
        simp only [String.data_append]
        rw [← hdrop, List.takeWhile_append_dropWhile]
      · intro x hx
        exact List.mem_takeWhile_imp hx
      · intro h
        rw [h] at hcond
        simp at hcond
    · simp at hfind

/-- The exponent branches of `roundCell` as the code takes them: for a cell that matches
the numeric-token pattern with a non-empty mantissa `m` and an exponent suffix `e`, the
whole cell is reformatted when `e` holds a minus sign anywhere after its `e`/`E`, and
else the mantissa is reformatted and the suffix appended.  When no minus sign stands
later than right after `e`/`E`, holding one is the same as starting with one. -/
theorem roundCell_exponent_policy (env : Env) (decimalWidth : Nat) (cell m e : String)
    (hfind : reDigitalsCaptFind cell = some (m, e)) (hm : m ≠ "") (he : e ≠ "") :
    cell = m ++ e
      ∧ roundCell env decimalWidth cell =
          (if '-' ∈ e.data.drop 1 then env.formatFloat decimalWidth cell
           else env.formatFloat decimalWidth m ++ e)
      ∧ ((∀ x ∈ e.data.drop 2, x ≠ '-') → ('-' ∈ e.data.drop 1 ↔ e.data[1]? = some '-')) := by
  obtain ⟨hcell, _, c, rest, hdata, hc, hrest, _⟩ := reDigitalsCaptFind_exponent cell m e hfind he
  have hcne : c ≠ '-' := by
    rcases hc with hc | hc <;> rw [hc] <;> decide
  refine ⟨hcell, ?_, ?_⟩
  · unfold roundCell
    rw [hfind]
    simp only [he, hm, if_false, indexByte_pos_iff e c rest hdata hcne, hdata, List.drop_one,
      List.tail_cons]
  · intro hno
    rw [hdata]
    rw [hdata] at hno
    cases rest with
    | nil => exact absurd rfl hrest
    | cons r rs =>
      simp only [List.drop_succ_cons, List.drop_zero, List.mem_cons, List.getElem?_cons_succ,
        List.getElem?_cons_zero, Option.some.injEq] at hno ⊢
      constructor
      · rintro (h | h)
        · exact h.symm
        · exact absurd rfl (hno _ h)
      · intro h
        exact Or.inl h.symm

theorem roundCell_exponent_policy_witness :
    roundCell refEnv 2 "15e-1" = refEnv.formatFloat 2 "15e-1"
      ∧ roundCell refEnv 2 "2.5e+10" = refEnv.formatFloat 2 "2.5" ++ "e+10" :=
  ⟨(roundCell_exponent_policy refEnv 2 "15e-1" "15" "e-1" (by decide) (by decide)
      (by decide)).2.1,
   (roundCell_exponent_policy refEnv 2 "2.5e+10" "2.5" "e+10" (by decide) (by decide)
      (by decide)).2.1⟩

/-- C12. Exponent policy of round: the code departs from it on the cell `1e5-3`.  The
cell matches the numeric-token pattern with mantissa `1` and suffix `e5-3`, which does
not start with a minus sign after its `e`, so the policy asks for the mantissa
reformatted followed by the suffix, `1.00e5-3`.  The test `IndexByte(found[2], '-') > 0`
finds the minus sign further on and takes the branch meant for negative exponents: the
whole cell is reparsed, `strconv.ParseFloat` rejects it, and `round -n 2 -f 1` writes
`0.00`. -/
theorem roundCell_minus_inside_exponent :
    reDigitalsCaptFind "1e5-3" = some ("1", "e5-3")
      ∧ "e5-3".data[1]? ≠ some '-'
      ∧ indexByte "e5-3" '-' = 2
      ∧ readFloat "1e5-3" = none
      ∧ refEnv.formatFloat 2 "1" ++ "e5-3" = "1.00e5-3"
      ∧ roundCell refEnv 2 "1e5-3" = "0.00"
      ∧ roundRun refEnv ⟨"data.csv", 2, false, false, ⟨[1], [], false, false⟩⟩
          [["1e5-3"]] =
        (⟨false, false, false, [1], [1], ["0.00"], [["0.00"]]⟩, none) := by
  decide

/-! ## csv2json: escaping -/

theorem unescapeJSONField_foldl (l acc : List Char) :
    l.foldl (fun s2 r => if r = '"' then (s2 ++ ['\\']) ++ [r] else s2 ++ [r]) acc =
      acc ++ l.flatMap escapeRune := by
  induction l generalizing acc with
  | nil => simp
  | cons r rs ih =>
    rw [List.foldl_cons, ih, List.flatMap_cons]
    by_cases hr : r = '"'
    · subst hr
      simp [escapeRune]
    · simp [escapeRune, hr]

theorem unescapeJSONField_data (s : String) :
    (unescapeJSONField s).data = s.data.flatMap escapeRune := by
  unfold unescapeJSONField
  show List.foldl _ [] s.data = _
  rw [unescapeJSONField_foldl, List.nil_append]

/-- C17. The function `unescapeJSONField` inserts a backslash before each double quote
and changes nothing else: for every string `s` its result is `s` with every double quote
replaced by a backslash followed by that double quote, every other character, backslashes
and control characters included, kept in place; its length is the length of `s` plus the
number of double quotes in `s`, and it equals `s` when `s` has no double quote. -/
theorem unescapeJSONField_spec (s : String) :
    unescapeJSONField s = ⟨s.data.flatMap fun r => if r = '"' then ['\\', '"'] else [r]⟩
      ∧ (unescapeJSONField s).length = s.length + s.data.count '"'
      ∧ ('"' ∉ s.data → unescapeJSONField s = s)
      ∧ unescapeJSONField "a\"b\\c\n" = "a\\\"b\\c\n" := by
  have hdata := unescapeJSONField_data s
  refine ⟨?_, ?_, ?_, by decide⟩
  · apply String.ext
    rw [hdata]
    rfl
  · show (unescapeJSONField s).data.length = s.data.length + s.data.count '"'
    rw [hdata]
    generalize s.data = l
    induction l with
    | nil => rfl
    | cons r rs ih =>
      rw [List.flatMap_cons, List.length_append, ih, List.length_cons, List.count_cons]
      by_cases hr : r = '"'
      · subst hr
        simp [escapeRune]
        omega
      · have : (r == '"') = false := by simpa using hr
        simp [escapeRune, hr, this]
        omega
  · intro hno
    apply String.ext
    rw [hdata]
    generalize s.data = l at hno
    induction l with
    | nil => rfl
    | cons r rs ih =>
      have hr : r ≠ '"' := fun h => hno (by simp [h])
      have hrs : '"' ∉ rs := fun h => hno (List.mem_cons_of_mem _ h)
      rw [List.flatMap_cons, ih hrs]
      simp [escapeRune, hr]

theorem unescapeJSONField_spec_witness : unescapeJSONField "plain" = "plain" :=
  (unescapeJSONField_spec "plain").2.2.1 (by decide)

/-! ## Field validation: its three outcomes -/

theorem selectFields_eq_finalSelection (negativeFields : Bool) (fieldsMap : List Int)
    (w : Nat) :
    selectFields negativeFields fieldsMap (List.range w) =
      finalSelection negativeFields fieldsMap w := by
  rw [selectFields_eq_filter]
  rfl

theorem mem_finalSelection {negativeFields : Bool} {fieldsMap : List Int} {w : Nat} {p : Int} :
    p ∈ finalSelection negativeFields fieldsMap w ↔
      (1 ≤ p ∧ p ≤ (w : Int)) ∧ (if negativeFields then p ∉ fieldsMap else p ∈ fieldsMap) := by
  unfold finalSelection
  rw [List.mem_filter, mem_positions]
  cases negativeFields <;> simp

/-- The validation block in full: the range error when a key of `fieldsMap` exceeds the
width, else `no fields matched` when the selection is empty, else the selection. -/
theorem validateFields_eq (file : String) (negativeFields : Bool) (fieldsMap : List Int)
    (record : Record) (h : ∀ f ∈ fieldsMap, f ≤ (record.length : Int)) :
    validateFields file negativeFields fieldsMap record =
      if finalSelection negativeFields fieldsMap record.length = [] then
        .error (.fatal ("no fields matched in file: " ++ file))
      else .ok (finalSelection negativeFields fieldsMap record.length) := by
  unfold validateFields
  rw [find_out_of_range_none fieldsMap record.length h]
  simp only [selectFields_eq_finalSelection, List.length_eq_zero]

theorem outOfRangeMessage_ne (f : Int) (w : Nat) (file : String) :
    outOfRangeMessage f w file ≠ "no fields matched in file: " ++ file := by
  intro h
  have hd := congrArg String.data h
  unfold outOfRangeMessage at hd
  simp only [String.data_append] at hd
  simp only [List.cons_append, List.cons.injEq] at hd
  exact absurd hd.1 (by decide)

/-- A fuzzy specification none of whose patterns matches a column of the header: the
first record of `round` ends in `no fields matched`. -/
theorem roundStep_fuzzy_no_match (env : Env) (cfg : RoundConfig) (names : List String)
    (header : Record) (hf : cfg.fuzzyFields = true) (hp : cfg.parsed = ⟨[], names, false, true⟩)
    (hno : ∀ col ∈ header, ∀ p ∈ names, env.fuzzyMatch p col = false) :
    roundStep env cfg (roundInit cfg) header =
      .error (.fatal ("no fields matched in file: " ++ cfg.file)) := by
  have hres : resolveColnames false cfg.fuzzyFields false cfg.file
      (buildColnames2fileds header 0 (fun _ => none)) names [] = .ok names := by
    rw [hf, resolveColnames_fuzzy]
    rfl
  have hnil : positionsWhere (colMatches env cfg.fuzzyFields names) header = [] := by
    apply List.eq_nil_iff_forall_not_mem.2
    intro p hmem
    obtain ⟨j, col, hj, hm, _⟩ := mem_positionsWhere.1 hmem
    simp only [colMatches, hf, if_true, List.any_eq_true] at hm
    obtain ⟨pat, hpat, hmatch⟩ := hm
    rw [hno col (List.getElem?_mem hj) pat hpat] at hmatch
    exact absurd hmatch (by simp)
  rw [roundStep_names env cfg names header hp hres, if_pos hnil]

/-- C16. Field validation fails exactly when it should.  On the row where the fields are
validated, the run fails with `field (f) out of range` if and only if some requested
position (a key of `fieldsMap`) exceeds the width of that row; otherwise it fails with
`no fields matched` if and only if the final selection, after negation, is empty;
otherwise it succeeds, with that selection.  In `round` the row is the first record read,
in keyed csv2json the first data row: both run this block while `checkFields` is set.  A
fuzzy pattern matching no column and a negation excluding every column both end in
`no fields matched`. -/
theorem validateFields_fails_exactly_when (file : String) (negativeFields : Bool)
    (fieldsMap : List Int) (record : Record) :
    ((∃ f, validateFields file negativeFields fieldsMap record =
          .error (.fatal (outOfRangeMessage f record.length file))) ↔
        ∃ f ∈ fieldsMap, f > (record.length : Int))
      ∧ ((∃ f ∈ fieldsMap, f > (record.length : Int)) →
          ∃ f ∈ fieldsMap, f > (record.length : Int) ∧
            validateFields file negativeFields fieldsMap record =
              .error (.fatal (outOfRangeMessage f record.length file)))
      ∧ (validateFields file negativeFields fieldsMap record =
          .error (.fatal ("no fields matched in file: " ++ file)) ↔
        (¬ ∃ f ∈ fieldsMap, f > (record.length : Int)) ∧
          finalSelection negativeFields fieldsMap record.length = [])
      ∧ (validateFields file negativeFields fieldsMap record =
          .ok (finalSelection negativeFields fieldsMap record.length) ↔
        (¬ ∃ f ∈ fieldsMap, f > (record.length : Int)) ∧
          finalSelection negativeFields fieldsMap record.length ≠ [])
      ∧ (∀ l, validateFields file negativeFields fieldsMap record = .ok l →
          l = finalSelection negativeFields fieldsMap record.length)
      ∧ (∀ (cfg : RoundConfig) (st : RoundState), st.checkFields = true →
          roundCheckPhase cfg st record =
            match validateFields cfg.file cfg.parsed.negativeFields st.fieldsMap record with
            | .error e => .error e
            | .ok fields2 =>
              .ok { st with fields := fields2, fieldsMap := fields2,
                            record2 := List.replicate record.length "",
                            checkFields := false })
      ∧ (∀ (cfg : Csv2jsonConfig) (st : Csv2jsonState), st.checkFields = true →
          csv2jsonCheckPhase cfg st record =
            match validateFields cfg.file cfg.negativeFields st.fieldsMap record with
            | .error e => .error e
            | .ok fields2 => .ok { st with fields := fields2, checkFields := false })
      ∧ (∀ (env : Env) (cfg : RoundConfig) (names : List String) (header : Record),
          cfg.fuzzyFields = true → cfg.parsed = ⟨[], names, false, true⟩ →
          (∀ col ∈ header, ∀ p ∈ names, env.fuzzyMatch p col = false) →
          roundStep env cfg (roundInit cfg) header =
            .error (.fatal ("no fields matched in file: " ++ cfg.file)))
      ∧ validateFields "data.csv" true [1, 2] ["a", "b"] =
        .error (.fatal "no fields matched in file: data.csv") := by
  by_cases hex : ∃ f ∈ fieldsMap, f > (record.length : Int)
  · obtain ⟨f, hf, hgt, hval⟩ :=
      validateFields_out_of_range file negativeFields fieldsMap record hex
    refine ⟨⟨fun _ => hex, fun _ => ⟨f, hval⟩⟩, fun _ => ⟨f, hf, hgt, hval⟩, ?_, ?_, ?_, ?_, ?_,
      roundStep_fuzzy_no_match, by decide⟩
    · rw [hval]
      constructor
      · intro h
        simp only [Except.error.injEq, Failure.fatal.injEq] at h
        exact absurd h (outOfRangeMessage_ne f record.length file)
      · intro h
        exact absurd hex h.1
    · rw [hval]
      constructor
      · intro h
        simp at h
      · intro h
        exact absurd hex h.1
    · intro l hl
      rw [hval] at hl
      simp at hl
    · intro cfg st hck
      simp [roundCheckPhase, hck]
    · intro cfg st hck
      simp [csv2jsonCheckPhase, hck]
  · have hle : ∀ f ∈ fieldsMap, f ≤ (record.length : Int) := by
      intro f hf
      by_contra hgt
      exact hex ⟨f, hf, by omega⟩
    have hval := validateFields_eq file negativeFields fieldsMap record hle
    refine ⟨⟨?_, fun h => absurd h hex⟩, fun h => absurd h hex, ?_, ?_, ?_, ?_, ?_,
      roundStep_fuzzy_no_match, by decide⟩
    · rintro ⟨f, hf⟩
      rw [hval] at hf
      split at hf
      · simp only [Except.error.injEq, Failure.fatal.injEq] at hf
        exact absurd hf.symm (outOfRangeMessage_ne f record.length file)
      · simp at hf
    · rw [hval]
      constructor
      · intro h
        split at h
        · rename_i hnil
          exact ⟨hex, hnil⟩
        · simp at h
      · intro h
        rw [if_pos h.2]
    · rw [hval]
      constructor
      · intro h
        split at h
        · simp at h
        · rename_i hnil
          exact ⟨hex, hnil⟩
      · intro h
        rw [if_neg h.2]
    · intro l hl
      rw [hval] at hl
      split at hl
      · simp at hl
      · simp only [Except.ok.injEq] at hl
        exact hl.symm
    · intro cfg st hck
      simp [roundCheckPhase, hck]
    · intro cfg st hck
      simp [csv2jsonCheckPhase, hck]

theorem validateFields_fails_exactly_when_witness :
    ∃ f ∈ [2, 7], f > ((["a", "b", "c"] : Record).length : Int) ∧
      validateFields "data.csv" false [2, 7] ["a", "b", "c"] =
        .error (.fatal (outOfRangeMessage f (["a", "b", "c"] : Record).length "data.csv")) :=
  (validateFields_fails_exactly_when "data.csv" false [2, 7] ["a", "b", "c"]).2.1
    ⟨7, by decide, by decide⟩

/-! ## The resolved field list -/

theorem finalSelection_pairwise (negativeFields : Bool) (fieldsMap : List Int) (w : Nat) :
    (finalSelection negativeFields fieldsMap w).Pairwise (· < ·) :=
  (positions_pairwise w).filter _

theorem finalSelection_congr (negativeFields : Bool) {fieldsMap fieldsMap2 : List Int}
    (w : Nat) (h : ∀ p, p ∈ fieldsMap2 ↔ p ∈ fieldsMap) :
    finalSelection negativeFields fieldsMap2 w = finalSelection negativeFields fieldsMap w := by
  unfold finalSelection
  apply List.filter_congr
  intro p _
  have hc : fieldsMap2.contains p = fieldsMap.contains p := by
    rw [Bool.eq_iff_iff]
    simpa using h p
  rw [hc]

/-- A successful validation: no key of `fieldsMap` exceeds the width, and the result is the
final selection, which is not empty. -/
theorem validateFields_ok {file : String} {negativeFields : Bool} {fieldsMap : List Int}
    {record : Record} {l : List Int}
    (h : validateFields file negativeFields fieldsMap record = .ok l) :
    (∀ f ∈ fieldsMap, f ≤ (record.length : Int)) ∧
      l = finalSelection negativeFields fieldsMap record.length ∧ l ≠ [] := by
  have hle : ∀ f ∈ fieldsMap, f ≤ (record.length : Int) := by
    intro f hf
    by_contra hgt
    obtain ⟨g, _, _, hval⟩ :=
      validateFields_out_of_range file negativeFields fieldsMap record ⟨f, hf, by omega⟩
    rw [hval] at h
    simp at h
  rw [validateFields_eq file negativeFields fieldsMap record hle] at h
  split at h
  · simp at h
  · rename_i hne
    simp only [Except.ok.injEq] at h
    subst h
    exact ⟨hle, rfl, hne⟩

theorem validateFields_sortedSet {file : String} {negativeFields : Bool}
    {fieldsMap : List Int} {record : Record} {l : List Int}
    (h : validateFields file negativeFields fieldsMap record = .ok l) :
    SortedSet l record.length := by
  obtain ⟨_, hl, hne⟩ := validateFields_ok h
  have hpw : l.Pairwise (· < ·) := hl ▸ finalSelection_pairwise _ _ _
  refine ⟨hne, hpw, hpw.imp (fun h => ne_of_lt h), ?_⟩
  intro p hp
  rw [hl] at hp
  exact (mem_finalSelection.1 hp).1

theorem colMatches_congr (env : Env) (fuzzyFields : Bool) {keys keys2 : List String}
    (h : ∀ k, k ∈ keys2 ↔ k ∈ keys) (col : String) :
    colMatches env fuzzyFields keys2 col = colMatches env fuzzyFields keys col := by
  unfold colMatches
  rw [Bool.eq_iff_iff]
  cases fuzzyFields
  · simpa using h col
  · simp only [if_true, List.any_eq_true]
    exact ⟨fun ⟨p, hp, hm⟩ => ⟨p, (h p).1 hp, hm⟩, fun ⟨p, hp, hm⟩ => ⟨p, (h p).2 hp, hm⟩⟩

theorem fieldsOfNames_congr (env : Env) (fuzzyFields : Bool) {keys keys2 : List String}
    (h : ∀ k, k ∈ keys2 ↔ k ∈ keys) (c2f : String → Option (List Int)) (header : Record) :
    fieldsOfNames env fuzzyFields keys2 c2f header =
      fieldsOfNames env fuzzyFields keys c2f header := by
  induction header with
  | nil => rfl
  | cons col rest ih =>
    unfold fieldsOfNames
    rw [colMatches_congr env fuzzyFields h col, ih]

theorem roundCells_eq (env : Env) (cfg : RoundConfig) (fieldsMap : List Int)
    (cells : List String) (f : Nat) (pre mid post : List String)
    (hpre : pre.length = f) (hmid : mid.length = cells.length) :
    roundCells env cfg fieldsMap cells f (pre ++ mid ++ post) =
      .ok (pre ++ rewriteRow env cfg fieldsMap cells f ++ post) := by
  induction cells generalizing f pre mid with
  | nil =>
    have : mid = [] := List.length_eq_zero.1 hmid
    subst this
    simp [roundCells, rewriteRow]
  | cons cell rest ih =>
    match mid, hmid with
    | m :: mid1, hmid =>
      have hlt : f < (pre ++ (m :: mid1) ++ post).length := by
        simp only [List.length_append, List.length_cons]
        omega
      unfold roundCells
      rw [if_pos hlt]
      have hset : ∀ v : String, (pre ++ (m :: mid1) ++ post).set f v =
          (pre ++ [v]) ++ mid1 ++ post := by
        intro v
        subst hpre
        simp [List.set_append]
      simp only [hset]
      rw [ih (f + 1) (pre ++ [_]) mid1 (by simp [hpre]) (by simpa using hmid)]
      simp [rewriteRow]

theorem rewriteRow_length (env : Env) (cfg : RoundConfig) (fieldsMap : List Int)
    (cells : List String) (f : Nat) :
    (rewriteRow env cfg fieldsMap cells f).length = cells.length := by
  induction cells generalizing f with
  | nil => rfl
  | cons cell rest ih => simp [rewriteRow, ih]

theorem rewriteRow_getElem? (env : Env) (cfg : RoundConfig) (fieldsMap : List Int)
    (cells : List String) (f i : Nat) (cell : String) (h : cells[i]? = some cell) :
    (rewriteRow env cfg fieldsMap cells f)[i]? =
      some (if fieldsMap.contains (((f + i : Nat) : Int) + 1) || cfg.allFields then
        roundCell env cfg.decimalWidth cell else cell) := by
  induction cells generalizing f i with
  | nil => simp at h
  | cons c rest ih =>
    cases i with
    | zero =>
      simp only [List.getElem?_cons_zero, Option.some.injEq] at h
      subst h
      simp [rewriteRow]
    | succ j =>
      simp only [List.getElem?_cons_succ] at h
      unfold rewriteRow
      rw [List.getElem?_cons_succ, ih (f + 1) j h]
      have : f + 1 + j = f + (j + 1) := by omega
      rw [this]

/-- A data row of the width of the output buffer: the buffer is overwritten cell by cell
and written. -/
theorem roundCells_full (env : Env) (cfg : RoundConfig) (fieldsMap : List Int)
    (record record2 : List String) (h : record.length = record2.length) :
    roundCells env cfg fieldsMap record 0 record2 =
      .ok (rewriteRow env cfg fieldsMap record 0) := by
  have := roundCells_eq env cfg fieldsMap record 0 [] record2 [] rfl h.symm
  simpa using this

/-- The first record of a `round` run that gets past it: the fields were validated on
that record, the header flags are cleared, the output buffer has the record's width, and
what is written is the record itself when it is a header row and the rewritten record
otherwise. -/
theorem roundStep_first {env : Env} {cfg : RoundConfig} {first : Record} {st1 : RoundState}
    (h : roundStep env cfg (roundInit cfg) first = .ok st1) :
    (∃ fieldsMap0, validateFields cfg.file cfg.parsed.negativeFields fieldsMap0 first =
        .ok st1.fieldsMap)
      ∧ st1.fields = st1.fieldsMap ∧ st1.parseHeaderRow = false ∧ st1.checkFields = false
      ∧ st1.parseHeaderRow2 = false ∧ st1.record2.length = first.length
      ∧ st1.written = [if cfg.parsed.needParseHeaderRow then first
          else rewriteRow env cfg st1.fieldsMap first 0] := by
  unfold roundStep at h
  cases hh : roundHeaderPhase env cfg (roundInit cfg) first with
  | error e => rw [hh] at h; simp at h
  | ok sth =>
    rw [hh] at h
    simp only at h
    have hsth : sth.checkFields = true ∧ sth.parseHeaderRow = false ∧
        sth.parseHeaderRow2 = cfg.parsed.needParseHeaderRow ∧ sth.written = [] := by
      unfold roundHeaderPhase at hh
      split at hh
      · split at hh
        · simp at hh
        · simp only [Except.ok.injEq] at hh
          subst hh
          simp [roundInit]
      · rename_i hph
        simp only [Except.ok.injEq] at hh
        subst hh
        refine ⟨rfl, ?_, rfl, rfl⟩
        simpa using hph
    obtain ⟨hck, hph, hph2, hwr⟩ := hsth
    unfold roundCheckPhase at h
    rw [if_pos hck] at h
    cases hv : validateFields cfg.file cfg.parsed.negativeFields sth.fieldsMap first with
    | error e => rw [hv] at h; simp at h
    | ok fields2 =>
      rw [hv] at h
      simp only at h
      unfold roundWritePhase at h
      simp only [hph2] at h
      cases hn : cfg.parsed.needParseHeaderRow with
      | true =>
        rw [hn] at h
        simp only [if_true, Except.ok.injEq] at h
        subst h
        exact ⟨⟨_, hv⟩, rfl, hph, rfl, rfl, by simp, by simp [hwr]⟩
      | false =>
        rw [hn] at h
        simp only [Bool.false_eq_true, if_false] at h
        rw [roundCells_full env cfg fields2 first _ (by simp)] at h
        simp only [Except.ok.injEq] at h
        subst h
        exact ⟨⟨_, hv⟩, rfl, hph, rfl, rfl, by simp [rewriteRow_length], by simp [hwr]⟩

/-- C20. Resolved fields are always a sorted set.  Whatever the keys of `fieldsMap` are
(indices or positions of names, in any order, repeated, from duplicated header names,
positive or negated), when validation succeeds the field list `l` it yields is not empty,
strictly ascending, free of duplicates, and every position `p` of it satisfies
`1 ≤ p ≤ width of the validated row`.  The order and the repetitions of what the user
wrote have no effect: it depends on `fieldsMap` only through its set of keys, and so do
the positions collected from a list of names and the indices made positive.  The list
`round` uses for its rows after its first record, and the list csv2json uses after its
validation, are such lists. -/
theorem resolved_fields_sorted_set (file : String) (negativeFields : Bool)
    (fieldsMap : List Int) (record : Record) (l : List Int)
    (h : validateFields file negativeFields fieldsMap record = .ok l) :
    l ≠ [] ∧ l.Pairwise (· < ·) ∧ l.Nodup ∧ (∀ p ∈ l, 1 ≤ p ∧ p ≤ (record.length : Int))
      ∧ (∀ fieldsMap2 : List Int, (∀ p, p ∈ fieldsMap2 ↔ p ∈ fieldsMap) →
          validateFields file negativeFields fieldsMap2 record = .ok l)
      ∧ (∀ (env : Env) (fuzzyFields : Bool) (keys keys2 : List String)
          (c2f : String → Option (List Int)) (header : Record),
          (∀ k, k ∈ keys2 ↔ k ∈ keys) →
          fieldsOfNames env fuzzyFields keys2 c2f header =
            fieldsOfNames env fuzzyFields keys c2f header)
      ∧ (∀ fields fields2 : List Int, (∀ p, p ∈ fields2 ↔ p ∈ fields) →
          ∀ p, p ∈ normalizeFields negativeFields fields2 ↔
            p ∈ normalizeFields negativeFields fields)
      ∧ (∀ (env : Env) (cfg : RoundConfig) (first : Record) (st1 : RoundState),
          roundStep env cfg (roundInit cfg) first = .ok st1 →
          st1.fields = st1.fieldsMap ∧ SortedSet st1.fieldsMap first.length)
      ∧ (∀ (cfg : Csv2jsonConfig) (st st1 : Csv2jsonState) (row : Record),
          st.checkFields = true → csv2jsonCheckPhase cfg st row = .ok st1 →
          SortedSet st1.fields row.length) := by
  obtain ⟨hne, hpw, hnd, hb⟩ := validateFields_sortedSet h
  obtain ⟨hle, hl, _⟩ := validateFields_ok h
  refine ⟨hne, hpw, hnd, hb, ?_, ?_, ?_, ?_, ?_⟩
  · intro fieldsMap2 hmem
    have hle2 : ∀ f ∈ fieldsMap2, f ≤ (record.length : Int) :=
      fun f hf => hle f ((hmem f).1 hf)
    rw [validateFields_eq file negativeFields fieldsMap2 record hle2,
      finalSelection_congr negativeFields record.length hmem, ← hl, if_neg hne]
  · intro env fuzzyFields keys keys2 c2f header hmem
    exact fieldsOfNames_congr env fuzzyFields hmem c2f header
  · intro fields fields2 hmem p
    unfold normalizeFields
    simp only [List.mem_map]
    exact ⟨fun ⟨a, ha, hp⟩ => ⟨a, (hmem a).1 ha, hp⟩, fun ⟨a, ha, hp⟩ => ⟨a, (hmem a).2 ha, hp⟩⟩
  · intro env cfg first st1 hst
    obtain ⟨⟨fm0, hv⟩, hf, _⟩ := roundStep_first hst
    exact ⟨hf, validateFields_sortedSet hv⟩
  · intro cfg st st1 row hck hst
    unfold csv2jsonCheckPhase at hst
    rw [if_pos hck] at hst
    cases hv : validateFields cfg.file cfg.negativeFields st.fieldsMap row with
    | error e => rw [hv] at hst; simp at hst
    | ok fields2 =>
      rw [hv] at hst
      simp only [Except.ok.injEq] at hst
      subst hst
      exact validateFields_sortedSet hv

theorem resolved_fields_sorted_set_witness :
    ([2, 3] : List Int) ≠ [] ∧ [(2 : Int), 3].Pairwise (· < ·) ∧
      validateFields "data.csv" false [2, 3, 2] ["a", "b", "c"] = .ok [2, 3] :=
  have h := resolved_fields_sorted_set "data.csv" false [3, 2, 3] ["a", "b", "c"] [2, 3]
    (by decide)
  ⟨h.1, h.2.1, h.2.2.2.2.1 [2, 3, 2] (fun p => by
    simp only [List.mem_cons, List.mem_nil_iff, or_false]
    tauto)⟩

/-! ## round: the cells left alone -/

/-- A data row after the first record, of the width of the output buffer: it is written
rewritten, and nothing else of the state changes but the buffer. -/
theorem roundStep_data_row (env : Env) (cfg : RoundConfig) (st : RoundState) (row : Record)
    (hph : st.parseHeaderRow = false) (hck : st.checkFields = false)
    (hph2 : st.parseHeaderRow2 = false) (hw : row.length = st.record2.length) :
    roundStep env cfg st row =
      .ok { st with record2 := rewriteRow env cfg st.fieldsMap row 0
                    written := st.written ++ [rewriteRow env cfg st.fieldsMap row 0] } := by
  unfold roundStep roundHeaderPhase
  simp only [hph, Bool.false_eq_true, if_false]
  unfold roundCheckPhase
  simp only [hck, Bool.false_eq_true, if_false]
  unfold roundWritePhase
  simp only [hph2, Bool.false_eq_true, if_false]
  rw [roundCells_full env cfg st.fieldsMap row st.record2 hw]
  simp [hph, hck]

theorem roundLoop_data_rows (env : Env) (cfg : RoundConfig) (w : Nat) (rows : List Record)
    (hrows : ∀ r ∈ rows, r.length = w) (st : RoundState)
    (hph : st.parseHeaderRow = false) (hck : st.checkFields = false)
    (hph2 : st.parseHeaderRow2 = false) (hw : st.record2.length = w) :
    (roundLoop env cfg st rows).2 = none ∧
      (roundLoop env cfg st rows).1.fieldsMap = st.fieldsMap ∧
      (roundLoop env cfg st rows).1.written =
        st.written ++ rows.map fun r => rewriteRow env cfg st.fieldsMap r 0 := by
  induction rows generalizing st with
  | nil => simp [roundLoop]
  | cons r rest ih =>
    have hr : r.length = st.record2.length := by
      rw [hw]
      exact hrows r (List.mem_cons_self _ _)
    unfold roundLoop
    rw [roundStep_data_row env cfg st r hph hck hph2 hr]
    simp only
    have := ih (fun x hx => hrows x (List.mem_cons_of_mem _ hx))
      { st with record2 := rewriteRow env cfg st.fieldsMap r 0
                written := st.written ++ [rewriteRow env cfg st.fieldsMap r 0] }
      hph hck hph2 (by rw [rewriteRow_length]; exact hrows r (List.mem_cons_self _ _))
    obtain ⟨h1, h2, h3⟩ := this
    refine ⟨h1, h2, ?_⟩
    rw [h3]
    simp

/-- C19. The command `round` touches only selected cells.  Take a run whose first record
`first` is accepted (state `st1`, resolved field set `st1.fieldsMap`), with all-fields
off, and later rows `rows` that all have the width of the first row.  Then the run
completes; when a header row is parsed it is written unchanged; every data row `r` is
written as `rewriteRow ... r`, which has the same number of cells as `r`, whose cell at
a position outside the resolved field set is the input cell, and whose selected cell is
the input cell when that cell does not match the numeric-token pattern. -/
theorem round_touches_only_selected (env : Env) (cfg : RoundConfig) (first : Record)
    (rows : List Record) (st1 : RoundState) (hall : cfg.allFields = false)
    (hfirst : roundStep env cfg (roundInit cfg) first = .ok st1)
    (hrows : ∀ r ∈ rows, r.length = first.length) :
    (roundRun env cfg (first :: rows)).2 = none
      ∧ (roundRun env cfg (first :: rows)).1.written =
          (if cfg.parsed.needParseHeaderRow then first
            else rewriteRow env cfg st1.fieldsMap first 0) ::
          rows.map (fun r => rewriteRow env cfg st1.fieldsMap r 0)
      ∧ ∀ r : Record,
          (rewriteRow env cfg st1.fieldsMap r 0).length = r.length
          ∧ ∀ (i : Nat) (cell : String), r[i]? = some cell →
              (((i : Int) + 1) ∉ st1.fieldsMap →
                (rewriteRow env cfg st1.fieldsMap r 0)[i]? = some cell)
              ∧ (reDigitalsCaptFind cell = none →
                (rewriteRow env cfg st1.fieldsMap r 0)[i]? = some cell)
              ∧ ((rewriteRow env cfg st1.fieldsMap r 0)[i]? =
                  some (if ((i : Int) + 1) ∈ st1.fieldsMap then
                    roundCell env cfg.decimalWidth cell else cell)) := by
  obtain ⟨_, _, hph, hck, hph2, hw, hwr⟩ := roundStep_first hfirst
  obtain ⟨h1, _, h3⟩ := roundLoop_data_rows env cfg first.length rows hrows st1 hph hck hph2 hw
  have hrun : roundRun env cfg (first :: rows) = roundLoop env cfg st1 rows := by
    show roundLoop env cfg (roundInit cfg) (first :: rows) = _
    rw [roundLoop, hfirst]
  refine ⟨by rw [hrun]; exact h1, ?_, ?_⟩
  · rw [hrun, h3, hwr]
    rfl
  · intro r
    refine ⟨rewriteRow_length env cfg st1.fieldsMap r 0, ?_⟩
    intro i cell hcell
    have hget := rewriteRow_getElem? env cfg st1.fieldsMap r 0 i cell hcell
    rw [hall, Bool.or_false, Nat.zero_add] at hget
    refine ⟨?_, ?_, ?_⟩
    · intro hout
      have : st1.fieldsMap.contains ((i : Int) + 1) = false := by simpa using hout
      rw [hget, this]
      rfl
    · intro hno
      rw [hget]
      have : roundCell env cfg.decimalWidth cell = cell := by
        unfold roundCell
        rw [hno]
      rw [this, ite_self]
    · rw [hget]
      by_cases hin : ((i : Int) + 1) ∈ st1.fieldsMap
      · have : st1.fieldsMap.contains ((i : Int) + 1) = true := by simpa using hin
        rw [this, if_pos hin]
        rfl
      · have : st1.fieldsMap.contains ((i : Int) + 1) = false := by simpa using hin
        rw [this, if_neg hin]
        rfl

theorem round_touches_only_selected_witness :
    (roundRun refEnv ⟨"data.csv", 2, false, false, ⟨[2], [], false, true⟩⟩
        [["name", "x"], ["3.14159", "3.14159"], ["abc", "n/a"]]).1.written =
      [["name", "x"], ["3.14159", "3.14"], ["abc", "n/a"]] :=
  (round_touches_only_selected refEnv ⟨"data.csv", 2, false, false, ⟨[2], [], false, true⟩⟩
    ["name", "x"] [["3.14159", "3.14159"], ["abc", "n/a"]]
    ⟨false, false, false, [2], [2], ["", ""], [["name", "x"]]⟩ rfl (by decide)
    (by decide)).2.1.trans (by decide)

/-! ## Duplicated column names -/

theorem lenAt_colnames2fileds (header : Record) (col : String) :
    lenAt (buildColnames2fileds header 0 (fun _ => none)) col = header.count col := by
  unfold lenAt
  rw [buildColnames2fileds_apply]
  by_cases h : occurrences col header 0 = []
  · have := occurrences_length col header 0
    rw [h] at this
    simp [h, ← this]
  · simp [h, occurrences_length]

/-- C14. Duplicate column names are rejected for a JSON key and accepted for plain
selection.  For every header row `header` and every name `c` that occurs at two or more
positions of it: resolving `c` as the csv2json key fails with the error
`the selected colname is duplicated in the input data`, so the run stops at the header
row; resolving `c` as the (non-fuzzy) field of `round` succeeds, and the fields selected
are exactly the positions of `c` in the header, in ascending order. -/
theorem duplicate_column_names (env : Env) (c : String) (header : Record)
    (hdup : 2 ≤ header.count c) :
    (∀ file : String, parseHeader env true false false file [c] [] header =
        .error (.fatal ("the selected colname is duplicated in the input data: " ++ c)))
      ∧ (∀ (cfg : Csv2jsonConfig) (pn : Bool × List Int) (rest : List Record),
          cfg.fieldStr ≠ "" → cfg.parsed = ⟨[], [c], false, true⟩ →
          parseNumLoop env cfg.parseNumFlags [] = .ok pn →
          csv2jsonRun env cfg (some (header :: rest)) =
            ⟨["\x7b", cfg.LF], [],
              some (.fatal ("the selected colname is duplicated in the input data: " ++ c))⟩)
      ∧ (∀ cfg : RoundConfig, cfg.fuzzyFields = false →
          cfg.parsed = ⟨[], [c], false, true⟩ →
          roundStep env cfg (roundInit cfg) header =
            .ok { parseHeaderRow := false
                  parseHeaderRow2 := false
                  checkFields := false
                  fields := positionsWhere (fun col => col == c) header
                  fieldsMap := positionsWhere (fun col => col == c) header
                  record2 := List.replicate header.length ""
                  written := [header] })
      ∧ (positionsWhere (fun col => col == c) header).Pairwise (· < ·)
      ∧ (∀ p : Int, p ∈ positionsWhere (fun col => col == c) header ↔
          ∃ j : Nat, header[j]? = some c ∧ p = (j : Int) + 1) := by
  have hin : c ∈ header := List.count_pos_iff.1 (by omega)
  have hsome : (buildColnames2fileds header 0 (fun _ => none) c).isNone = false := by
    cases hx : (buildColnames2fileds header 0 (fun _ => none) c).isNone with
    | false => rfl
    | true => exact absurd hin ((colnames2fileds_isNone header c).1 hx)
  have hlen : lenAt (buildColnames2fileds header 0 (fun _ => none)) c > 1 := by
    rw [lenAt_colnames2fileds]
    omega
  have hres : ∀ file : String, resolveColnames true false false file
      (buildColnames2fileds header 0 (fun _ => none)) [c] [] =
      .error (.fatal ("the selected colname is duplicated in the input data: " ++ c)) := by
    intro file
    simp [resolveColnames, hsome, hlen]
  refine ⟨?_, ?_, ?_, positionsWhere_pairwise _ _, ?_⟩
  · intro file
    unfold parseHeader
    simp only [hres]
  · intro cfg pn rest hk hp hpn
    have hkeyed : cfg.keyed = true := by simp [Csv2jsonConfig.keyed, hk]
    obtain ⟨pnAll, pnCols⟩ := pn
    simp [csv2jsonRun, hpn, csv2jsonKey, hkeyed, hp, csv2jsonLoop, csv2jsonStep,
      csv2jsonHeaderPhase, csv2jsonInit, parseHeader, Csv2jsonConfig.negativeFields,
      Csv2jsonConfig.colnames, hres]
  · intro cfg hf hp
    have hpres : resolveColnames false cfg.fuzzyFields false cfg.file
        (buildColnames2fileds header 0 (fun _ => none)) [c] [] = .ok [c] := by
      rw [hf]
      exact resolveColnames_present cfg.file _ [c] []
        (fun x hx => by rw [List.mem_singleton.1 hx]; exact hsome)
    have hcongr : positionsWhere (colMatches env cfg.fuzzyFields [c]) header =
        positionsWhere (fun col => col == c) header := by
      apply positionsWhere_congr
      intro col _
      by_cases hc : col = c <;> simp [colMatches, hf, hc]
    rw [roundStep_names env cfg [c] header hp hpres, hcongr,
      if_neg (positionsWhere_ne_nil hin (by simp))]
  · intro p
    rw [mem_positionsWhere]
    constructor
    · rintro ⟨j, col, hj, hc, hp⟩
      have : col = c := by simpa using hc
      subst this
      exact ⟨j, hj, hp⟩
    · rintro ⟨j, hj, hp⟩
      exact ⟨j, c, hj, by simp, hp⟩

theorem duplicate_column_names_witness :
    roundStep refEnv ⟨"data.csv", 2, false, false, ⟨[], ["x"], false, true⟩⟩
        (roundInit ⟨"data.csv", 2, false, false, ⟨[], ["x"], false, true⟩⟩) ["x", "id", "x"] =
      .ok ⟨false, false, false, [1, 3], [1, 3], ["", "", ""], [["x", "id", "x"]]⟩ :=
  ((duplicate_column_names refEnv "x" ["x", "id", "x"] (by decide)).2.2.1
    ⟨"data.csv", 2, false, false, ⟨[], ["x"], false, true⟩⟩ rfl rfl).trans (by decide)

/-! ## csv2json: an empty input file -/

/-- C15. Empty input yields an empty JSON structure.  When the input file is reported
empty (input `none`) and the flags are accepted (the numeric-column flags and the key
specification raise no error before the file is opened), csv2json writes the opening and
the closing bracket and nothing else: exactly `[]` and a newline when no key is given,
exactly the two braces and a newline when a key is given; it logs a warning and finishes
without a failure. -/
theorem csv2json_empty_input (env : Env) (cfg : Csv2jsonConfig) (pn : Bool × List Int)
    (kf : List Int × Bool) (hpn : parseNumLoop env cfg.parseNumFlags [] = .ok pn)
    (hkey : csv2jsonKey cfg = .ok kf) :
    (csv2jsonRun env cfg none).failure = none
      ∧ (csv2jsonRun env cfg none).text = (if cfg.fieldStr = "" then "[]\n" else "\x7b\x7d\n")
      ∧ (csv2jsonRun env cfg none).out =
          (if cfg.fieldStr = "" then ["[", "]\n"] else ["\x7b", "\x7d\n"])
      ∧ (csv2jsonRun env cfg none).warnings =
          ["csvtk csv2json: skipping empty input file: " ++ cfg.file] := by
  obtain ⟨pnAll, pnCols⟩ := pn
  obtain ⟨fields, ph⟩ := kf
  have hrun : csv2jsonRun env cfg none =
      ⟨[if cfg.keyed then "\x7b" else "[", if cfg.keyed then "\x7d\n" else "]\n"],
        ["csvtk csv2json: skipping empty input file: " ++ cfg.file], none⟩ := by
    unfold csv2jsonRun
    rw [hpn, hkey]
  rw [hrun]
  by_cases hk : cfg.fieldStr = ""
  · have hkeyed : cfg.keyed = false := by simp [Csv2jsonConfig.keyed, hk]
    simp only [hkeyed, hk, if_true, Bool.false_eq_true, if_false, Csv2jsonResult.text]
    exact ⟨trivial, by decide, trivial, trivial⟩
  · have hkeyed : cfg.keyed = true := by simp [Csv2jsonConfig.keyed, hk]
    simp only [hkeyed, hk, if_true, if_false, Csv2jsonResult.text]
    exact ⟨trivial, by decide, trivial, trivial⟩

theorem csv2json_empty_input_witness :
    (csv2jsonRun refEnv ⟨"data.csv", false, false, [], "  ", "id", ⟨[], ["id"], false, true⟩⟩
      none).text = "\x7b\x7d\n" :=
  (csv2json_empty_input refEnv ⟨"data.csv", false, false, [], "  ", "id",
    ⟨[], ["id"], false, true⟩⟩ (false, []) ([], true) (by decide) (by decide)).2.1

/-! ## csv2json: the comma after the last pair of an object -/

theorem objectChunks_append (env : Env) (cfg : Csv2jsonConfig) (parseNumAll : Bool)
    (parseNumCols : List Int) (record : Record) (cols1 cols2 : List String) (i : Nat) :
    objectChunks env cfg parseNumAll parseNumCols record (cols1 ++ cols2) i =
      objectChunks env cfg parseNumAll parseNumCols record cols1 i ++
        objectChunks env cfg parseNumAll parseNumCols record cols2 (i + cols1.length) := by
  induction cols1 generalizing i with
  | nil => simp [objectChunks]
  | cons c rest ih =>
    have h := ih (i + 1)
    have e : i + (c :: rest).length = i + 1 + rest.length := by
      rw [List.length_cons]
      omega
    rw [e]
    simp only [List.cons_append, objectChunks, List.append_eq, h]

/-- C18. Emitted JSON objects have no trailing comma: this fails for a data row wider
than the header.  In header mode the comma after a pair is decided by
`i < len(record)-1`, the width of the data row, while the pairs are those of the header.
So for every header row ending in the name `lastCol` and every data row `row` with more
cells than the header, the element is emitted in full and its last pair is followed by
a comma, right before the closing brace.  The run on the header `a` and the row `1`, `2`
writes an object whose only pair is followed by a comma. -/
theorem csv2json_wide_row_trailing_comma (env : Env) (cfg : Csv2jsonConfig)
    (parseNumAll : Bool) (parseNumCols : List Int) (header row : Record) (key lastCol : String)
    (first parseNum : Bool) (out : List String)
    (hhdr : cfg.NoHeaderRow = false) (hinv : parseNum = true → parseNumAll = true)
    (hlast : header.getLast? = some lastCol) (hwide : header.length < row.length) :
    (emitElement env cfg parseNumAll parseNumCols header key first parseNum row out).failure
        = none
      ∧ ∃ body : List String,
        (emitElement env cfg parseNumAll parseNumCols header key first parseNum row out).out =
          body ++
            [cfg.indent ++ cfg.indent ++ "\"" ++ unescapeJSONField lastCol ++ "\":" ++ cfg.SEP ++
                processJSONValue env ((row[header.length - 1]?).getD "") cfg.blanks
                  (numericColumn parseNumAll parseNumCols (header.length - 1)) ++
                "," ++ cfg.LF,
              cfg.indent ++ "\x7d"] := by
  obtain ⟨pn2, _, hem⟩ := emitElement_eq env cfg parseNumAll parseNumCols header key first
    parseNum row out hinv (fun _ => by omega)
  rw [hem]
  refine ⟨rfl, ?_⟩
  have hsplit : header = header.dropLast ++ [lastCol] :=
    (List.dropLast_append_getLast? lastCol (by simpa using hlast)).symm
  have hlen : header.dropLast.length = header.length - 1 := List.length_dropLast header
  have hpos : 0 < header.length := by
    cases header with
    | nil => simp at hlast
    | cons _ _ => simp
  have hlt : ((header.length - 1 : Nat) : Int) < (row.length : Int) - 1 := by omega
  have hchunks : objectChunks env cfg parseNumAll parseNumCols row header 0 =
      objectChunks env cfg parseNumAll parseNumCols row header.dropLast 0 ++
        [cfg.indent ++ cfg.indent ++ "\"" ++ unescapeJSONField lastCol ++ "\":" ++ cfg.SEP ++
          processJSONValue env ((row[header.length - 1]?).getD "") cfg.blanks
            (numericColumn parseNumAll parseNumCols (header.length - 1)) ++ "," ++ cfg.LF] := by
    conv_lhs => rw [hsplit]
    rw [objectChunks_append, hlen]
    simp only [objectChunks, if_pos hlt, Nat.zero_add]
  have hsep : ∀ (e tail : List String),
      appendElements ("," ++ cfg.LF) first [e ++ tail] =
        appendElements ("," ++ cfg.LF) first [e] ++ tail := by
    intro e tail
    cases first <;> simp [appendElements]
  refine ⟨out ++ appendElements ("," ++ cfg.LF) first
    [[if cfg.keyed then cfg.indent ++ "\"" ++ key ++ "\":" ++ cfg.SEP ++ "\x7b" ++ cfg.LF
      else cfg.indent ++ "\x7b" ++ cfg.LF] ++
      objectChunks env cfg parseNumAll parseNumCols row header.dropLast 0], ?_⟩
  rw [List.append_assoc, ← hsep]
  unfold elementChunks
  simp only [hhdr, Bool.not_false, if_true, hchunks, List.append_assoc, List.singleton_append]
  simp

theorem csv2json_wide_row_trailing_comma_witness :
    (csv2jsonRun refEnv ⟨"data.csv", false, false, [], "", "", ⟨[], [], false, false⟩⟩
        (some [["a"], ["1", "2"]])) =
      ⟨["[", "", "\x7b", "\"a\":\"1\",", "\x7d", "", "]\n"], [], none⟩
    ∧ (csv2jsonRun refEnv ⟨"data.csv", false, false, [], "", "", ⟨[], [], false, false⟩⟩
        (some [["a"], ["1", "2"]])).text = "[\x7b\"a\":\"1\",\x7d]\n"
    ∧ ∃ body : List String,
        (emitElement refEnv ⟨"data.csv", false, false, [], "", "", ⟨[], [], false, false⟩⟩
          false [] ["a"] "" true false ["1", "2"] ["[", ""]).out =
        body ++ ["\"a\":\"1\",", "\x7d"] :=
  ⟨by decide, by decide,
   (csv2json_wide_row_trailing_comma refEnv
      ⟨"data.csv", false, false, [], "", "", ⟨[], [], false, false⟩⟩ false [] ["a"] ["1", "2"]
      "" "a" true false ["[", ""] rfl (by decide) rfl (by decide)).2⟩

/-! ## csv2json: the output under an empty indent -/

theorem noBlank_append (a b : String) : noBlank (a ++ b) = (noBlank a && noBlank b) := by
  unfold noBlank
  rw [String.data_append, List.all_append]

theorem noBlank_join (l : List String) (h : ∀ s ∈ l, noBlank s = true) :
    noBlank (String.join l) = true := by
  unfold noBlank
  rw [String.data_join, List.all_eq_true]
  intro c hc
  obtain ⟨d, hd, hcd⟩ := List.mem_flatten.1 hc
  obtain ⟨s, hs, rfl⟩ := List.mem_map.1 hd
  have := h s hs
  unfold noBlank at this
  exact List.all_eq_true.1 this c hcd

theorem noBlank_unescapeJSONField (s : String) (h : noBlank s = true) :
    noBlank (unescapeJSONField s) = true := by
  unfold noBlank at h ⊢
  rw [unescapeJSONField_data, List.all_eq_true]
  intro c hc
  obtain ⟨r, hr, hcr⟩ := List.mem_flatMap.1 hc
  have hrok := List.all_eq_true.1 h r hr
  unfold escapeRune at hcr
  split at hcr
  · rcases List.mem_cons.1 hcr with h1 | h1
    · subst h1; decide
    · rw [List.mem_singleton.1 h1]; decide
  · rw [List.mem_singleton.1 hcr]
    exact hrok

theorem noBlank_processJSONValue (env : Env) (val : String) (blanks parseNum : Bool)
    (h : noBlank val = true) : noBlank (processJSONValue env val blanks parseNum) = true := by
  have hq : noBlank "\"" = true := by decide
  unfold processJSONValue
  simp only
  split
  · decide
  · split
    · decide
    · split
      · cases blanks <;> decide
      · split
        · exact h
        · simp [noBlank_append, h, hq]

theorem LF_of_empty_indent (cfg : Csv2jsonConfig) (h : cfg.indent = "") : cfg.LF = "" := by
  simp [Csv2jsonConfig.LF, h]

theorem SEP_of_empty_indent (cfg : Csv2jsonConfig) (h : cfg.indent = "") : cfg.SEP = "" := by
  simp [Csv2jsonConfig.SEP, h]

theorem indexRecord_mem {record : Record} {i : Int} {v : String}
    (h : indexRecord record i = .ok v) : v ∈ record := by
  unfold indexRecord at h
  split at h
  · cases hr : record[i.toNat]? with
    | none => rw [hr] at h; simp at h
    | some w =>
      rw [hr] at h
      simp only [Except.ok.injEq] at h
      subst h
      exact List.getElem?_mem hr
  · simp at h

theorem fillItems_mem {record : Record} {fs : List Int} {items : List String}
    (h : fillItems record fs = .ok items) : ∀ v ∈ items, v ∈ record := by
  induction fs generalizing items with
  | nil =>
    simp only [fillItems, Except.ok.injEq] at h
    subst h
    simp
  | cons f fs ih =>
    unfold fillItems at h
    cases h1 : indexRecord record (f - 1) with
    | error e => rw [h1] at h; simp at h
    | ok v =>
      rw [h1] at h
      cases h2 : fillItems record fs with
      | error e => rw [h2] at h; simp at h
      | ok rest =>
        rw [h2] at h
        simp only [Except.ok.injEq] at h
        subst h
        intro x hx
        rcases List.mem_cons.1 hx with hx | hx
        · subst hx; exact indexRecord_mem h1
        · exact ih h2 x hx

theorem objectColumns_noBlank (env : Env) (cfg : Csv2jsonConfig) (parseNumAll : Bool)
    (parseNumCols : List Int) (record : Record) (hindent : cfg.indent = "")
    (hrec : ∀ c ∈ record, noBlank c = true) (cols : List String)
    (hcols : ∀ c ∈ cols, noBlank c = true) (i : Nat) (parseNum : Bool) (out : List String)
    (hout : ∀ s ∈ out, noBlank s = true) :
    ∀ s ∈ (objectColumns env cfg parseNumAll parseNumCols record cols i parseNum out).out,
      noBlank s = true := by
  induction cols generalizing i parseNum out with
  | nil => simpa [objectColumns] using hout
  | cons col rest ih =>
    unfold objectColumns
    simp only
    cases hx : indexRecord record i with
    | error e => simpa using hout
    | ok cell =>
      simp only
      apply ih (fun c hc => hcols c (List.mem_cons_of_mem _ hc))
      intro s hs
      rcases List.mem_append.1 hs with hs | hs
      · exact hout s hs
      · rw [List.mem_singleton.1 hs]
        have h1 := noBlank_unescapeJSONField col (hcols col (List.mem_cons_self _ _))
        have h2 := noBlank_processJSONValue env cell cfg.blanks
          (nextParseNum parseNumAll parseNumCols i parseNum) (hrec cell (indexRecord_mem hx))
        have hq : noBlank "\"" = true := by decide
        have hc : noBlank "\":" = true := by decide
        have hm : noBlank "," = true := by decide
        have he : noBlank "" = true := by decide
        split <;>
          simp [noBlank_append, hindent, LF_of_empty_indent cfg hindent,
            SEP_of_empty_indent cfg hindent, h1, h2, hq, hc, hm, he]

theorem arrayColumns_noBlank (cfg : Csv2jsonConfig) (parseNumAll : Bool)
    (parseNumCols : List Int) (len : Nat) (hindent : cfg.indent = "") (cells : List String)
    (hcells : ∀ c ∈ cells, noBlank c = true) (i : Nat) (parseNum : Bool) (out : List String)
    (hout : ∀ s ∈ out, noBlank s = true) :
    ∀ s ∈ (arrayColumns cfg parseNumAll parseNumCols len cells i parseNum out).out,
      noBlank s = true := by
  induction cells generalizing i parseNum out with
  | nil => simpa [arrayColumns] using hout
  | cons col rest ih =>
    unfold arrayColumns
    simp only
    apply ih (fun c hc => hcells c (List.mem_cons_of_mem _ hc))
    intro s hs
    rcases List.mem_append.1 hs with hs | hs
    · exact hout s hs
    · rw [List.mem_singleton.1 hs]
      have h1 := noBlank_unescapeJSONField col (hcells col (List.mem_cons_self _ _))
      have hq : noBlank "\"" = true := by decide
      have hm : noBlank "," = true := by decide
      have he : noBlank "" = true := by decide
      split <;>
        simp [noBlank_append, hindent, LF_of_empty_indent cfg hindent, h1, hq, hm, he]

theorem emitElement_noBlank (env : Env) (cfg : Csv2jsonConfig) (parseNumAll : Bool)
    (parseNumCols : List Int) (HeaderRow : Record) (key : String) (first parseNum : Bool)
    (record : Record) (out : List String) (hindent : cfg.indent = "")
    (hhdr : ∀ c ∈ HeaderRow, noBlank c = true) (hrec : ∀ c ∈ record, noBlank c = true)
    (hkey : noBlank key = true) (hout : ∀ s ∈ out, noBlank s = true) :
    ∀ s ∈ (emitElement env cfg parseNumAll parseNumCols HeaderRow key first parseNum
      record out).out, noBlank s = true := by
  have hq : noBlank "\"" = true := by decide
  have hc : noBlank "\":" = true := by decide
  have hm : noBlank "," = true := by decide
  have he : noBlank "" = true := by decide
  have hb1 : noBlank "\x7b" = true := by decide
  have hb2 : noBlank "\x7d" = true := by decide
  have hb3 : noBlank "[" = true := by decide
  have hb4 : noBlank "]" = true := by decide
  have hLF := LF_of_empty_indent cfg hindent
  have hSEP := SEP_of_empty_indent cfg hindent
  have hout1 : ∀ s ∈ (if first then out else out ++ ["," ++ cfg.LF]), noBlank s = true := by
    intro s hs
    cases first
    · simp only [Bool.false_eq_true, if_false, List.mem_append, List.mem_singleton] at hs
      rcases hs with hs | hs
      · exact hout s hs
      · rw [hs]; simp [noBlank_append, hLF, hm, he]
    · exact hout s (by simpa using hs)
  unfold emitElement
  simp only
  by_cases hnh : cfg.NoHeaderRow = true
  · simp only [hnh, Bool.not_true, Bool.false_eq_true, if_false]
    have hout2 : ∀ s ∈ (if cfg.keyed then
        (if first then out else out ++ ["," ++ cfg.LF]) ++
          [cfg.indent ++ "\"" ++ key ++ "\":" ++ cfg.SEP ++ "[" ++ cfg.LF]
        else (if first then out else out ++ ["," ++ cfg.LF]) ++ [cfg.indent ++ "[" ++ cfg.LF]),
        noBlank s = true := by
      intro s hs
      split at hs <;> rcases List.mem_append.1 hs with hs | hs
      · exact hout1 s hs
      · rw [List.mem_singleton.1 hs]
        simp [noBlank_append, hindent, hLF, hSEP, hq, hc, he, hb3, hkey]
      · exact hout1 s hs
      · rw [List.mem_singleton.1 hs]
        simp [noBlank_append, hindent, hLF, he, hb3]
    have hr := arrayColumns_noBlank cfg parseNumAll parseNumCols record.length hindent record
      hrec 0 parseNum _ hout2
    generalize arrayColumns cfg parseNumAll parseNumCols record.length record 0 parseNum _ = r
      at hr ⊢
    obtain ⟨o, p, f⟩ := r
    cases f with
    | some e => exact hr
    | none =>
      intro s hs
      rcases List.mem_append.1 hs with hs | hs
      · exact hr s hs
      · rw [List.mem_singleton.1 hs]
        simp [noBlank_append, hindent, he, hb4]
  · have hnh2 : cfg.NoHeaderRow = false := by simpa using hnh
    simp only [hnh2, Bool.not_false, if_true]
    have hout2 : ∀ s ∈ (if cfg.keyed then
        (if first then out else out ++ ["," ++ cfg.LF]) ++
          [cfg.indent ++ "\"" ++ key ++ "\":" ++ cfg.SEP ++ "\x7b" ++ cfg.LF]
        else (if first then out else out ++ ["," ++ cfg.LF]) ++
          [cfg.indent ++ "\x7b" ++ cfg.LF]),
        noBlank s = true := by
      intro s hs
      split at hs <;> rcases List.mem_append.1 hs with hs | hs
      · exact hout1 s hs
      · rw [List.mem_singleton.1 hs]
        simp [noBlank_append, hindent, hLF, hSEP, hq, hc, he, hb1, hkey]
      · exact hout1 s hs
      · rw [List.mem_singleton.1 hs]
        simp [noBlank_append, hindent, hLF, he, hb1]
    have hr := objectColumns_noBlank env cfg parseNumAll parseNumCols record hindent hrec
      HeaderRow hhdr 0 parseNum _ hout2
    generalize objectColumns env cfg parseNumAll parseNumCols record HeaderRow 0 parseNum _ = r
      at hr ⊢
    obtain ⟨o, p, f⟩ := r
    cases f with
    | some e => exact hr
    | none =>
      intro s hs
      rcases List.mem_append.1 hs with hs | hs
      · exact hr s hs
      · rw [List.mem_singleton.1 hs]
        simp [noBlank_append, hindent, he, hb2]

theorem csv2jsonCheckPhase_frame {cfg : Csv2jsonConfig} {st st1 : Csv2jsonState}
    {record : Record} (h : csv2jsonCheckPhase cfg st record = .ok st1) :
    st1.out = st.out ∧ st1.HeaderRow = st.HeaderRow := by
  unfold csv2jsonCheckPhase at h
  split at h
  · split at h
    · simp at h
    · simp only [Except.ok.injEq] at h
      subst h
      exact ⟨rfl, rfl⟩
  · simp only [Except.ok.injEq] at h
    subst h
    exact ⟨rfl, rfl⟩

theorem csv2jsonEmitPhase_noBlank (env : Env) (cfg : Csv2jsonConfig) (parseNumAll : Bool)
    (parseNumCols : List Int) (st1 : Csv2jsonState) (record : Record)
    (hindent : cfg.indent = "") (hrec : ∀ c ∈ record, noBlank c = true)
    (hout : ∀ s ∈ st1.out, noBlank s = true)
    (hhdr : ∀ c ∈ st1.HeaderRow, noBlank c = true) :
    (∀ s ∈ (csv2jsonEmitPhase env cfg parseNumAll parseNumCols st1 record).1.out,
        noBlank s = true) ∧
      (csv2jsonEmitPhase env cfg parseNumAll parseNumCols st1 record).1.HeaderRow =
        st1.HeaderRow := by
  unfold csv2jsonEmitPhase
  cases hfill : fillItems record st1.fields with
  | error e => exact ⟨hout, rfl⟩
  | ok items =>
    simp only
    cases hk : cfg.keyed with
    | false =>
      simp only [Bool.false_eq_true, if_false]
      exact ⟨emitElement_noBlank env cfg parseNumAll parseNumCols st1.HeaderRow "" st1.first
        st1.parseNum record st1.out hindent hhdr hrec (by decide) hout, trivial⟩
    | true =>
      simp only [if_true]
      cases items with
      | nil => exact ⟨hout, rfl⟩
      | cons key rest =>
        simp only
        split
        · exact ⟨hout, rfl⟩
        · exact ⟨emitElement_noBlank env cfg parseNumAll parseNumCols st1.HeaderRow key st1.first
            st1.parseNum record st1.out hindent hhdr hrec
            (hrec key (fillItems_mem hfill key (List.mem_cons_self _ _))) hout, rfl⟩

theorem csv2jsonStep_noBlank (env : Env) (cfg : Csv2jsonConfig) (parseNumAll : Bool)
    (parseNumCols : List Int) (st0 : Csv2jsonState) (record : Record)
    (hindent : cfg.indent = "") (hrec : ∀ c ∈ record, noBlank c = true)
    (hout : ∀ s ∈ st0.out, noBlank s = true)
    (hhdr : ∀ c ∈ st0.HeaderRow, noBlank c = true) :
    (∀ s ∈ (csv2jsonStep env cfg parseNumAll parseNumCols st0 record).1.out,
        noBlank s = true) ∧
      (∀ c ∈ (csv2jsonStep env cfg parseNumAll parseNumCols st0 record).1.HeaderRow,
        noBlank c = true) := by
  unfold csv2jsonStep
  simp only
  split
  · unfold csv2jsonHeaderPhase
    split
    · exact ⟨hout, hhdr⟩
    · exact ⟨hout, hrec⟩
  · cases hck : csv2jsonCheckPhase cfg { st0 with line := st0.line + 1 } record with
    | error e => exact ⟨hout, hhdr⟩
    | ok st1 =>
      obtain ⟨ho, hh⟩ := csv2jsonCheckPhase_frame hck
      have hout1 : ∀ s ∈ st1.out, noBlank s = true := by rw [ho]; exact hout
      have hhdr1 : ∀ c ∈ st1.HeaderRow, noBlank c = true := by rw [hh]; exact hhdr
      obtain ⟨h1, h2⟩ := csv2jsonEmitPhase_noBlank env cfg parseNumAll parseNumCols st1 record
        hindent hrec hout1 hhdr1
      exact ⟨h1, by rw [h2]; exact hhdr1⟩

theorem csv2jsonLoop_noBlank (env : Env) (cfg : Csv2jsonConfig) (parseNumAll : Bool)
    (parseNumCols : List Int) (hindent : cfg.indent = "") (records : List Record)
    (hrec : ∀ r ∈ records, ∀ c ∈ r, noBlank c = true) (st : Csv2jsonState)
    (hout : ∀ s ∈ st.out, noBlank s = true)
    (hhdr : ∀ c ∈ st.HeaderRow, noBlank c = true) :
    ∀ s ∈ (csv2jsonLoop env cfg parseNumAll parseNumCols st records).1.out,
      noBlank s = true := by
  induction records generalizing st with
  | nil => exact hout
  | cons r rest ih =>
    unfold csv2jsonLoop
    obtain ⟨h1, h2⟩ := csv2jsonStep_noBlank env cfg parseNumAll parseNumCols st r hindent
      (hrec r (List.mem_cons_self _ _)) hout hhdr
    generalize csv2jsonStep env cfg parseNumAll parseNumCols st r = res at h1 h2 ⊢
    obtain ⟨st1, f⟩ := res
    cases f with
    | some e => exact h1
    | none => exact ih (fun x hx => hrec x (List.mem_cons_of_mem _ hx)) st1 h1 h2


theorem fieldsOfNames_no_names (env : Env) (c2f : String → Option (List Int))
    (record : Record) : fieldsOfNames env false [] c2f record = [] := by
  induction record with
  | nil => rfl
  | cons col rest ih => simp [fieldsOfNames, colMatches, ih]

/-- A data row of a run without a key: the element is written and nothing fails, provided
that in header mode the row is at least as wide as the header. -/
theorem csv2jsonStep_plain (env : Env) (cfg : Csv2jsonConfig) (parseNumAll : Bool)
    (parseNumCols : List Int) (st : Csv2jsonState) (record : Record)
    (hkeyed : cfg.keyed = false) (hph : st.parseHeaderRow = false)
    (hck : st.checkFields = false) (hf : st.fields = [])
    (hw : cfg.NoHeaderRow = false → st.HeaderRow.length ≤ record.length)
    (hinv : st.parseNum = true → parseNumAll = true) :
    ∃ st2, csv2jsonStep env cfg parseNumAll parseNumCols st record = (st2, none) ∧
      st2.parseHeaderRow = false ∧ st2.checkFields = false ∧ st2.fields = [] ∧
      st2.HeaderRow = st.HeaderRow ∧ (st2.parseNum = true → parseNumAll = true) := by
  obtain ⟨pn2, hpn2, hem⟩ := emitElement_eq env cfg parseNumAll parseNumCols st.HeaderRow ""
    st.first st.parseNum record st.out hinv hw
  unfold csv2jsonStep
  simp only [hph, Bool.false_eq_true, if_false]
  unfold csv2jsonCheckPhase
  simp only [hck, Bool.false_eq_true, if_false]
  unfold csv2jsonEmitPhase
  simp only [hf, fillItems, hkeyed, Bool.false_eq_true, if_false, hem]
  exact ⟨_, rfl, rfl, rfl, rfl, rfl, hpn2⟩

theorem csv2jsonLoop_plain (env : Env) (cfg : Csv2jsonConfig) (parseNumAll : Bool)
    (parseNumCols : List Int) (H : Record) (hkeyed : cfg.keyed = false)
    (rows : List Record) (hrows : cfg.NoHeaderRow = false → ∀ r ∈ rows, H.length ≤ r.length)
    (st : Csv2jsonState) (hph : st.parseHeaderRow = false) (hck : st.checkFields = false)
    (hf : st.fields = []) (hH : st.HeaderRow = H)
    (hinv : st.parseNum = true → parseNumAll = true) :
    (csv2jsonLoop env cfg parseNumAll parseNumCols st rows).2 = none := by
  induction rows generalizing st with
  | nil => rfl
  | cons r rest ih =>
    obtain ⟨st2, hstep, h1, h2, h3, h4, h5⟩ := csv2jsonStep_plain env cfg parseNumAll
      parseNumCols st r hkeyed hph hck hf
      (fun hn => by rw [hH]; exact hrows hn r (List.mem_cons_self _ _)) hinv
    unfold csv2jsonLoop
    rw [hstep]
    exact ih (fun hn x hx => hrows hn x (List.mem_cons_of_mem _ hx)) st2 h1 h2 h3
      (by rw [h4, hH]) h5

/-- A run without a key completes when the flags are accepted and, in header mode, every
data row is at least as wide as the header. -/
theorem csv2jsonRun_plain_completes (env : Env) (cfg : Csv2jsonConfig)
    (input : Option (List Record)) (pn : Bool × List Int) (hk : cfg.fieldStr = "")
    (hpn : parseNumLoop env cfg.parseNumFlags [] = .ok pn)
    (hrows : cfg.NoHeaderRow = false → ∀ header rest, input = some (header :: rest) →
      ∀ r ∈ rest, header.length ≤ r.length) :
    (csv2jsonRun env cfg input).failure = none := by
  have hkeyed : cfg.keyed = false := by simp [Csv2jsonConfig.keyed, hk]
  obtain ⟨parseNumAll, parseNumCols⟩ := pn
  unfold csv2jsonRun
  rw [hpn]
  simp only [csv2jsonKey, hkeyed, Bool.false_eq_true, if_false]
  cases input with
  | none => cases hn : cfg.NoHeaderRow <;> simp
  | some records =>
    cases hn : cfg.NoHeaderRow with
    | true =>
      simp only [Bool.not_true, Bool.false_eq_true, if_false]
      have hloop := csv2jsonLoop_plain env cfg parseNumAll parseNumCols [] hkeyed records
        (fun h => by rw [hn] at h; exact absurd h (by simp))
        (csv2jsonInit cfg parseNumAll [] false) rfl (by simp [csv2jsonInit, hkeyed]) rfl rfl
        (fun h => h)
      generalize csv2jsonLoop env cfg parseNumAll parseNumCols
        (csv2jsonInit cfg parseNumAll [] false) records = res at hloop ⊢
      obtain ⟨st, f⟩ := res
      simp only at hloop
      subst hloop
      rfl
    | false =>
      simp only [Bool.not_false, if_true]
      cases records with
      | nil => rfl
      | cons header rest =>
        have hstep : csv2jsonStep env cfg parseNumAll parseNumCols
            (csv2jsonInit cfg parseNumAll [] true) header =
            ({ csv2jsonInit cfg parseNumAll [] true with
                line := 1, parseHeaderRow := false, HeaderRow := header }, none) := by
          simp [csv2jsonStep, csv2jsonInit, csv2jsonHeaderPhase, parseHeader, resolveColnames,
            Csv2jsonConfig.colnames, hkeyed, fieldsOfNames_no_names]
        have hloop := csv2jsonLoop_plain env cfg parseNumAll parseNumCols header hkeyed rest
          (fun _ => hrows hn header rest rfl)
          { csv2jsonInit cfg parseNumAll [] true with
              line := 1, parseHeaderRow := false, HeaderRow := header }
          rfl (by simp [csv2jsonInit, hkeyed]) rfl rfl (fun h => h)
        unfold csv2jsonLoop
        rw [hstep]
        simp only
        generalize csv2jsonLoop env cfg parseNumAll parseNumCols
          { csv2jsonInit cfg parseNumAll [] true with
              line := 1, parseHeaderRow := false, HeaderRow := header } rest = res at hloop ⊢
        obtain ⟨st, f⟩ := res
        simp only at hloop
        subst hloop
        rfl

/-- C13. Empty indent gives one compact line.  For every input whose header names and
cells hold neither a space nor a newline (nothing is asked about other white space),
a run of csv2json with an empty indent string that completes writes a text `body`
followed by one newline, where `body` holds neither a newline nor a space: the output
has exactly one newline, its last character, and no space; in particular no newline
follows a bracket or a comma and no space follows a colon.  This holds for an input
reported empty too.  A run stopped by a failure has written no newline and no space.
A run without a key completes whenever its flags are accepted and, in header mode, every
data row is at least as wide as the header. -/
theorem csv2json_empty_indent_compact (env : Env) (cfg : Csv2jsonConfig)
    (input : Option (List Record)) (hindent : cfg.indent = "")
    (hcells : ∀ records, input = some records →
      ∀ r ∈ records, ∀ c ∈ r, noBlank c = true) :
    ((csv2jsonRun env cfg input).failure = none →
        ∃ body : String, (csv2jsonRun env cfg input).text = body ++ "\n" ∧
          noBlank body = true)
      ∧ ((csv2jsonRun env cfg input).failure ≠ none →
          noBlank (csv2jsonRun env cfg input).text = true)
      ∧ (cfg.fieldStr = "" →
          ∀ pn : Bool × List Int, parseNumLoop env cfg.parseNumFlags [] = .ok pn →
          (cfg.NoHeaderRow = false → ∀ header rest, input = some (header :: rest) →
            ∀ r ∈ rest, header.length ≤ r.length) →
          (csv2jsonRun env cfg input).failure = none) := by
  have hLF := LF_of_empty_indent cfg hindent
  have main : ((csv2jsonRun env cfg input).failure = none →
        ∃ body : String, (csv2jsonRun env cfg input).text = body ++ "\n" ∧
          noBlank body = true)
      ∧ ((csv2jsonRun env cfg input).failure ≠ none →
          noBlank (csv2jsonRun env cfg input).text = true) := by
    unfold csv2jsonRun
    cases hpn : parseNumLoop env cfg.parseNumFlags [] with
    | error e => exact ⟨fun h => by simp at h, fun _ => rfl⟩
    | ok pn =>
      obtain ⟨parseNumAll, parseNumCols⟩ := pn
      simp only
      cases hkey : csv2jsonKey cfg with
      | error e => exact ⟨fun h => by simp at h, fun _ => rfl⟩
      | ok kf =>
        obtain ⟨fields, parseHeaderRow⟩ := kf
        simp only
        cases input with
        | none =>
          simp only
          refine ⟨fun _ => ?_, fun h => by simp at h⟩
          cases cfg.keyed
          · refine ⟨"[]", ?_, by decide⟩
            show String.join ["[", "]\n"] = "[]" ++ "\n"
            decide
          · refine ⟨"\x7b\x7d", ?_, by decide⟩
            show String.join ["\x7b", "\x7d\n"] = "\x7b\x7d" ++ "\n"
            decide
        | some records =>
          simp only
          have hinit : ∀ s ∈ (csv2jsonInit cfg parseNumAll fields parseHeaderRow).out,
              noBlank s = true := by
            intro s hs
            simp only [csv2jsonInit, hLF, List.mem_cons, List.mem_singleton,
              List.mem_nil_iff, or_false] at hs
            rcases hs with hs | hs
            · rw [hs]; cases cfg.keyed <;> decide
            · rw [hs]; decide
          have hloop := csv2jsonLoop_noBlank env cfg parseNumAll parseNumCols hindent records
            (hcells records rfl) (csv2jsonInit cfg parseNumAll fields parseHeaderRow) hinit
            (by simp [csv2jsonInit])
          generalize csv2jsonLoop env cfg parseNumAll parseNumCols
            (csv2jsonInit cfg parseNumAll fields parseHeaderRow) records = res at hloop ⊢
          obtain ⟨st, f⟩ := res
          cases f with
          | some e =>
            refine ⟨fun h => by simp at h, fun _ => ?_⟩
            exact noBlank_join st.out hloop
          | none =>
            refine ⟨fun _ => ?_, fun h => by simp at h⟩
            simp only [hLF, Csv2jsonResult.text]
            refine ⟨String.join (st.out ++ ["", if cfg.keyed then "\x7d" else "]"]), ?_, ?_⟩
            · apply String.ext
              cases cfg.keyed <;> simp [String.data_join]
            · apply noBlank_join
              intro s hs
              rcases List.mem_append.1 hs with hs | hs
              · exact hloop s hs
              · simp only [List.mem_cons, List.mem_singleton, List.mem_nil_iff, or_false] at hs
                rcases hs with hs | hs
                · rw [hs]; decide
                · rw [hs]; cases cfg.keyed <;> decide
  exact ⟨main.1, main.2, fun hk pn hpn hrows =>
    csv2jsonRun_plain_completes env cfg input pn hk hpn hrows⟩

theorem csv2json_empty_indent_compact_witness :
    ∃ body : String,
      (csv2jsonRun refEnv ⟨"data.csv", false, false, [], "", "", ⟨[], [], false, false⟩⟩
        (some [["id", "v"], ["1", "x"], ["2", "y"]])).text = body ++ "\n" ∧
        noBlank body = true :=
  (csv2json_empty_indent_compact refEnv
    ⟨"data.csv", false, false, [], "", "", ⟨[], [], false, false⟩⟩
    (some [["id", "v"], ["1", "x"], ["2", "y"]]) rfl
    (fun records h => by
      simp only [Option.some.injEq] at h
      subst h
      decide)).1 (by decide)

/-! ## round: cells of the pattern that are not numbers -/

/-- A string made only of digits, signs, dots and commas (the empty string too) matches
the numeric-token pattern, as its own mantissa and with no exponent suffix. -/
theorem reDigitalsCaptFind_mantissa (s : String)
    (h : ∀ c ∈ s.data, isMantissaChar c = true) : reDigitalsCaptFind s = some (s, "") := by
  unfold reDigitalsCaptFind
  have h1 : s.data.takeWhile isMantissaChar = s.data := List.takeWhile_eq_self_iff.2 h
  have h2 : s.data.dropWhile isMantissaChar = [] := List.dropWhile_eq_nil_iff.2 h
  simp only [h1, h2]

theorem padZeros_zero (n : Nat) (h : 0 < n) : padZeros n 0 = ⟨List.replicate n '0'⟩ := by
  unfold padZeros decimalLength
  have h0 : Nat.toDigits 10 0 = ['0'] := by decide
  rw [h0]
  apply String.ext
  show List.replicate (n - 1) '0' ++ ['0'] = List.replicate n '0'
  obtain ⟨m, rfl⟩ : ∃ m, n = m + 1 := ⟨n - 1, by omega⟩
  rw [Nat.add_sub_cancel, List.replicate_succ']

/-- Zero printed by `%.Nf`: `0` when `N = 0`, else `0.` and `N` zeros. -/
theorem sprintfFixed_zero (prec : Nat) :
    sprintfFixed prec (.finite false 0 0) =
      if prec = 0 then "0" else "0." ++ ⟨List.replicate prec '0'⟩ := by
  unfold sprintfFixed
  simp only [le_refl, if_true, Nat.zero_mul, Nat.zero_div, Nat.zero_mod, Bool.false_eq_true,
    if_false]
  by_cases hp : prec = 0
  · simp only [hp, if_true]
    decide
  · simp only [hp, if_false]
    rw [padZeros_zero prec (by omega)]
    have : toString 0 = "0" := by decide
    rw [this]
    rfl

theorem scanMantissa_zeros (n frac : Nat) :
    scanMantissa (List.replicate n '0') true true 0 frac = (true, 0, frac + n, []) := by
  induction n generalizing frac with
  | zero => rfl
  | succ k ih =>
    rw [List.replicate_succ]
    unfold scanMantissa
    have h1 : ('0' = '.') = False := by decide
    have h2 : Char.isDigit '0' = true := by decide
    simp only [h1, if_false, h2, if_true]
    rw [show 10 * 0 + ('0'.toNat - '0'.toNat) = 0 by decide, ih]
    have : frac + 1 + k = frac + (k + 1) := by omega
    rw [this]

/-- Zero as `%.Nf` prints it is a number for `strconv.ParseFloat`. -/
theorem readFloat_zero_string (prec : Nat) :
    readFloat (if prec = 0 then "0" else "0." ++ ⟨List.replicate prec '0'⟩) ≠ none := by
  by_cases hp : prec = 0
  · rw [if_pos hp]
    decide
  · rw [if_neg hp]
    have hscan : scanMantissa ('0' :: '.' :: List.replicate prec '0') false false 0 0 =
        (true, 0, 0 + prec, []) := by
      rw [← scanMantissa_zeros prec 0]
      rfl
    have hread : readFloat ("0." ++ (⟨List.replicate prec '0'⟩ : String)) =
        match scanMantissa ('0' :: '.' :: List.replicate prec '0') false false 0 0 with
        | (sawdigits, mant, frac, rest) =>
          if sawdigits then
            match readExponent rest with
            | some e => some (false, mant, e - (frac : Int))
            | none => none
          else none := rfl
    rw [hread, hscan]
    simp [readExponent]

/-- C21. Cells that are not numbers but match the token pattern become zero.  The
numeric-token pattern of `round` matches the empty string and every string made only of
digits, signs, dots and commas, as a mantissa with no exponent suffix.  For every
selected cell of that shape that `strconv.ParseFloat` rejects (its value is then `0`, the
error being dropped), `round` writes zero formatted to `N` decimals, `0` when `N = 0` and
else `0.` followed by `N` zeros, which is never the cell itself.  With `N = 2` the empty
cell, `-`, `.` and `1,000` all become `0.00`. -/
theorem roundCell_not_a_number_becomes_zero (env : Env) (decimalWidth : Nat) (cell : String)
    (hfmt : env.formatFloat = goFormatFloat)
    (hshape : ∀ c ∈ cell.data, isMantissaChar c = true)
    (hnot : readFloat cell = none) :
    (∀ s : String, (∀ c ∈ s.data, isMantissaChar c = true) →
        reDigitalsCaptFind s = some (s, ""))
      ∧ reDigitalsCaptFind "" = some ("", "")
      ∧ roundCell env decimalWidth cell = sprintfFixed decimalWidth (.finite false 0 0)
      ∧ roundCell env decimalWidth cell =
          (if decimalWidth = 0 then "0" else "0." ++ ⟨List.replicate decimalWidth '0'⟩)
      ∧ roundCell env decimalWidth cell ≠ cell
      ∧ (readFloat "" = none ∧ readFloat "-" = none ∧ readFloat "." = none
          ∧ readFloat "1,000" = none)
      ∧ (roundCell refEnv 2 "" = "0.00" ∧ roundCell refEnv 2 "-" = "0.00"
          ∧ roundCell refEnv 2 "." = "0.00" ∧ roundCell refEnv 2 "1,000" = "0.00") := by
  have hcell : roundCell env decimalWidth cell =
      sprintfFixed decimalWidth (.finite false 0 0) := by
    unfold roundCell
    rw [reDigitalsCaptFind_mantissa cell hshape]
    simp only [if_true, hfmt, goFormatFloat, parseFloat, hnot]
  refine ⟨reDigitalsCaptFind_mantissa, by decide, hcell, ?_, ?_, by decide, by decide⟩
  · rw [hcell, sprintfFixed_zero]
  · intro heq
    rw [hcell, sprintfFixed_zero] at heq
    have := readFloat_zero_string decimalWidth
    rw [heq] at this
    exact this hnot

theorem roundCell_not_a_number_becomes_zero_witness :
    roundCell refEnv 3 "+1,5.-" = "0.000" ∧ roundCell refEnv 3 "+1,5.-" ≠ "+1,5.-" :=
  have h := roundCell_not_a_number_becomes_zero refEnv 3 "+1,5.-" rfl (by decide) (by decide)
  ⟨h.2.2.2.1.trans (by decide), h.2.2.2.2.1⟩

/-! ## round: the output buffer -/

theorem fillBuffer_length (env : Env) (cfg : RoundConfig) (fieldsMap : List Int)
    (buffer row : List String) (h : row.length ≤ buffer.length) :
    (fillBuffer env cfg fieldsMap buffer row).length = buffer.length := by
  unfold fillBuffer
  rw [List.length_append, rewriteRow_length, List.length_drop]
  omega

/-- A data row after the first record, at most as wide as the output buffer: its cells
overwrite the head of the buffer, the rest of the buffer stays, and the buffer is
written. -/
theorem roundStep_short_row (env : Env) (cfg : RoundConfig) (st : RoundState) (row : Record)
    (hph : st.parseHeaderRow = false) (hck : st.checkFields = false)
    (hph2 : st.parseHeaderRow2 = false) (hw : row.length ≤ st.record2.length) :
    roundStep env cfg st row =
      .ok { st with record2 := fillBuffer env cfg st.fieldsMap st.record2 row
                    written := st.written ++ [fillBuffer env cfg st.fieldsMap st.record2 row] }
    := by
  have hcells := roundCells_eq env cfg st.fieldsMap row 0 [] (st.record2.take row.length)
    (st.record2.drop row.length) rfl (by rw [List.length_take]; omega)
  rw [List.nil_append, List.take_append_drop, List.nil_append] at hcells
  unfold roundStep roundHeaderPhase
  simp only [hph, Bool.false_eq_true, if_false]
  unfold roundCheckPhase
  simp only [hck, Bool.false_eq_true, if_false]
  unfold roundWritePhase
  simp only [hph2, Bool.false_eq_true, if_false]
  rw [hcells]
  simp [hph, hck, fillBuffer]

theorem roundLoop_short_rows (env : Env) (cfg : RoundConfig) (w : Nat) (rows : List Record)
    (hrows : ∀ r ∈ rows, r.length ≤ w) (st : RoundState)
    (hph : st.parseHeaderRow = false) (hck : st.checkFields = false)
    (hph2 : st.parseHeaderRow2 = false) (hw : st.record2.length = w) :
    (roundLoop env cfg st rows).2 = none ∧
      (roundLoop env cfg st rows).1.record2.length = w ∧
      (roundLoop env cfg st rows).1.written =
        st.written ++ writtenRows env cfg st.fieldsMap st.record2 rows := by
  induction rows generalizing st with
  | nil => simp [roundLoop, writtenRows, hw]
  | cons r rest ih =>
    have hr : r.length ≤ st.record2.length := by
      rw [hw]
      exact hrows r (List.mem_cons_self _ _)
    unfold roundLoop
    rw [roundStep_short_row env cfg st r hph hck hph2 hr]
    simp only
    obtain ⟨h1, h2, h3⟩ := ih (fun x hx => hrows x (List.mem_cons_of_mem _ hx))
      { st with record2 := fillBuffer env cfg st.fieldsMap st.record2 r
                written := st.written ++ [fillBuffer env cfg st.fieldsMap st.record2 r] }
      hph hck hph2 (by rw [fillBuffer_length _ _ _ _ _ hr]; exact hw)
    refine ⟨h1, h2, ?_⟩
    rw [h3]
    simp [writtenRows]

/-- The output buffer after the first record of a run: empty strings when that record is
a header row, the rewritten record otherwise. -/
theorem roundStep_first_buffer {env : Env} {cfg : RoundConfig} {first : Record}
    {st1 : RoundState} (h : roundStep env cfg (roundInit cfg) first = .ok st1) :
    st1.record2 = if cfg.parsed.needParseHeaderRow then List.replicate first.length ""
      else rewriteRow env cfg st1.fieldsMap first 0 := by
  unfold roundStep at h
  cases hh : roundHeaderPhase env cfg (roundInit cfg) first with
  | error e => rw [hh] at h; simp at h
  | ok sth =>
    rw [hh] at h
    simp only at h
    have hsth : sth.checkFields = true ∧
        sth.parseHeaderRow2 = cfg.parsed.needParseHeaderRow := by
      unfold roundHeaderPhase at hh
      split at hh
      · split at hh
        · simp at hh
        · simp only [Except.ok.injEq] at hh
          subst hh
          simp [roundInit]
      · simp only [Except.ok.injEq] at hh
        subst hh
        exact ⟨rfl, rfl⟩
    obtain ⟨hck, hph2⟩ := hsth
    unfold roundCheckPhase at h
    rw [if_pos hck] at h
    cases hv : validateFields cfg.file cfg.parsed.negativeFields sth.fieldsMap first with
    | error e => rw [hv] at h; simp at h
    | ok fields2 =>
      rw [hv] at h
      simp only at h
      unfold roundWritePhase at h
      simp only [hph2] at h
      cases hn : cfg.parsed.needParseHeaderRow with
      | true =>
        rw [hn] at h
        simp only [if_true, Except.ok.injEq] at h
        subst h
        rfl
      | false =>
        rw [hn] at h
        simp only [Bool.false_eq_true, if_false] at h
        rw [roundCells_full env cfg fields2 first _ (by simp)] at h
        simp only [Except.ok.injEq] at h
        subst h
        rfl

theorem fillBuffer_getElem?_lt (env : Env) (cfg : RoundConfig) (fieldsMap : List Int)
    (buffer row : List String) (i : Nat) (cell : String) (h : row[i]? = some cell) :
    (fillBuffer env cfg fieldsMap buffer row)[i]? =
      some (if fieldsMap.contains ((i : Int) + 1) || cfg.allFields then
        roundCell env cfg.decimalWidth cell else cell) := by
  have hlt : i < row.length := by
    by_contra hge
    rw [List.getElem?_eq_none (by omega)] at h
    exact absurd h (by simp)
  unfold fillBuffer
  rw [List.getElem?_append_left (by rw [rewriteRow_length]; exact hlt),
    rewriteRow_getElem? env cfg fieldsMap row 0 i cell h, Nat.zero_add]

theorem fillBuffer_getElem?_ge (env : Env) (cfg : RoundConfig) (fieldsMap : List Int)
    (buffer row : List String) (i : Nat) (h : row.length ≤ i) :
    (fillBuffer env cfg fieldsMap buffer row)[i]? = buffer[i]? := by
  unfold fillBuffer
  rw [List.getElem?_append_right (by rw [rewriteRow_length]; exact h), rewriteRow_length,
    List.getElem?_drop]
  congr 1
  omega

/-- C22. The output buffer of `round` keeps the first row's width.  The buffer is
allocated once, on the first record read, with that record's width `W` (empty strings
after a header row, the rewritten record after a first data row), and no later record
changes its width.  For every later data row with at most `W` cells (fewer, in
particular) the run goes on and the written row is the buffer: it has `W` cells, the
cell at each position of the current row comes from the current row (rewritten when
selected), and each cell beyond the current row's width is the one the buffer held
before, that is the cell written at that position for the previous data row, or the
empty string when there was none.  A short row is padded with stale data, not rejected. -/
theorem round_buffer_keeps_first_width (env : Env) (cfg : RoundConfig) (first : Record)
    (rows : List Record) (st1 : RoundState)
    (hfirst : roundStep env cfg (roundInit cfg) first = .ok st1)
    (hrows : ∀ r ∈ rows, r.length ≤ first.length) :
    st1.record2 = (if cfg.parsed.needParseHeaderRow then List.replicate first.length ""
        else rewriteRow env cfg st1.fieldsMap first 0)
      ∧ st1.record2.length = first.length
      ∧ (roundRun env cfg (first :: rows)).2 = none
      ∧ (roundRun env cfg (first :: rows)).1.record2.length = first.length
      ∧ (roundRun env cfg (first :: rows)).1.written =
          (if cfg.parsed.needParseHeaderRow then first
            else rewriteRow env cfg st1.fieldsMap first 0) ::
          writtenRows env cfg st1.fieldsMap st1.record2 rows
      ∧ ∀ buffer row : List String, buffer.length = first.length →
          row.length ≤ first.length →
          (fillBuffer env cfg st1.fieldsMap buffer row).length = first.length
          ∧ (∀ (i : Nat) (cell : String), row[i]? = some cell →
              (fillBuffer env cfg st1.fieldsMap buffer row)[i]? =
                some (if st1.fieldsMap.contains ((i : Int) + 1) || cfg.allFields then
                  roundCell env cfg.decimalWidth cell else cell))
          ∧ (∀ i : Nat, row.length ≤ i →
              (fillBuffer env cfg st1.fieldsMap buffer row)[i]? = buffer[i]?) := by
  obtain ⟨_, _, hph, hck, hph2, hw, hwr⟩ := roundStep_first hfirst
  obtain ⟨h1, h2, h3⟩ :=
    roundLoop_short_rows env cfg first.length rows hrows st1 hph hck hph2 hw
  have hrun : roundRun env cfg (first :: rows) = roundLoop env cfg st1 rows := by
    show roundLoop env cfg (roundInit cfg) (first :: rows) = _
    rw [roundLoop, hfirst]
  refine ⟨roundStep_first_buffer hfirst, hw, by rw [hrun]; exact h1, by rw [hrun]; exact h2,
    ?_, ?_⟩
  · rw [hrun, h3, hwr]
    rfl
  · intro buffer row hb hr
    exact ⟨by rw [fillBuffer_length _ _ _ _ _ (by omega), hb],
      fun i cell hc => fillBuffer_getElem?_lt env cfg st1.fieldsMap buffer row i cell hc,
      fun i hi => fillBuffer_getElem?_ge env cfg st1.fieldsMap buffer row i hi⟩

theorem round_buffer_keeps_first_width_witness :
    (roundRun refEnv ⟨"data.csv", 2, false, false, ⟨[1], [], false, true⟩⟩
        [["x", "y", "z"], ["5"], ["1.239", "b", "c"], ["2"], ["7", "q"]]).1.written =
      [["x", "y", "z"], ["5.00", "", ""], ["1.24", "b", "c"], ["2.00", "b", "c"],
        ["7.00", "q", "c"]] :=
  (round_buffer_keeps_first_width refEnv ⟨"data.csv", 2, false, false, ⟨[1], [], false, true⟩⟩
    ["x", "y", "z"] [["5"], ["1.239", "b", "c"], ["2"], ["7", "q"]]
    ⟨false, false, false, [1], [1], ["", "", ""], [["x", "y", "z"]]⟩ rfl
    (by decide)).2.2.2.2.1.trans (by decide)

end Csvtk
